import Mathlib

/-!
Verification of the a2a-connector transformation engine.

This file shallowly embeds the Go sources of the A2AGateway/a2a-connector
repository (principally `internal/proxy/config_transformer.go`,
`internal/proxy/transformer.go` and `internal/config/types.go`) in Lean 4
and proves properties of the embedded definitions.

Modeling conventions:
- Go `interface{}` values produced by `encoding/json.Unmarshal` are modeled
  by the inductive `JValue`; `map[string]interface{}` is an association list
  with first-match lookup and update-or-append assignment (Go maps have
  unique keys, which assoc-list first-match semantics refines).
- Go `float64` numbers are carried as their `fmt.Sprintf("%v", _)` rendering,
  since no arithmetic is ever performed on them by the embedded code.
- Compiled regular expressions (`*regexp.Regexp`) are abstracted as a pair of
  functions `MatchString` / `FindStringSubmatch`; compiled `text/template`
  templates are abstracted as a rendering function that may fail.
- JSON (de)serialization at the byte layer is not modeled; the transformer
  functions are embedded at the level of parsed objects, with an explicit
  wrapper distinguishing the sole parse-failure error path.
- Reference (aliasing) semantics of Go maps, which one claim depends on, is
  modeled separately by a heap-based embedding (`Heap`, `HVal`) later in the
  file; the plain `JValue` embedding treats maps as trees (copies).
-/

namespace A2AConnector

/-- JSON-like dynamic value, modeling the Go `interface{}` data that
`encoding/json.Unmarshal` produces: `nil`, `bool`, `float64` (kept as its
Go `%v` rendering), `string`, `[]interface{}`, `map[string]interface{}`. -/
inductive JValue where
  | null
  | bool (b : Bool)
  | num (rendered : String)
  | str (s : String)
  | arr (elems : List JValue)
  | obj (fields : List (String × JValue))

instance : Inhabited JValue := ⟨.null⟩

/-- Go map read `m[k]`: the value at key `k`, if present. -/
def lookupStr : List (String × JValue) → String → Option JValue
  | [], _ => none
  | (k', v) :: rest, k => if k' = k then some v else lookupStr rest k

/-- Go map assignment `m[k] = v`: replace the binding of `k` in place if
present, append it otherwise. -/
def insertStr : List (String × JValue) → String → JValue → List (String × JValue)
  | [], k, v => [(k, v)]
  | (k', v') :: rest, k, v =>
    if k' = k then (k, v) :: rest else (k', v') :: insertStr rest k v

/-- `strings.Split(s, ".")` at the character-list level: splits around every
`'.'`; the empty string yields `[[]]`, as in Go. Structurally recursive so
that it evaluates by reduction. -/
def splitDotChars : List Char → List (List Char)
  | [] => [[]]
  | c :: rest =>
    if c = '.' then [] :: splitDotChars rest
    else
      match splitDotChars rest with
      | [] => [[c]]
      | t :: ts => (c :: t) :: ts

/-- `strings.Split(path, ".")`, as used by `getValueByPath` and `setValue`. -/
def splitPath (path : String) : List String :=
  (splitDotChars path.data).map String.mk

theorem splitDotChars_ne_nil (cs : List Char) : splitDotChars cs ≠ [] := by
  match cs with
  | [] => simp [splitDotChars]
  | c :: rest =>
    simp only [splitDotChars]
    split
    · simp
    · split <;> simp

theorem splitPath_ne_nil (path : String) : splitPath path ≠ [] := by
  simpa [splitPath] using splitDotChars_ne_nil path.data

/-- Loop body of Go `getValueByPath` (config_transformer.go:330-354): walk the
segments, descending only through nested objects (Go's
`map[string]interface{}` type assertion; the `map[string]string` coercion
branch is subsumed because every map is already a `JValue.obj` here), and
return the value at the final segment. A missing intermediate or a
non-container intermediate yields `none` (Go `nil`). -/
def getPath : List (String × JValue) → List String → Option JValue
  | _, [] => none
  | m, [p] => lookupStr m p
  | m, p :: rest =>
    match lookupStr m p with
    | some (.obj o) => getPath o rest
    | _ => none

/-- Go `getValueByPath(data, path)` (config_transformer.go:330-354). -/
def getValueByPath (data : List (String × JValue)) (path : String) : Option JValue :=
  getPath data (splitPath path)

/-- Loop body of Go `setValue` (config_transformer.go:357-389): for every
segment but the last, reuse the object found at the segment (the
`map[string]string` branch converts but keeps its contents) or silently
overwrite whatever else is there with a fresh empty object; assign the value
at the last segment. -/
def setPath : List (String × JValue) → List String → JValue → List (String × JValue)
  | m, [], _ => m
  | m, [p], v => insertStr m p v
  | m, p :: rest, v =>
    let sub := match lookupStr m p with
      | some (.obj o) => o
      | _ => []
    insertStr m p (.obj (setPath sub rest v))

/-- Go `setValue(data, path, value)` (config_transformer.go:357-389). -/
def setValue (data : List (String × JValue)) (path : String) (value : JValue) :
    List (String × JValue) :=
  setPath data (splitPath path) value

theorem lookupStr_insertStr_self (m : List (String × JValue)) (k : String) (v : JValue) :
    lookupStr (insertStr m k v) k = some v := by
  induction m with
  | nil => simp [insertStr, lookupStr]
  | cons kv rest ih =>
    obtain ⟨k', v'⟩ := kv
    by_cases h : k' = k <;> simp [insertStr, lookupStr, h, ih]

theorem lookupStr_insertStr_ne (m : List (String × JValue)) {k k' : String} (v : JValue)
    (h : k' ≠ k) : lookupStr (insertStr m k' v) k = lookupStr m k := by
  induction m with
  | nil => simp [insertStr, lookupStr, h]
  | cons kv rest ih =>
    obtain ⟨k'', v''⟩ := kv
    by_cases h2 : k'' = k'
    · subst h2; simp [insertStr, lookupStr, h]
    · by_cases h3 : k'' = k
      · subst h3; simp [insertStr, lookupStr, h2]
      · simp [insertStr, lookupStr, h2, h3, ih]

/-- Write/read round trip at the segment level: after `setPath` along a
nonempty segment list, `getPath` along the same segments returns the value. -/
theorem getPath_setPath_self :
    ∀ (ps : List String) (m : List (String × JValue)) (v : JValue), ps ≠ [] →
      getPath (setPath m ps v) ps = some v
  | [], _, _, h => absurd rfl h
  | [p], m, v, _ => by simp [setPath, getPath, lookupStr_insertStr_self]
  | p :: q :: rest, m, v, _ => by
    simp only [setPath, getPath, lookupStr_insertStr_self]
    exact getPath_setPath_self (q :: rest) _ v (by simp)

/-- Every intermediate container created by `setPath` is readable: `getPath`
on any proper nonempty segment-prefix returns an object. -/
theorem getPath_setPath_take :
    ∀ (ps : List String) (m : List (String × JValue)) (v : JValue) (k : Nat),
      0 < k → k < ps.length →
      ∃ o, getPath (setPath m ps v) (ps.take k) = some (JValue.obj o)
  | [], _, _, _, _, h => by simp at h
  | [p], _, _, k, hk, hk2 => by simp at hk2; omega
  | p :: q :: rest, m, v, 1, _, _ => by
    refine ⟨setPath (match lookupStr m p with | some (.obj o) => o | _ => []) (q :: rest) v, ?_⟩
    simp [setPath, getPath, lookupStr_insertStr_self]
  | p :: q :: rest, m, v, k + 2, _, hk2 => by
    simp only [List.length_cons] at hk2
    obtain ⟨o, ho⟩ := getPath_setPath_take (q :: rest)
      (match lookupStr m p with | some (.obj o) => o | _ => []) v (k + 1) (by omega)
      (by simp only [List.length_cons]; omega)
    refine ⟨o, ?_⟩
    rw [List.take_succ_cons] at ho
    simp only [List.take_succ_cons, getPath, setPath, lookupStr_insertStr_self]
    exact ho

/-- Two dot-paths are independent when neither segment list is a prefix of
the other; a `setValue` along one cannot then affect a `getPath` along the
other. -/
def PathIndep (ps qs : List String) : Prop := ¬ ps <+: qs ∧ ¬ qs <+: ps

instance (ps qs : List String) : Decidable (PathIndep ps qs) := by
  unfold PathIndep; infer_instance

/-- `setPath` starting from an empty object creates only the written chain:
reading any independent segment list yields nothing. -/
theorem getPath_setPath_nil_indep :
    ∀ (ps qs : List String) (v : JValue), PathIndep ps qs →
      getPath (setPath [] ps v) qs = none
  | [], qs, _, h => absurd (List.nil_prefix) h.1
  | _ :: _, [], _, h => absurd (List.nil_prefix) h.2
  | [p], q :: qs, v, h => by
    by_cases hpq : p = q
    · subst hpq
      match qs, h with
      | [], h => exact absurd (List.prefix_refl [p]) h.1
      | q' :: qs', h =>
        exact absurd (by simp [List.cons_prefix_cons]) h.1
    · match qs with
      | [] => simp [setPath, getPath, insertStr, lookupStr, hpq]
      | q' :: qs' => simp [setPath, getPath, insertStr, lookupStr, hpq]
  | p :: p' :: ps, q :: qs, v, h => by
    by_cases hpq : p = q
    · subst hpq
      match qs, h with
      | [], h => exact absurd (by simp [List.cons_prefix_cons]) h.2
      | q' :: qs', h =>
        have hind : PathIndep (p' :: ps) (q' :: qs') := by
          constructor
          · intro hc; exact h.1 (by simp [List.cons_prefix_cons, hc])
          · intro hc; exact h.2 (by simp [List.cons_prefix_cons, hc])
        simp only [setPath, getPath, insertStr, lookupStr, if_pos rfl]
        exact getPath_setPath_nil_indep (p' :: ps) (q' :: qs') v hind
    · match qs with
      | [] => simp [setPath, getPath, insertStr, lookupStr, hpq]
      | q' :: qs' => simp [setPath, getPath, insertStr, lookupStr, hpq]

/-- Separation: `setPath` along `ps` leaves `getPath` along any independent
`qs` unchanged. -/
theorem getPath_setPath_indep :
    ∀ (ps qs : List String) (m : List (String × JValue)) (v : JValue), PathIndep ps qs →
      getPath (setPath m ps v) qs = getPath m qs
  | [], qs, _, _, h => absurd (List.nil_prefix) h.1
  | _ :: _, [], _, _, h => absurd (List.nil_prefix) h.2
  | [p], q :: qs, m, v, h => by
    by_cases hpq : p = q
    · subst hpq
      match qs, h with
      | [], h => exact absurd (List.prefix_refl [p]) h.1
      | q' :: qs', h => exact absurd (by simp [List.cons_prefix_cons]) h.1
    · match qs with
      | [] => simp [setPath, getPath, lookupStr_insertStr_ne m v hpq]
      | q' :: qs' => simp [setPath, getPath, lookupStr_insertStr_ne m v hpq]
  | p :: p' :: ps, q :: qs, m, v, h => by
    by_cases hpq : p = q
    · subst hpq
      match qs, h with
      | [], h => exact absurd (by simp [List.cons_prefix_cons]) h.2
      | q' :: qs', h =>
        have hind : PathIndep (p' :: ps) (q' :: qs') := by
          constructor
          · intro hc; exact h.1 (by simp [List.cons_prefix_cons, hc])
          · intro hc; exact h.2 (by simp [List.cons_prefix_cons, hc])
        simp only [setPath, getPath, lookupStr_insertStr_self]
        match hm : lookupStr m p with
        | some (.obj o) =>
          exact getPath_setPath_indep (p' :: ps) (q' :: qs') o v hind
        | none => exact getPath_setPath_nil_indep (p' :: ps) (q' :: qs') v hind
        | some .null => exact getPath_setPath_nil_indep (p' :: ps) (q' :: qs') v hind
        | some (.bool b) => exact getPath_setPath_nil_indep (p' :: ps) (q' :: qs') v hind
        | some (.num s) => exact getPath_setPath_nil_indep (p' :: ps) (q' :: qs') v hind
        | some (.str s) => exact getPath_setPath_nil_indep (p' :: ps) (q' :: qs') v hind
        | some (.arr xs) => exact getPath_setPath_nil_indep (p' :: ps) (q' :: qs') v hind
    · match qs with
      | [] => simp [setPath, getPath, lookupStr_insertStr_ne m _ hpq]
      | q' :: qs' => simp [setPath, getPath, lookupStr_insertStr_ne m _ hpq]

/-- C3: for every root map, dot-delimited path and value,
`get(set(root, path, value), path) = value` — `setValue` creates missing
intermediate containers (silently overwriting non-container intermediates) —
and every intermediate container so created is itself readable via `getPath`
on the corresponding nonempty proper segment-prefix of the path. -/
theorem c3_get_set_roundtrip (root : List (String × JValue)) (path : String) (value : JValue) :
    getValueByPath (setValue root path value) path = some value ∧
    ∀ k, 0 < k → k < (splitPath path).length →
      ∃ o, getPath (setValue root path value) ((splitPath path).take k) = some (JValue.obj o) := by
  constructor
  · exact getPath_setPath_self (splitPath path) root value (splitPath_ne_nil path)
  · intro k hk hk2
    exact getPath_setPath_take (splitPath path) root value k hk hk2

/-- Witness for C3 at a concrete input: setting `"a.b.c"` in an empty root and
reading it back, and reading the created intermediate container at `["a"]`. -/
theorem c3_get_set_roundtrip_witness :
    getValueByPath (setValue [] "a.b.c" (JValue.str "x")) "a.b.c" = some (JValue.str "x") ∧
    ∃ o, getPath (setValue [] "a.b.c" (JValue.str "x")) ((splitPath "a.b.c").take 1) =
      some (JValue.obj o) :=
  ⟨(c3_get_set_roundtrip [] "a.b.c" (JValue.str "x")).1,
   (c3_get_set_roundtrip [] "a.b.c" (JValue.str "x")).2 1 (by decide) (by decide)⟩

/-- Abstraction of a compiled Go `*regexp.Regexp`: `matchString` models
`MatchString` and `findStringSubmatch` models `FindStringSubmatch`, which
returns the empty list when there is no match (Go returns a nil slice) and
otherwise the full match followed by one entry per capture group. -/
structure Pattern where
  matchString : String → Bool
  findStringSubmatch : String → List String

/-- `config.ParameterMapping` (types.go:48-54). `compiled` is the compiled
`Pattern` field (`nil` modeled as `none`). -/
structure ParameterMapping where
  source : String
  pattern : String
  target : String
  default : String
  compiled : Option Pattern

/-- `config.ResponseTransform` (types.go:57-63). `compiled` abstracts the
compiled `text/template`: executing it against the legacy response either
renders a string or fails (`none`, Go `Execute` returning an error). -/
structure ResponseTransform where
  template : String := ""
  mappings : List (String × String) := []
  statusPath : String := ""
  errorPath : String := ""
  compiled : Option (List (String × JValue) → Option String) := none

instance : Inhabited ResponseTransform := ⟨{}⟩

/-- `config.MappingConfig` (types.go:37-45); `compiledTemplate` is never read
by the transformer and is omitted. -/
structure MappingConfig where
  intentPattern : String
  endpoint : String
  method : String
  parameterMappings : List ParameterMapping
  responseTransform : ResponseTransform
  compiledPattern : Option Pattern

/-- `config.TransformRule` (types.go:72-78). -/
structure TransformRule where
  source : String
  target : String
  regex : String := ""
  template : String := ""
  compiled : Option Pattern := none

/-- `config.TransformConfig` (types.go:66-69). -/
structure TransformConfig where
  a2aToLegacy : List TransformRule
  legacyToA2A : List TransformRule

/-- `config.ConnectorConfig` (types.go:11-16), restricted to the fields the
transformer reads (`Adapter` and `Variables` are consumed only by the
excluded configuration-loading and header-injection layers). -/
structure ConnectorConfig where
  mappings : List MappingConfig
  transforms : TransformConfig

/-- ASCII case folding, modeling `strings.ToLower` on the ASCII texts the
connector handles (Unicode simple case folding is not modeled). -/
def toLowerGo (s : String) : String :=
  String.mk (s.data.map Char.toLower)

/-- The per-mapping test in `findMatchingMapping`: a non-nil compiled intent
pattern that matches the lower-cased text. -/
def intentMatches (lower : String) (m : MappingConfig) : Bool :=
  match m.compiledPattern with
  | some p => p.matchString lower
  | none => false

/-- Go `findMatchingMapping` (config_transformer.go:205-216): lower-case the
text, scan the configured mappings in declaration order, return the first
whose compiled pattern matches, or an error when none does. -/
def findMatchingMapping (cfg : ConnectorConfig) (text : String) : Except String MappingConfig :=
  match cfg.mappings.find? (intentMatches (toLowerGo text)) with
  | some m => Except.ok m
  | none => Except.error ("no matching mapping found for text: " ++ toLowerGo text)

theorem find?_first {α : Type _} (p : α → Bool) :
    ∀ (l : List α) (a : α), l.find? p = some a →
      ∃ i, ∃ h : i < l.length, l.get ⟨i, h⟩ = a ∧ p a = true ∧
        ∀ j, ∀ hj : j < i, p (l.get ⟨j, Nat.lt_trans hj h⟩) = false := by
  intro l
  induction l with
  | nil => simp
  | cons x xs ih =>
    intro a h
    by_cases hx : p x
    · rw [List.find?_cons_of_pos _ hx] at h
      cases h
      exact ⟨0, by simp, rfl, hx, fun j hj => absurd hj (by omega)⟩
    · rw [List.find?_cons_of_neg _ (by simpa using hx)] at h
      obtain ⟨i, hlt, hget, hp, hfirst⟩ := ih a h
      refine ⟨i + 1, by simpa using Nat.succ_lt_succ hlt, by simpa using hget, hp, ?_⟩
      intro j hj
      match j with
      | 0 => simpa using hx
      | j' + 1 => simpa using hfirst j' (by omega)

/-- C1: the Intent Matcher lower-cases the text and tests each mapping's
compiled pattern in declaration order: a returned mapping is in the list,
matches the lower-cased text, and every earlier-declared mapping does not
match (so with two or more matches the earliest-declared wins); and it fails
with a no-match error exactly when no configured mapping matches. -/
theorem c1_intent_matcher_first_match (cfg : ConnectorConfig) (text : String) :
    (∀ m, findMatchingMapping cfg text = .ok m →
      ∃ i, ∃ h : i < cfg.mappings.length,
        cfg.mappings.get ⟨i, h⟩ = m ∧ intentMatches (toLowerGo text) m = true ∧
        ∀ j, ∀ hj : j < i,
          intentMatches (toLowerGo text) (cfg.mappings.get ⟨j, Nat.lt_trans hj h⟩) = false) ∧
    ((∃ e, findMatchingMapping cfg text = .error e) ↔
      ∀ m ∈ cfg.mappings, intentMatches (toLowerGo text) m = false) := by
  constructor
  · intro m hm
    unfold findMatchingMapping at hm
    match hfind : cfg.mappings.find? (intentMatches (toLowerGo text)) with
    | some m' =>
      rw [hfind] at hm
      cases hm
      exact find?_first _ _ _ hfind
    | none => rw [hfind] at hm; cases hm
  · unfold findMatchingMapping
    match hfind : cfg.mappings.find? (intentMatches (toLowerGo text)) with
    | some m' =>
      simp only [hfind]
      constructor
      · rintro ⟨e, he⟩; cases he
      · intro hall
        have := List.find?_some hfind
        have hmem := List.mem_of_find?_eq_some hfind
        rw [hall m' hmem] at this
        cases this
    | none =>
      simp only [hfind]
      constructor
      · intro _ m hmem
        have := List.find?_eq_none.mp hfind m hmem
        simpa using this
      · exact fun _ => ⟨_, rfl⟩

/-- A pattern matching exactly the string `"hello"`, used by concrete
instantiations. -/
def patHello : Pattern :=
  ⟨fun s => s == "hello", fun s => if s == "hello" then ["hello"] else []⟩

/-- A pattern matching every string, used by concrete instantiations. -/
def patAny : Pattern := ⟨fun _ => true, fun s => [s]⟩

/-- Mapping configuration matching `"hello"`. -/
def mcHello : MappingConfig :=
  { intentPattern := "hello", endpoint := "/hello", method := "GET",
    parameterMappings := [], responseTransform := {}, compiledPattern := some patHello }

/-- Mapping configuration matching any text. -/
def mcAny : MappingConfig :=
  { intentPattern := "any", endpoint := "/any", method := "GET",
    parameterMappings := [], responseTransform := {}, compiledPattern := some patAny }

/-- Concrete configuration whose first two mappings both match `"hello"`. -/
def cfgTwoMatches : ConnectorConfig :=
  { mappings := [mcHello, mcAny], transforms := ⟨[], []⟩ }

/-- The Go `nil` test on a path-lookup result: the lookup is nil when the key
is missing or when its value is JSON null (which `encoding/json` unmarshals
to a nil interface). -/
def goNil : Option JValue → Bool
  | none => true
  | some .null => true
  | some _ => false

/-- Recursion core of `strings.ReplaceAll` for a nonempty pattern: replaces
every non-overlapping occurrence of `pat`, scanning left to right. The `fuel`
argument only makes the recursion structural (so that it reduces in the
kernel); it strictly dominates the number of steps whenever
`fuel ≥ s.length`, so the zero-fuel branch is never taken from
`replaceAllChars`. -/
def replaceAllAux (pat rep : List Char) : Nat → List Char → List Char
  | _, [] => []
  | 0, s => s
  | fuel + 1, c :: rest =>
    if pat ≠ [] ∧ pat.isPrefixOf (c :: rest) then
      rep ++ replaceAllAux pat rep fuel ((c :: rest).drop pat.length)
    else
      c :: replaceAllAux pat rep fuel rest

/-- `strings.ReplaceAll` at the character-list level (the Go empty-pattern
behavior is never exercised by the embedded code). -/
def replaceAllChars (s pat rep : List Char) : List Char :=
  replaceAllAux pat rep s.length s

/-- `strings.ReplaceAll(s, pat, rep)` for the nonempty patterns used here. -/
def replaceAllGo (s pat rep : String) : String :=
  String.mk (replaceAllChars s.data pat.data rep.data)

/-- The value computed by Go `applyTransformRule` (config_transformer.go:398-417)
from a non-nil resolved source value: first optionally replaced by the first
regex capture group (when `regex` is set, a pattern is compiled, the source
is a string the pattern matches, and the submatch list has more than one
entry), then — when `template` is set and the source value is a string —
replaced by the template with `{value}` substituted by the original source
string (the Go code substitutes `sourceStr`, not the regex result). -/
def ruleValue (rule : TransformRule) (sv : JValue) : JValue :=
  let tv := match rule.compiled with
    | some p =>
      if rule.regex ≠ "" then
        match sv with
        | .str s =>
          if p.matchString s then
            if (p.findStringSubmatch s).length > 1 then
              JValue.str ((p.findStringSubmatch s).getD 1 "")
            else sv
          else sv
        | _ => sv
      else sv
    | none => sv
  if rule.template ≠ "" then
    match sv with
    | .str s => JValue.str (replaceAllGo rule.template "{value}" s)
    | _ => tv
  else tv

/-- Go `applyTransformRule(rule, source, target)` (config_transformer.go:392-421):
resolve the rule's source path against `source`; when the result is nil do
nothing, otherwise write the transformed value at the rule's target path. -/
def applyTransformRule (rule : TransformRule) (source target : List (String × JValue)) :
    List (String × JValue) :=
  match getValueByPath source rule.source with
  | none => target
  | some .null => target
  | some sv => setValue target rule.target (ruleValue rule sv)

theorem getPath_empty (qs : List String) : getPath [] qs = none := by
  match qs with
  | [] => rfl
  | [q] => rfl
  | q :: q' :: rest => rfl

theorem getPath_applyTransformRule_indep (rule : TransformRule)
    (src t : List (String × JValue)) (qs : List String)
    (h : PathIndep (splitPath rule.target) qs) :
    getPath (applyTransformRule rule src t) qs = getPath t qs := by
  unfold applyTransformRule
  split
  · rfl
  · rfl
  · exact getPath_setPath_indep _ qs t _ h

theorem getPath_ruleFold_indep (rules : List TransformRule)
    (src : List (String × JValue)) (t : List (String × JValue)) (qs : List String)
    (h : ∀ r ∈ rules, PathIndep (splitPath r.target) qs) :
    getPath (rules.foldl (fun acc r => applyTransformRule r src acc) t) qs = getPath t qs := by
  induction rules generalizing t with
  | nil => rfl
  | cons r rs ih =>
    simp only [List.foldl_cons]
    rw [ih _ fun r' hr' => h r' (by simp [hr'])]
    exact getPath_applyTransformRule_indep r src t qs (h r (by simp))

/-- One iteration of the parameter-mapping loop in Go `extractParameters`
(config_transformer.go:223-244). For `source == "text"`: when a pattern is
compiled and matches, the first capture group is written if the submatch
list has more than one entry, and nothing happens otherwise; only when the
pattern is nil or fails to match does a non-empty `default` get written.
Other sources resolve by path against the task, falling back to `default`. -/
def extractParamStep (taskMap : List (String × JValue)) (text : String)
    (params : List (String × JValue)) (pm : ParameterMapping) : List (String × JValue) :=
  if pm.source = "text" then
    match pm.compiled with
    | some p =>
      if p.matchString text then
        if (p.findStringSubmatch text).length > 1 then
          setValue params pm.target (JValue.str ((p.findStringSubmatch text).getD 1 ""))
        else params
      else if pm.default ≠ "" then setValue params pm.target (JValue.str pm.default)
      else params
    | none =>
      if pm.default ≠ "" then setValue params pm.target (JValue.str pm.default) else params
  else
    match getValueByPath taskMap pm.source with
    | none =>
      if pm.default ≠ "" then setValue params pm.target (JValue.str pm.default) else params
    | some .null =>
      if pm.default ≠ "" then setValue params pm.target (JValue.str pm.default) else params
    | some v => setValue params pm.target v

/-- Go `extractParameters` (config_transformer.go:219-247): fold the matched
mapping's parameter mappings, in declared order, over an initially empty
`params` map. The Go function always returns a nil error. -/
def extractParameters (mapping : MappingConfig) (taskMap : List (String × JValue))
    (text : String) : List (String × JValue) :=
  mapping.parameterMappings.foldl (extractParamStep taskMap text) []

theorem getPath_extractParamStep_indep (taskMap : List (String × JValue)) (text : String)
    (params : List (String × JValue)) (pm : ParameterMapping) (qs : List String)
    (h : PathIndep (splitPath pm.target) qs) :
    getPath (extractParamStep taskMap text params pm) qs = getPath params qs := by
  unfold extractParamStep
  split
  · split
    · split
      · split
        · exact getPath_setPath_indep _ qs params _ h
        · rfl
      · split
        · exact getPath_setPath_indep _ qs params _ h
        · rfl
    · split
      · exact getPath_setPath_indep _ qs params _ h
      · rfl
  · split
    · split
      · exact getPath_setPath_indep _ qs params _ h
      · rfl
    · split
      · exact getPath_setPath_indep _ qs params _ h
      · rfl
    · exact getPath_setPath_indep _ qs params _ h

theorem getPath_paramFold_indep (taskMap : List (String × JValue)) (text : String)
    (pms : List ParameterMapping) (params : List (String × JValue)) (qs : List String)
    (h : ∀ pm ∈ pms, PathIndep (splitPath pm.target) qs) :
    getPath (pms.foldl (extractParamStep taskMap text) params) qs = getPath params qs := by
  induction pms generalizing params with
  | nil => rfl
  | cons pm rest ih =>
    simp only [List.foldl_cons]
    rw [ih _ fun pm' hpm' => h pm' (by simp [hpm'])]
    exact getPath_extractParamStep_indep taskMap text params pm qs (h pm (by simp))

/-- The literal reading of claim C2 for one `source = "text"` parameter
mapping `pm` of mapping `m` at input `text`: if the compiled pattern matches
the text and has at least one capture group, the parameter written at
`target` is the first capture group; OTHERWISE, if `default` is non-empty,
the parameter equals the default; otherwise it is absent. -/
def ClaimC2 (m : MappingConfig) (taskMap : List (String × JValue))
    (pm : ParameterMapping) (text : String) : Prop :=
  ∀ p, pm.compiled = some p →
    if p.matchString text = true ∧ (p.findStringSubmatch text).length > 1 then
      getValueByPath (extractParameters m taskMap text) pm.target =
        some (JValue.str ((p.findStringSubmatch text).getD 1 ""))
    else if pm.default ≠ "" then
      getValueByPath (extractParameters m taskMap text) pm.target =
        some (JValue.str pm.default)
    else
      getValueByPath (extractParameters m taskMap text) pm.target = none

/-- A pattern with no capture groups matching exactly `"get status"`: its
submatch list holds only the full match. -/
def patNoGroup : Pattern :=
  ⟨fun s => s == "get status", fun s => if s == "get status" then ["get status"] else []⟩

/-- A `source = "text"` parameter mapping whose pattern has no capture group
but which declares a non-empty default. -/
def pmNoGroup : ParameterMapping :=
  { source := "text", pattern := "get status", target := "id", default := "fallback",
    compiled := some patNoGroup }

/-- Mapping carrying `pmNoGroup`. -/
def mcNoGroup : MappingConfig :=
  { intentPattern := "get status", endpoint := "/status", method := "GET",
    parameterMappings := [pmNoGroup], responseTransform := {},
    compiledPattern := some patNoGroup }

/-- Counterexample to C2 as stated: on text `"get status"` the pattern of
`pmNoGroup` matches but has no capture group, and its default `"fallback"`
is non-empty, yet `extractParameters` writes nothing at the target — the Go
`else if` skips the default whenever the pattern matched. -/
theorem c2_counterexample : ¬ ClaimC2 mcNoGroup [] pmNoGroup "get status" := by
  intro h
  have h1 := h patNoGroup rfl
  rw [if_neg (by decide), if_pos (by decide)] at h1
  have h2 : getValueByPath (extractParameters mcNoGroup [] "get status") pmNoGroup.target
      = none := rfl
  rw [h2] at h1
  cases h1

/-- C2 amended: for a `source = "text"` parameter mapping `pm` (at any
position in the mapping's list, with every other parameter mapping's target
path independent of `pm.target`): if the compiled pattern matches the text
and its submatch list has more than one entry (i.e. the pattern has at least
one capture group), the parameter written at `target` is the first capture
group verbatim; if the pattern does NOT match and `default` is non-empty,
the parameter equals the default; if the pattern does not match and the
default is empty, the parameter is absent; and — unlike the claim as stated
— if the pattern matches but has no capture group the parameter is also
absent, even when a non-empty default is declared. No error is raised in any
case (`extractParameters` is total). -/
theorem c2_text_parameter_extraction (m : MappingConfig) (taskMap : List (String × JValue))
    (text : String) (l1 l2 : List ParameterMapping) (pm : ParameterMapping) (p : Pattern)
    (hdec : m.parameterMappings = l1 ++ pm :: l2)
    (hsrc : pm.source = "text")
    (hcomp : pm.compiled = some p)
    (hindep : ∀ pm' ∈ l1 ++ l2, PathIndep (splitPath pm'.target) (splitPath pm.target)) :
    (p.matchString text = true → (p.findStringSubmatch text).length > 1 →
      getValueByPath (extractParameters m taskMap text) pm.target =
        some (JValue.str ((p.findStringSubmatch text).getD 1 ""))) ∧
    (p.matchString text = false → pm.default ≠ "" →
      getValueByPath (extractParameters m taskMap text) pm.target =
        some (JValue.str pm.default)) ∧
    (p.matchString text = false → pm.default = "" →
      getValueByPath (extractParameters m taskMap text) pm.target = none) ∧
    (p.matchString text = true → (p.findStringSubmatch text).length ≤ 1 →
      getValueByPath (extractParameters m taskMap text) pm.target = none) := by
  have hl1 : ∀ pm' ∈ l1, PathIndep (splitPath pm'.target) (splitPath pm.target) :=
    fun pm' h' => hindep pm' (by simp [h'])
  have hl2 : ∀ pm' ∈ l2, PathIndep (splitPath pm'.target) (splitPath pm.target) :=
    fun pm' h' => hindep pm' (by simp [h'])
  have hfold : extractParameters m taskMap text =
      l2.foldl (extractParamStep taskMap text)
        (extractParamStep taskMap text (l1.foldl (extractParamStep taskMap text) []) pm) := by
    unfold extractParameters
    rw [hdec, List.foldl_append, List.foldl_cons]
  have hl2pres : ∀ acc, getPath (l2.foldl (extractParamStep taskMap text) acc)
      (splitPath pm.target) = getPath acc (splitPath pm.target) :=
    fun acc => getPath_paramFold_indep taskMap text l2 acc _ hl2
  have hl1pres : getPath (l1.foldl (extractParamStep taskMap text) [])
      (splitPath pm.target) = none := by
    rw [getPath_paramFold_indep taskMap text l1 [] _ hl1, getPath_empty]
  refine ⟨?_, ?_, ?_, ?_⟩
  · intro hmatch hlen
    rw [hfold]
    unfold getValueByPath
    rw [hl2pres]
    unfold extractParamStep
    rw [if_pos hsrc, hcomp]
    simp only [hmatch, if_pos hlen, if_true]
    exact getPath_setPath_self _ _ _ (splitPath_ne_nil _)
  · intro hmatch hdef
    rw [hfold]
    unfold getValueByPath
    rw [hl2pres]
    unfold extractParamStep
    rw [if_pos hsrc, hcomp]
    simp only [hmatch, Bool.false_eq_true, if_false, if_pos hdef]
    exact getPath_setPath_self _ _ _ (splitPath_ne_nil _)
  · intro hmatch hdef
    rw [hfold]
    unfold getValueByPath
    rw [hl2pres]
    unfold extractParamStep
    rw [if_pos hsrc, hcomp]
    simp only [hmatch, Bool.false_eq_true, if_false, hdef, ne_eq, not_true_eq_false]
    exact hl1pres
  · intro hmatch hlen
    rw [hfold]
    unfold getValueByPath
    rw [hl2pres]
    unfold extractParamStep
    rw [if_pos hsrc, hcomp]
    simp only [hmatch, if_true, if_neg (by omega : ¬ (p.findStringSubmatch text).length > 1)]
    exact hl1pres

/-- A pattern with one capture group: on `"id: 42"` it captures `"42"`. -/
def patIdGroup : Pattern :=
  ⟨fun s => s == "id: 42", fun s => if s == "id: 42" then ["id: 42", "42"] else []⟩

/-- Parameter mapping extracting the capture group of `patIdGroup`. -/
def pmIdGroup : ParameterMapping :=
  { source := "text", pattern := "id:\\s*(\\w+)", target := "id", default := "none",
    compiled := some patIdGroup }

/-- Mapping carrying `pmIdGroup`. -/
def mcIdGroup : MappingConfig :=
  { intentPattern := "id", endpoint := "/id", method := "GET",
    parameterMappings := [pmIdGroup], responseTransform := {},
    compiledPattern := some patAny }

/-- Witness for the amended C2 at concrete inputs: on matching text the first
capture group is extracted; on non-matching text the default is written. -/
theorem c2_text_parameter_extraction_witness :
    getValueByPath (extractParameters mcIdGroup [] "id: 42") pmIdGroup.target =
      some (JValue.str "42") ∧
    getValueByPath (extractParameters mcIdGroup [] "nope") pmIdGroup.target =
      some (JValue.str "none") :=
  ⟨(c2_text_parameter_extraction mcIdGroup [] "id: 42" [] [] pmIdGroup patIdGroup
      rfl rfl rfl (by simp)).1 (by decide) (by decide),
   (c2_text_parameter_extraction mcIdGroup [] "nope" [] [] pmIdGroup patIdGroup
      rfl rfl rfl (by simp)).2.1 (by decide) (by decide)⟩

/-- Witness for C1: on text `"HELLO"`, both configured mappings match the
lower-cased text, and the matcher returns the earliest-declared one. -/
theorem c1_intent_matcher_first_match_witness :
    ∃ i, ∃ h : i < cfgTwoMatches.mappings.length,
      cfgTwoMatches.mappings.get ⟨i, h⟩ = mcHello ∧
      intentMatches (toLowerGo "HELLO") mcHello = true ∧
      ∀ j, ∀ hj : j < i,
        intentMatches (toLowerGo "HELLO") (cfgTwoMatches.mappings.get ⟨j, Nat.lt_trans hj h⟩)
          = false :=
  (c1_intent_matcher_first_match cfgTwoMatches "HELLO").1 mcHello rfl

/-- Token scanner of `renderEndpoint`, modeling
`regexp.MustCompile("\\{([^}]+)\\}").FindAllStringSubmatch(endpoint, -1)`:
leftmost non-overlapping matches — at a `'{'`, the greedy `[^}]+` takes the
maximal nonempty run of non-`'}'` characters, which must be followed by
`'}'`; scanning resumes after the closing brace. The `fuel` argument only
makes the recursion structural; each step consumes at least one character,
so `fuel ≥ s.length` (as passed by `findTokens`) never runs out. -/
def findTokensAux : Nat → List Char → List (List Char)
  | _, [] => []
  | 0, _ => []
  | fuel + 1, c :: rest =>
    if c = '{' then
      let run := rest.takeWhile (fun d => d ≠ '}')
      if run ≠ [] ∧ (rest.drop run.length).head? = some '}' then
        run :: findTokensAux fuel ((rest.drop run.length).drop 1)
      else findTokensAux fuel rest
    else findTokensAux fuel rest

/-- The `{name}` tokens of an endpoint template, in order of appearance. -/
def findTokens (s : List Char) : List (List Char) :=
  findTokensAux s.length s

/-- The `params[paramName]` stringification in `renderEndpoint`
(config_transformer.go:315-322): strings verbatim, float64 via `%v` (the
carried rendering), bool via `%v`; anything else (absent, nil, arrays,
objects) produces no substitution. -/
def paramString : JValue → Option String
  | .str s => some s
  | .num r => some r
  | .bool b => some (if b then "true" else "false")
  | _ => none

/-- One iteration of the replacement loop in `renderEndpoint`
(config_transformer.go:310-324): when the token's name has a string, float64
or bool entry in `params`, globally replace its `{name}` placeholder
throughout the accumulated result. -/
def renderStep (params : List (String × JValue)) (result : List Char) (name : List Char) :
    List Char :=
  match (lookupStr params (String.mk name)).bind paramString with
  | some v => replaceAllChars result ('{' :: name ++ ['}']) v.data
  | none => result

/-- Go `renderEndpoint(endpoint, params)` (config_transformer.go:303-327):
collect the `{name}` tokens of the ORIGINAL endpoint template, then fold the
replacement loop over them in order of appearance. -/
def renderEndpoint (endpoint : String) (params : List (String × JValue)) : String :=
  String.mk ((findTokens endpoint.data).foldl (renderStep params) endpoint.data)

/-- Single-pass endpoint rendering following the spec's words (each `{name}`
token substituted in place by its parameter's string representation,
unmatched tokens left literally): written from the spec for comparison with
the source-derived `renderEndpoint`. Fuel as in `findTokensAux`. -/
def renderSpecAux (params : List (String × JValue)) : Nat → List Char → List Char
  | _, [] => []
  | 0, s => s
  | fuel + 1, c :: rest =>
    if c = '{' then
      let run := rest.takeWhile (fun d => d ≠ '}')
      if run ≠ [] ∧ (rest.drop run.length).head? = some '}' then
        match (lookupStr params (String.mk run)).bind paramString with
        | some v => v.data ++ renderSpecAux params fuel ((rest.drop run.length).drop 1)
        | none => '{' :: run ++ '}' :: renderSpecAux params fuel ((rest.drop run.length).drop 1)
      else c :: renderSpecAux params fuel rest
    else c :: renderSpecAux params fuel rest

/-- The spec's reading of endpoint rendering: one simultaneous pass. -/
def renderEndpointSpec (endpoint : String) (params : List (String × JValue)) : String :=
  String.mk (renderSpecAux params endpoint.data.length endpoint.data)

/-! ### Unfolding equations for the fuel-based scanners

The `fuel` parameters of `replaceAllAux`, `findTokensAux` and
`renderSpecAux` only make the recursions structural; the following lemmas
show fuel irrelevance (for sufficient fuel) and recover the natural
unfolding equations of the three functions. -/

theorem replaceAllAux_fuel (pat rep : List Char) :
    ∀ (f1 f2 : Nat) (s : List Char), s.length ≤ f1 → s.length ≤ f2 →
      replaceAllAux pat rep f1 s = replaceAllAux pat rep f2 s := by
  intro f1
  induction f1 with
  | zero =>
    intro f2 s h1 _
    have hs : s = [] := List.eq_nil_of_length_eq_zero (Nat.le_zero.mp h1)
    subst hs
    cases f2 <;> rfl
  | succ k ih =>
    intro f2 s h1 h2
    match s, f2 with
    | [], 0 => rfl
    | [], _ + 1 => rfl
    | c :: rest, 0 => simp at h2
    | c :: rest, m + 1 =>
      simp only [List.length_cons] at h1 h2
      simp only [replaceAllAux]
      by_cases hcond : pat ≠ [] ∧ pat.isPrefixOf (c :: rest)
      · rw [if_pos hcond, if_pos hcond]
        have hp : 1 ≤ pat.length := List.length_pos.mpr hcond.1
        have hd : ((c :: rest).drop pat.length).length ≤ k := by
          simp only [List.length_drop, List.length_cons]; omega
        have hd2 : ((c :: rest).drop pat.length).length ≤ m := by
          simp only [List.length_drop, List.length_cons]; omega
        rw [ih m _ hd hd2]
      · rw [if_neg hcond, if_neg hcond, ih m rest (by omega) (by omega)]

theorem replaceAllAux_succ (pat rep : List Char) (fuel : Nat) (c : Char) (rest : List Char) :
    replaceAllAux pat rep (fuel + 1) (c :: rest) =
      if pat ≠ [] ∧ pat.isPrefixOf (c :: rest) then
        rep ++ replaceAllAux pat rep fuel ((c :: rest).drop pat.length)
      else c :: replaceAllAux pat rep fuel rest := rfl

theorem replaceAllChars_cons (c : Char) (rest pat rep : List Char) :
    replaceAllChars (c :: rest) pat rep =
      if pat ≠ [] ∧ pat.isPrefixOf (c :: rest) then
        rep ++ replaceAllChars ((c :: rest).drop pat.length) pat rep
      else c :: replaceAllChars rest pat rep := by
  have h0 : replaceAllChars (c :: rest) pat rep =
      replaceAllAux pat rep (rest.length + 1) (c :: rest) := rfl
  rw [h0, replaceAllAux_succ]
  by_cases hcond : pat ≠ [] ∧ pat.isPrefixOf (c :: rest)
  · rw [if_pos hcond, if_pos hcond]
    have hp : 1 ≤ pat.length := List.length_pos.mpr hcond.1
    congr 1
    exact replaceAllAux_fuel pat rep rest.length ((c :: rest).drop pat.length).length _
      (by simp only [List.length_drop, List.length_cons]; omega) le_rfl
  · rw [if_neg hcond, if_neg hcond]
    rfl

theorem findTokensAux_fuel :
    ∀ (f1 f2 : Nat) (s : List Char), s.length ≤ f1 → s.length ≤ f2 →
      findTokensAux f1 s = findTokensAux f2 s := by
  intro f1
  induction f1 with
  | zero =>
    intro f2 s h1 _
    have hs : s = [] := List.eq_nil_of_length_eq_zero (Nat.le_zero.mp h1)
    subst hs
    cases f2 <;> rfl
  | succ k ih =>
    intro f2 s h1 h2
    match s, f2 with
    | [], 0 => rfl
    | [], _ + 1 => rfl
    | c :: rest, 0 => simp at h2
    | c :: rest, m + 1 =>
      simp only [List.length_cons] at h1 h2
      simp only [findTokensAux]
      by_cases hc : c = '{'
      · rw [if_pos hc, if_pos hc]
        by_cases hm : rest.takeWhile (fun d => d ≠ '}') ≠ [] ∧
            (rest.drop (rest.takeWhile (fun d => d ≠ '}')).length).head? = some '}'
        · rw [if_pos hm, if_pos hm]
          have hd : (((rest.drop (rest.takeWhile (fun d => d ≠ '}')).length)).drop 1).length
              ≤ k := by
            simp only [List.length_drop]; omega
          have hd2 : (((rest.drop (rest.takeWhile (fun d => d ≠ '}')).length)).drop 1).length
              ≤ m := by
            simp only [List.length_drop]; omega
          rw [ih m _ hd hd2]
        · rw [if_neg hm, if_neg hm, ih m rest (by omega) (by omega)]
      · rw [if_neg hc, if_neg hc, ih m rest (by omega) (by omega)]

theorem findTokensAux_succ (fuel : Nat) (c : Char) (rest : List Char) :
    findTokensAux (fuel + 1) (c :: rest) =
      if c = '{' then
        (if rest.takeWhile (fun d => d ≠ '}') ≠ [] ∧
            (rest.drop (rest.takeWhile (fun d => d ≠ '}')).length).head? = some '}' then
          rest.takeWhile (fun d => d ≠ '}') ::
            findTokensAux fuel ((rest.drop (rest.takeWhile (fun d => d ≠ '}')).length).drop 1)
        else findTokensAux fuel rest)
      else findTokensAux fuel rest := rfl

theorem findTokens_cons_not {c : Char} (rest : List Char) (hc : c ≠ '{') :
    findTokens (c :: rest) = findTokens rest := by
  have h0 : findTokens (c :: rest) = findTokensAux (rest.length + 1) (c :: rest) := rfl
  rw [h0, findTokensAux_succ, if_neg hc]
  rfl

theorem findTokens_cons_brace (rest : List Char) :
    findTokens ('{' :: rest) =
      if rest.takeWhile (fun d => d ≠ '}') ≠ [] ∧
          (rest.drop (rest.takeWhile (fun d => d ≠ '}')).length).head? = some '}' then
        rest.takeWhile (fun d => d ≠ '}') ::
          findTokens ((rest.drop (rest.takeWhile (fun d => d ≠ '}')).length).drop 1)
      else findTokens rest := by
  have h0 : findTokens ('{' :: rest) = findTokensAux (rest.length + 1) ('{' :: rest) := rfl
  rw [h0, findTokensAux_succ, if_pos rfl]
  by_cases hm : rest.takeWhile (fun d => d ≠ '}') ≠ [] ∧
      (rest.drop (rest.takeWhile (fun d => d ≠ '}')).length).head? = some '}'
  · rw [if_pos hm, if_pos hm]
    congr 1
    exact findTokensAux_fuel rest.length _ _ (by simp only [List.length_drop]; omega) le_rfl
  · rw [if_neg hm, if_neg hm]
    rfl

theorem renderSpecAux_fuel (params : List (String × JValue)) :
    ∀ (f1 f2 : Nat) (s : List Char), s.length ≤ f1 → s.length ≤ f2 →
      renderSpecAux params f1 s = renderSpecAux params f2 s := by
  intro f1
  induction f1 with
  | zero =>
    intro f2 s h1 _
    have hs : s = [] := List.eq_nil_of_length_eq_zero (Nat.le_zero.mp h1)
    subst hs
    cases f2 <;> rfl
  | succ k ih =>
    intro f2 s h1 h2
    match s, f2 with
    | [], 0 => rfl
    | [], _ + 1 => rfl
    | c :: rest, 0 => simp at h2
    | c :: rest, m + 1 =>
      simp only [List.length_cons] at h1 h2
      simp only [renderSpecAux]
      by_cases hc : c = '{'
      · rw [if_pos hc, if_pos hc]
        by_cases hm : rest.takeWhile (fun d => d ≠ '}') ≠ [] ∧
            (rest.drop (rest.takeWhile (fun d => d ≠ '}')).length).head? = some '}'
        · rw [if_pos hm, if_pos hm]
          have hd : (((rest.drop (rest.takeWhile (fun d => d ≠ '}')).length)).drop 1).length
              ≤ k := by
            simp only [List.length_drop]; omega
          have hd2 : (((rest.drop (rest.takeWhile (fun d => d ≠ '}')).length)).drop 1).length
              ≤ m := by
            simp only [List.length_drop]; omega
          rw [ih m _ hd hd2]
        · rw [if_neg hm, if_neg hm, ih m rest (by omega) (by omega)]
      · rw [if_neg hc, if_neg hc, ih m rest (by omega) (by omega)]

/-- The single-pass renderer on character lists. -/
def renderSpecList (params : List (String × JValue)) (s : List Char) : List Char :=
  renderSpecAux params s.length s

theorem renderSpecAux_succ (params : List (String × JValue)) (fuel : Nat) (c : Char)
    (rest : List Char) :
    renderSpecAux params (fuel + 1) (c :: rest) =
      if c = '{' then
        (if rest.takeWhile (fun d => d ≠ '}') ≠ [] ∧
            (rest.drop (rest.takeWhile (fun d => d ≠ '}')).length).head? = some '}' then
          (match (lookupStr params (String.mk (rest.takeWhile (fun d => d ≠ '}')))).bind
              paramString with
           | some v => v.data ++ renderSpecAux params fuel
               ((rest.drop (rest.takeWhile (fun d => d ≠ '}')).length).drop 1)
           | none => '{' :: rest.takeWhile (fun d => d ≠ '}') ++ '}' :: renderSpecAux params
               fuel ((rest.drop (rest.takeWhile (fun d => d ≠ '}')).length).drop 1))
        else c :: renderSpecAux params fuel rest)
      else c :: renderSpecAux params fuel rest := rfl

theorem renderSpecList_cons_not (params : List (String × JValue)) {c : Char}
    (rest : List Char) (hc : c ≠ '{') :
    renderSpecList params (c :: rest) = c :: renderSpecList params rest := by
  have h0 : renderSpecList params (c :: rest) =
      renderSpecAux params (rest.length + 1) (c :: rest) := rfl
  rw [h0, renderSpecAux_succ, if_neg hc]
  rfl

theorem renderSpecList_cons_brace (params : List (String × JValue)) (rest : List Char) :
    renderSpecList params ('{' :: rest) =
      if rest.takeWhile (fun d => d ≠ '}') ≠ [] ∧
          (rest.drop (rest.takeWhile (fun d => d ≠ '}')).length).head? = some '}' then
        (match (lookupStr params (String.mk (rest.takeWhile (fun d => d ≠ '}')))).bind
            paramString with
         | some v => v.data ++ renderSpecList params
             ((rest.drop (rest.takeWhile (fun d => d ≠ '}')).length).drop 1)
         | none => '{' :: rest.takeWhile (fun d => d ≠ '}') ++ '}' :: renderSpecList params
             ((rest.drop (rest.takeWhile (fun d => d ≠ '}')).length).drop 1))
      else '{' :: renderSpecList params rest := by
  have h0 : renderSpecList params ('{' :: rest) =
      renderSpecAux params (rest.length + 1) ('{' :: rest) := rfl
  rw [h0, renderSpecAux_succ, if_pos rfl]
  by_cases hm : rest.takeWhile (fun d => d ≠ '}') ≠ [] ∧
      (rest.drop (rest.takeWhile (fun d => d ≠ '}')).length).head? = some '}'
  · rw [if_pos hm, if_pos hm]
    have hfuel := renderSpecAux_fuel params rest.length
      ((rest.drop (rest.takeWhile (fun d => d ≠ '}')).length).drop 1).length
      ((rest.drop (rest.takeWhile (fun d => d ≠ '}')).length).drop 1)
      (by simp only [List.length_drop]; omega) le_rfl
    rw [hfuel]
    rfl
  · rw [if_neg hm, if_neg hm]
    rfl

theorem renderEndpointSpec_eq (endpoint : String) (params : List (String × JValue)) :
    renderEndpointSpec endpoint params = String.mk (renderSpecList params endpoint.data) := rfl

/-- No `'{'` among the characters of `cs`. -/
def NoBrace (cs : List Char) : Prop := ∀ c ∈ cs, c ≠ '{'

/-- Neither `'{'` nor `'}'` among the characters of `cs`. -/
def BraceFree (cs : List Char) : Prop := ∀ c ∈ cs, c ≠ '{' ∧ c ≠ '}'

theorem BraceFree.noBrace {cs : List Char} (h : BraceFree cs) : NoBrace cs :=
  fun c hc => (h c hc).1

/-- Replacement of a brace-headed pattern never fires inside a `'{'`-free
prefix. -/
theorem replaceAllChars_append_left {P : List Char} (X w v : List Char) (hP : NoBrace P) :
    replaceAllChars (P ++ X) ('{' :: w) v = P ++ replaceAllChars X ('{' :: w) v := by
  induction P with
  | nil => simp
  | cons c P' ih =>
    have hc : c ≠ '{' := hP c (by simp)
    have hpre : ¬ (('{' :: w) ≠ [] ∧ ('{' :: w).isPrefixOf (c :: (P' ++ X))) := by
      rintro ⟨-, h2⟩
      obtain ⟨t, ht⟩ := List.isPrefixOf_iff_prefix.mp h2
      simp only [List.cons_append, List.cons.injEq] at ht
      exact hc ht.1.symm
    rw [List.cons_append, replaceAllChars_cons, if_neg hpre,
      ih fun d hd => hP d (by simp [hd])]
    rfl

/-- The token scanner skips a `'{'`-free prefix. -/
theorem findTokens_append_left {P : List Char} (X : List Char) (hP : NoBrace P) :
    findTokens (P ++ X) = findTokens X := by
  induction P with
  | nil => simp
  | cons c P' ih =>
    rw [List.cons_append, findTokens_cons_not _ (hP c (by simp)),
      ih fun d hd => hP d (by simp [hd])]

/-- The single-pass renderer copies a `'{'`-free prefix verbatim. -/
theorem renderSpecList_append_left (params : List (String × JValue)) {P : List Char}
    (X : List Char) (hP : NoBrace P) :
    renderSpecList params (P ++ X) = P ++ renderSpecList params X := by
  induction P with
  | nil => simp
  | cons c P' ih =>
    rw [List.cons_append, renderSpecList_cons_not _ _ (hP c (by simp)),
      ih fun d hd => hP d (by simp [hd])]
    rfl

theorem takeWhile_append_close {A : List Char} (X : List Char) (hA : '}' ∉ A) :
    (A ++ '}' :: X).takeWhile (fun d => d ≠ '}') = A := by
  induction A with
  | nil => simp [List.takeWhile_cons]
  | cons a A' ih =>
    have ha : a ≠ '}' := fun hcontra => hA (by simp [hcontra])
    have hA' : '}' ∉ A' := fun hcontra => hA (by simp [hcontra])
    rw [List.cons_append, List.takeWhile_cons,
      if_pos (show (decide (a ≠ '}')) = true by simp [ha]), ih hA']

/-- Replacement of a pattern ending in `'}'` is the identity on `'}'`-free
strings. -/
theorem replaceAllChars_id_of_no_close (w v : List Char) :
    ∀ (X : List Char), '}' ∉ X → replaceAllChars X ('{' :: w ++ ['}']) v = X := by
  intro X
  induction X with
  | nil => intro _; rfl
  | cons c rest ih =>
    intro hX
    have hpre : ¬ (('{' :: w ++ ['}']) ≠ [] ∧
        ('{' :: w ++ ['}']).isPrefixOf (c :: rest)) := by
      intro hcontra
      have hsub := (List.isPrefixOf_iff_prefix.mp hcontra.2).subset
      exact hX (hsub (by simp))
    rw [replaceAllChars_cons, if_neg hpre, ih fun hc => hX (by simp [hc])]

/-- The scanner finds no token in a `'}'`-free string. -/
theorem findTokens_eq_nil_of_no_close :
    ∀ (n : Nat) (X : List Char), X.length ≤ n → '}' ∉ X → findTokens X = [] := by
  intro n
  induction n with
  | zero =>
    intro X hlen _
    have : X = [] := List.eq_nil_of_length_eq_zero (Nat.le_zero.mp hlen)
    subst this; rfl
  | succ k ih =>
    intro X hlen hX
    match X with
    | [] => rfl
    | c :: rest =>
      simp only [List.length_cons] at hlen
      have hrest : '}' ∉ rest := fun hc => hX (by simp [hc])
      by_cases hc : c = '{'
      · subst hc
        rw [findTokens_cons_brace]
        have hhead : ((rest.drop (rest.takeWhile (fun d => d ≠ '}')).length).head?) ≠
            some '}' := by
          intro hcontra
          have : '}' ∈ rest.drop (rest.takeWhile (fun d => d ≠ '}')).length :=
            List.mem_of_mem_head? (by rw [hcontra]; rfl)
          exact hrest (List.mem_of_mem_drop this)
        rw [if_neg fun hcontra => hhead hcontra.2]
        exact ih rest (by omega) hrest
      · rw [findTokens_cons_not rest hc]
        exact ih rest (by omega) hrest

/-- Every token the scanner yields is nonempty and `'}'`-free. -/
theorem findTokens_shape :
    ∀ (n : Nat) (s : List Char), s.length ≤ n → ∀ t ∈ findTokens s, t ≠ [] ∧ '}' ∉ t := by
  intro n
  induction n with
  | zero =>
    intro s hlen t ht
    have : s = [] := List.eq_nil_of_length_eq_zero (Nat.le_zero.mp hlen)
    subst this
    simp [show findTokens [] = [] from rfl] at ht
  | succ k ih =>
    intro s hlen t ht
    match s with
    | [] => simp [show findTokens [] = [] from rfl] at ht
    | c :: rest =>
      simp only [List.length_cons] at hlen
      by_cases hc : c = '{'
      · subst hc
        rw [findTokens_cons_brace] at ht
        by_cases hm : rest.takeWhile (fun d => d ≠ '}') ≠ [] ∧
            (rest.drop (rest.takeWhile (fun d => d ≠ '}')).length).head? = some '}'
        · rw [if_pos hm] at ht
          rcases List.mem_cons.mp ht with rfl | ht'
          · refine ⟨hm.1, fun hmem => ?_⟩
            have := List.mem_takeWhile_imp hmem
            simp at this
          · exact ih _ (by simp only [List.length_drop]; omega) t ht'
        · rw [if_neg hm] at ht
          exact ih rest (by omega) t ht
      · rw [findTokens_cons_not rest hc] at ht
        exact ih rest (by omega) t ht

/-- Decomposition at a scanner match: when the head is `'{'` and the match
condition holds, the remainder splits as `run ++ '}' :: tail`. -/
theorem scanner_decomp {rest : List Char}
    (hm : rest.takeWhile (fun d => d ≠ '}') ≠ [] ∧
      (rest.drop (rest.takeWhile (fun d => d ≠ '}')).length).head? = some '}') :
    rest = rest.takeWhile (fun d => d ≠ '}') ++
      '}' :: ((rest.drop (rest.takeWhile (fun d => d ≠ '}')).length).drop 1) := by
  have hpre : rest.takeWhile (fun d => d ≠ '}') <+: rest := List.takeWhile_prefix _
  have htake : rest.take (rest.takeWhile (fun d => d ≠ '}')).length =
      rest.takeWhile (fun d => d ≠ '}') := (List.prefix_iff_eq_take.mp hpre).symm
  have hsplit := List.take_append_drop (rest.takeWhile (fun d => d ≠ '}')).length rest
  rw [htake] at hsplit
  rcases hdrop : rest.drop (rest.takeWhile (fun d => d ≠ '}')).length with - | ⟨x, xs⟩
  · have hm2 := hm.2
    rw [hdrop] at hm2
    cases hm2
  · have hm2 := hm.2
    rw [hdrop] at hm2
    simp only [List.head?_cons, Option.some.injEq] at hm2
    subst hm2
    rw [hdrop] at hsplit
    exact hsplit.symm

theorem drop_takeWhile_eq_dropWhile (p : Char → Bool) (rest : List Char) :
    rest.drop (rest.takeWhile p).length = rest.dropWhile p := by
  have h1 := List.take_append_drop (rest.takeWhile p).length rest
  have htake : rest.take (rest.takeWhile p).length = rest.takeWhile p :=
    (List.prefix_iff_eq_take.mp (List.takeWhile_prefix p)).symm
  rw [htake] at h1
  have h2 := List.takeWhile_append_dropWhile p rest
  exact List.append_cancel_left (h1.trans h2.symm)

theorem head?_dropWhile_false (p : Char → Bool) :
    ∀ (l : List Char) (x : Char), (l.dropWhile p).head? = some x → p x = false := by
  intro l
  induction l with
  | nil => intro x h; cases h
  | cons a l' ih =>
    intro x h
    rw [List.dropWhile_cons] at h
    by_cases hp : p a
    · rw [if_pos hp] at h
      exact ih x h
    · rw [if_neg hp] at h
      simp only [List.head?_cons, Option.some.injEq] at h
      subst h
      exact Bool.eq_false_iff.mpr hp

/-- When the scanner's match condition fails below a nonempty run, the run
exhausts the string, which is then `'}'`-free. -/
theorem scanner_fail_no_close {rest : List Char}
    (hrun : rest.takeWhile (fun d => d ≠ '}') ≠ [])
    (hm : ¬ (rest.takeWhile (fun d => d ≠ '}') ≠ [] ∧
      (rest.drop (rest.takeWhile (fun d => d ≠ '}')).length).head? = some '}')) :
    '}' ∉ rest := by
  have hhead : (rest.drop (rest.takeWhile (fun d => d ≠ '}')).length).head? ≠ some '}' :=
    fun hc => hm ⟨hrun, hc⟩
  rw [drop_takeWhile_eq_dropWhile] at hhead
  have hnil : rest.dropWhile (fun d => d ≠ '}') = [] := by
    rcases hd : rest.dropWhile (fun d => d ≠ '}') with - | ⟨x, xs⟩
    · rfl
    · have := head?_dropWhile_false (fun d => d ≠ '}') rest x (by rw [hd]; rfl)
      simp only [decide_eq_false_iff_not, not_not] at this
      subst this
      rw [hd] at hhead
      simp at hhead
  intro hmem
  have := List.takeWhile_append_dropWhile (fun d => d ≠ '}') rest
  rw [hnil, List.append_nil] at this
  rw [← this] at hmem
  have := List.mem_takeWhile_imp hmem
  simp at this

/-- Replacing the placeholder of a resolvable token `t₀` (brace-free name,
brace-free value): the scan of the result is the scan of the input with the
`t₀` entries removed, and single-pass rendering is unchanged. -/
theorem step_token (params : List (String × JValue)) (t₀ v : List Char) (w : String)
    (ht0a : t₀ ≠ []) (ht0b : '}' ∉ t₀)
    (hval : (lookupStr params (String.mk t₀)).bind paramString = some w)
    (hw : w.data = v) (hv : BraceFree v) :
    ∀ (n : Nat) (s : List Char), s.length ≤ n → (∀ u ∈ findTokens s, '{' ∉ u) →
      findTokens (replaceAllChars s ('{' :: t₀ ++ ['}']) v) =
        (findTokens s).filter (fun u => decide (u ≠ t₀)) ∧
      renderSpecList params (replaceAllChars s ('{' :: t₀ ++ ['}']) v) =
        renderSpecList params s := by
  intro n
  induction n with
  | zero =>
    intro s hlen _
    have : s = [] := List.eq_nil_of_length_eq_zero (Nat.le_zero.mp hlen)
    subst this
    exact ⟨rfl, rfl⟩
  | succ k ih =>
    intro s hlen hnames
    match s with
    | [] => exact ⟨rfl, rfl⟩
    | c :: rest =>
      simp only [List.length_cons] at hlen
      by_cases hc : c = '{'
      case neg =>
        -- a non-brace head is copied by all three functions
        have hpre : ¬ (('{' :: t₀ ++ ['}']) ≠ [] ∧
            ('{' :: t₀ ++ ['}']).isPrefixOf (c :: rest)) := by
          rintro ⟨-, h2⟩
          obtain ⟨t, ht⟩ := List.isPrefixOf_iff_prefix.mp h2
          simp only [List.cons_append, List.cons.injEq] at ht
          exact hc ht.1.symm
        have hscan : findTokens (c :: rest) = findTokens rest := findTokens_cons_not rest hc
        obtain ⟨ih1, ih2⟩ := ih rest (by omega)
          (fun u hu => hnames u (by rw [hscan]; exact hu))
        rw [replaceAllChars_cons, if_neg hpre]
        refine ⟨?_, ?_⟩
        · rw [findTokens_cons_not _ hc, hscan, ih1]
        · rw [renderSpecList_cons_not _ _ hc, renderSpecList_cons_not _ _ hc, ih2]
      case pos =>
        subst hc
        by_cases hm : rest.takeWhile (fun d => d ≠ '}') ≠ [] ∧
            (rest.drop (rest.takeWhile (fun d => d ≠ '}')).length).head? = some '}'
        case pos =>
          have hdecomp := scanner_decomp hm
          have hT : findTokens ('{' :: rest) =
              rest.takeWhile (fun d => d ≠ '}') ::
                findTokens ((rest.drop (rest.takeWhile (fun d => d ≠ '}')).length).drop 1) := by
            rw [findTokens_cons_brace, if_pos hm]
          have hRS : renderSpecList params ('{' :: rest) =
              (match (lookupStr params
                  (String.mk (rest.takeWhile (fun d => d ≠ '}')))).bind paramString with
               | some u => u.data ++ renderSpecList params
                   ((rest.drop (rest.takeWhile (fun d => d ≠ '}')).length).drop 1)
               | none => '{' :: rest.takeWhile (fun d => d ≠ '}') ++ '}' ::
                   renderSpecList params
                   ((rest.drop (rest.takeWhile (fun d => d ≠ '}')).length).drop 1)) := by
            rw [renderSpecList_cons_brace, if_pos hm]
          have hBnames : ∀ u ∈ findTokens
              ((rest.drop (rest.takeWhile (fun d => d ≠ '}')).length).drop 1), '{' ∉ u := by
            intro u hu
            exact hnames u (by rw [hT]; exact List.mem_cons_of_mem _ hu)
          have hBlen : ((rest.drop (rest.takeWhile (fun d => d ≠ '}')).length).drop 1).length
              ≤ k := by
            simp only [List.length_drop]; omega
          obtain ⟨ih1, ih2⟩ := ih _ hBlen hBnames
          by_cases hrt : rest.takeWhile (fun d => d ≠ '}') = t₀
          case pos =>
            -- the placeholder occurs here: replace, then recurse past it
            have hs : ('{' :: rest) = ('{' :: t₀ ++ ['}']) ++
                ((rest.drop (rest.takeWhile (fun d => d ≠ '}')).length).drop 1) := by
              rw [← hrt]
              simp only [List.cons_append, List.append_assoc, List.singleton_append,
                List.cons.injEq, true_and]
              exact hdecomp
            have hpre : ('{' :: t₀ ++ ['}']) ≠ [] ∧
                ('{' :: t₀ ++ ['}']).isPrefixOf ('{' :: rest) := by
              refine ⟨by simp, List.isPrefixOf_iff_prefix.mpr ⟨_, hs.symm⟩⟩
            rw [replaceAllChars_cons, if_pos hpre]
            have hdroplen : ('{' :: rest).drop ('{' :: t₀ ++ ['}']).length =
                ((rest.drop (rest.takeWhile (fun d => d ≠ '}')).length).drop 1) := by
              conv_lhs => rw [hs]
              exact List.drop_left _ _
            rw [hdroplen]
            constructor
            · rw [findTokens_append_left _ hv.noBrace, ih1, hT]
              rw [List.filter_cons, if_neg (by simp only [ne_eq, decide_eq_true_eq, not_not]; exact hrt)]
            · rw [renderSpecList_append_left _ _ hv.noBrace, ih2, hRS, hrt, hval]
              simp only [hw]
          case neg =>
            -- a different token matches here: it survives on both sides
            have hrun_nb : '}' ∉ rest.takeWhile (fun d => d ≠ '}') := by
              intro hmem
              have := List.mem_takeWhile_imp hmem
              simp at this
            have hrun_mem : rest.takeWhile (fun d => d ≠ '}') ∈ findTokens ('{' :: rest) := by
              rw [hT]; exact List.mem_cons_self _ _
            have hrun_nlb : '{' ∉ rest.takeWhile (fun d => d ≠ '}') :=
              hnames _ hrun_mem
            have hP : NoBrace (rest.takeWhile (fun d => d ≠ '}') ++ ['}']) := by
              intro d hd
              rcases List.mem_append.mp hd with hd | hd
              · exact fun hcontra => hrun_nlb (hcontra ▸ hd)
              · simp only [List.mem_singleton] at hd
                subst hd
                decide
            have hpre : ¬ (('{' :: t₀ ++ ['}']) ≠ [] ∧
                ('{' :: t₀ ++ ['}']).isPrefixOf ('{' :: rest)) := by
              rintro ⟨-, h2⟩
              obtain ⟨t, ht⟩ := List.isPrefixOf_iff_prefix.mp h2
              simp only [List.cons_append, List.cons.injEq, List.append_assoc,
                List.singleton_append] at ht
              have hrest2 : rest = t₀ ++ '}' :: t := ht.2.symm
              have : rest.takeWhile (fun d => d ≠ '}') = t₀ := by
                rw [hrest2]
                exact takeWhile_append_close t ht0b
              exact hrt this
            rw [replaceAllChars_cons, if_neg hpre]
            have hrest_split : replaceAllChars rest ('{' :: t₀ ++ ['}']) v =
                (rest.takeWhile (fun d => d ≠ '}') ++ ['}']) ++
                  replaceAllChars
                    ((rest.drop (rest.takeWhile (fun d => d ≠ '}')).length).drop 1)
                    ('{' :: t₀ ++ ['}']) v := by
              conv_lhs => rw [hdecomp]
              rw [show rest.takeWhile (fun d => d ≠ '}') ++
                  '}' :: ((rest.drop (rest.takeWhile (fun d => d ≠ '}')).length).drop 1) =
                  (rest.takeWhile (fun d => d ≠ '}') ++ ['}']) ++
                  ((rest.drop (rest.takeWhile (fun d => d ≠ '}')).length).drop 1) by
                simp]
              exact replaceAllChars_append_left _ _ _ hP
            rw [hrest_split]
            have hrun2 : ((rest.takeWhile (fun d => d ≠ '}') ++ ['}']) ++
                replaceAllChars
                  ((rest.drop (rest.takeWhile (fun d => d ≠ '}')).length).drop 1)
                  ('{' :: t₀ ++ ['}']) v).takeWhile (fun d => d ≠ '}') =
                rest.takeWhile (fun d => d ≠ '}') := by
              rw [show (rest.takeWhile (fun d => d ≠ '}') ++ ['}']) ++
                  replaceAllChars
                    ((rest.drop (rest.takeWhile (fun d => d ≠ '}')).length).drop 1)
                    ('{' :: t₀ ++ ['}']) v =
                  rest.takeWhile (fun d => d ≠ '}') ++ '}' ::
                  replaceAllChars
                    ((rest.drop (rest.takeWhile (fun d => d ≠ '}')).length).drop 1)
                    ('{' :: t₀ ++ ['}']) v by simp]
              exact takeWhile_append_close _ hrun_nb
            constructor
            · rw [findTokens_cons_brace, hrun2]
              rw [if_pos ?hcond]
              case hcond =>
                refine ⟨hm.1, ?_⟩
                rw [show (rest.takeWhile (fun d => d ≠ '}') ++ ['}']) ++
                    replaceAllChars
                      ((rest.drop (rest.takeWhile (fun d => d ≠ '}')).length).drop 1)
                      ('{' :: t₀ ++ ['}']) v =
                    rest.takeWhile (fun d => d ≠ '}') ++ '}' ::
                    replaceAllChars
                      ((rest.drop (rest.takeWhile (fun d => d ≠ '}')).length).drop 1)
                      ('{' :: t₀ ++ ['}']) v from by simp,
                  List.drop_left']
                · rfl
                · rfl
              rw [show ((rest.takeWhile (fun d => d ≠ '}') ++ ['}']) ++
                  replaceAllChars
                    ((rest.drop (rest.takeWhile (fun d => d ≠ '}')).length).drop 1)
                    ('{' :: t₀ ++ ['}']) v).drop
                  (rest.takeWhile (fun d => d ≠ '}')).length =
                  '}' :: replaceAllChars
                    ((rest.drop (rest.takeWhile (fun d => d ≠ '}')).length).drop 1)
                    ('{' :: t₀ ++ ['}']) v from by
                rw [show (rest.takeWhile (fun d => d ≠ '}') ++ ['}']) ++
                    replaceAllChars
                      ((rest.drop (rest.takeWhile (fun d => d ≠ '}')).length).drop 1)
                      ('{' :: t₀ ++ ['}']) v =
                    rest.takeWhile (fun d => d ≠ '}') ++ '}' ::
                    replaceAllChars
                      ((rest.drop (rest.takeWhile (fun d => d ≠ '}')).length).drop 1)
                      ('{' :: t₀ ++ ['}']) v from by simp]
                exact List.drop_left _ _]
              simp only [List.drop_succ_cons, List.drop_zero]
              rw [ih1, hT, List.filter_cons, if_pos (by simp only [ne_eq, decide_eq_true_eq]; exact hrt)]
            · rw [renderSpecList_cons_brace, hrun2]
              rw [if_pos ?hcond2]
              case hcond2 =>
                refine ⟨hm.1, ?_⟩
                rw [show (rest.takeWhile (fun d => d ≠ '}') ++ ['}']) ++
                    replaceAllChars
                      ((rest.drop (rest.takeWhile (fun d => d ≠ '}')).length).drop 1)
                      ('{' :: t₀ ++ ['}']) v =
                    rest.takeWhile (fun d => d ≠ '}') ++ '}' ::
                    replaceAllChars
                      ((rest.drop (rest.takeWhile (fun d => d ≠ '}')).length).drop 1)
                      ('{' :: t₀ ++ ['}']) v from by simp,
                  List.drop_left']
                · rfl
                · rfl
              rw [show ((rest.takeWhile (fun d => d ≠ '}') ++ ['}']) ++
                  replaceAllChars
                    ((rest.drop (rest.takeWhile (fun d => d ≠ '}')).length).drop 1)
                    ('{' :: t₀ ++ ['}']) v).drop
                  (rest.takeWhile (fun d => d ≠ '}')).length =
                  '}' :: replaceAllChars
                    ((rest.drop (rest.takeWhile (fun d => d ≠ '}')).length).drop 1)
                    ('{' :: t₀ ++ ['}']) v from by
                rw [show (rest.takeWhile (fun d => d ≠ '}') ++ ['}']) ++
                    replaceAllChars
                      ((rest.drop (rest.takeWhile (fun d => d ≠ '}')).length).drop 1)
                      ('{' :: t₀ ++ ['}']) v =
                    rest.takeWhile (fun d => d ≠ '}') ++ '}' ::
                    replaceAllChars
                      ((rest.drop (rest.takeWhile (fun d => d ≠ '}')).length).drop 1)
                      ('{' :: t₀ ++ ['}']) v from by simp]
                exact List.drop_left _ _]
              simp only [List.drop_succ_cons, List.drop_zero]
              rw [ih2, hRS]
        case neg =>
          -- no match at this '{': the placeholder cannot begin here either
          have hpre : ¬ (('{' :: t₀ ++ ['}']) ≠ [] ∧
              ('{' :: t₀ ++ ['}']).isPrefixOf ('{' :: rest)) := by
            rintro ⟨-, h2⟩
            obtain ⟨t, ht⟩ := List.isPrefixOf_iff_prefix.mp h2
            simp only [List.cons_append, List.cons.injEq, List.append_assoc,
              List.singleton_append] at ht
            have hrest2 : rest = t₀ ++ '}' :: t := ht.2.symm
            have hrun : rest.takeWhile (fun d => d ≠ '}') = t₀ := by
              rw [hrest2]; exact takeWhile_append_close t ht0b
            refine hm ⟨by rw [hrun]; exact ht0a, ?_⟩
            rw [hrun, hrest2, List.drop_left]
            rfl
          rw [replaceAllChars_cons, if_neg hpre]
          by_cases hrun : rest.takeWhile (fun d => d ≠ '}') = []
          case pos =>
            -- empty run: "{}" or "{"-at-end; the head brace is inert
            match rest with
            | [] => exact ⟨rfl, rfl⟩
            | r :: rest₂ =>
              have hr : r = '}' := by
                by_contra hr
                rw [List.takeWhile_cons, if_pos (by simp [hr])] at hrun
                cases hrun
              subst hr
              simp only [List.length_cons] at hlen
              have hscan : findTokens ('{' :: '}' :: rest₂) = findTokens rest₂ := by
                rw [findTokens_cons_brace]
                rw [if_neg (by rw [List.takeWhile_cons]; simp)]
                exact findTokens_cons_not _ (by decide)
              obtain ⟨ih1, ih2⟩ := ih rest₂ (by omega)
                (fun u hu => hnames u (by rw [hscan]; exact hu))
              have hpre2 : ¬ (('{' :: t₀ ++ ['}']) ≠ [] ∧
                  ('{' :: t₀ ++ ['}']).isPrefixOf ('}' :: rest₂)) := by
                rintro ⟨-, h2⟩
                obtain ⟨t, ht⟩ := List.isPrefixOf_iff_prefix.mp h2
                simp only [List.cons_append, List.cons.injEq] at ht
                exact absurd ht.1 (by decide)
              rw [replaceAllChars_cons, if_neg hpre2]
              constructor
              · rw [findTokens_cons_brace]
                rw [if_neg (by rw [List.takeWhile_cons]; simp)]
                rw [findTokens_cons_not _ (by decide), ih1, hscan]
              · rw [renderSpecList_cons_brace]
                rw [if_neg (by rw [List.takeWhile_cons]; simp)]
                rw [renderSpecList_cons_not _ _ (by decide), ih2]
                rw [renderSpecList_cons_brace]
                rw [if_neg (by rw [List.takeWhile_cons]; simp)]
                rw [renderSpecList_cons_not _ _ (by decide)]
          case neg =>
            -- nonempty run, no closing brace: the whole rest is '}'-free
            have hnc : '}' ∉ rest := scanner_fail_no_close hrun hm
            have hid : replaceAllChars rest ('{' :: t₀ ++ ['}']) v = rest :=
              replaceAllChars_id_of_no_close t₀ v rest hnc
            rw [hid]
            have htok : findTokens ('{' :: rest) = [] := by
              rw [findTokens_cons_brace, if_neg hm]
              exact findTokens_eq_nil_of_no_close rest.length rest le_rfl hnc
            refine ⟨?_, rfl⟩
            rw [htok]
            rfl

/-- Replacing the placeholder of a token the scanner does not find is the
identity. -/
theorem replaceAllChars_id_of_not_token (t₀ v : List Char)
    (ht0a : t₀ ≠ []) (ht0b : '}' ∉ t₀) :
    ∀ (n : Nat) (s : List Char), s.length ≤ n → t₀ ∉ findTokens s →
      (∀ u ∈ findTokens s, '{' ∉ u) →
      replaceAllChars s ('{' :: t₀ ++ ['}']) v = s := by
  intro n
  induction n with
  | zero =>
    intro s hlen _ _
    have : s = [] := List.eq_nil_of_length_eq_zero (Nat.le_zero.mp hlen)
    subst this; rfl
  | succ k ih =>
    intro s hlen habs hnames
    match s with
    | [] => rfl
    | c :: rest =>
      simp only [List.length_cons] at hlen
      by_cases hc : c = '{'
      case neg =>
        have hpre : ¬ (('{' :: t₀ ++ ['}']) ≠ [] ∧
            ('{' :: t₀ ++ ['}']).isPrefixOf (c :: rest)) := by
          rintro ⟨-, h2⟩
          obtain ⟨t, ht⟩ := List.isPrefixOf_iff_prefix.mp h2
          simp only [List.cons_append, List.cons.injEq] at ht
          exact hc ht.1.symm
        have hscan : findTokens (c :: rest) = findTokens rest := findTokens_cons_not rest hc
        rw [replaceAllChars_cons, if_neg hpre,
          ih rest (by omega) (fun hmem => habs (by rw [hscan]; exact hmem))
            (fun u hu => hnames u (by rw [hscan]; exact hu))]
      case pos =>
        subst hc
        by_cases hm : rest.takeWhile (fun d => d ≠ '}') ≠ [] ∧
            (rest.drop (rest.takeWhile (fun d => d ≠ '}')).length).head? = some '}'
        case pos =>
          have hdecomp := scanner_decomp hm
          have hT : findTokens ('{' :: rest) =
              rest.takeWhile (fun d => d ≠ '}') ::
                findTokens ((rest.drop (rest.takeWhile (fun d => d ≠ '}')).length).drop 1) := by
            rw [findTokens_cons_brace, if_pos hm]
          have hrt : rest.takeWhile (fun d => d ≠ '}') ≠ t₀ := by
            intro hrt
            exact habs (by rw [hT, hrt]; exact List.mem_cons_self _ _)
          have hrun_nb : '}' ∉ rest.takeWhile (fun d => d ≠ '}') := by
            intro hmem
            have := List.mem_takeWhile_imp hmem
            simp at this
          have hrun_nlb : '{' ∉ rest.takeWhile (fun d => d ≠ '}') :=
            hnames _ (by rw [hT]; exact List.mem_cons_self _ _)
          have hP : NoBrace (rest.takeWhile (fun d => d ≠ '}') ++ ['}']) := by
            intro d hd
            rcases List.mem_append.mp hd with hd | hd
            · exact fun hcontra => hrun_nlb (hcontra ▸ hd)
            · simp only [List.mem_singleton] at hd
              subst hd
              decide
          have hpre : ¬ (('{' :: t₀ ++ ['}']) ≠ [] ∧
              ('{' :: t₀ ++ ['}']).isPrefixOf ('{' :: rest)) := by
            rintro ⟨-, h2⟩
            obtain ⟨t, ht⟩ := List.isPrefixOf_iff_prefix.mp h2
            simp only [List.cons_append, List.cons.injEq, List.append_assoc,
              List.singleton_append] at ht
            have hrest2 : rest = t₀ ++ '}' :: t := ht.2.symm
            exact hrt (by rw [hrest2]; exact takeWhile_append_close t ht0b)
          rw [replaceAllChars_cons, if_neg hpre]
          have hB := ih ((rest.drop (rest.takeWhile (fun d => d ≠ '}')).length).drop 1)
            (by simp only [List.length_drop]; omega)
            (fun hmem => habs (by rw [hT]; exact List.mem_cons_of_mem _ hmem))
            (fun u hu => hnames u (by rw [hT]; exact List.mem_cons_of_mem _ hu))
          have hrw : replaceAllChars rest ('{' :: t₀ ++ ['}']) v = rest := by
            have h1 : replaceAllChars ((rest.takeWhile (fun d => d ≠ '}') ++ ['}']) ++
                ((rest.drop (rest.takeWhile (fun d => d ≠ '}')).length).drop 1))
                ('{' :: t₀ ++ ['}']) v =
                (rest.takeWhile (fun d => d ≠ '}') ++ ['}']) ++
                replaceAllChars ((rest.drop (rest.takeWhile (fun d => d ≠ '}')).length).drop 1)
                  ('{' :: t₀ ++ ['}']) v := replaceAllChars_append_left _ _ _ hP
            conv_lhs => rw [hdecomp, show rest.takeWhile (fun d => d ≠ '}') ++
                '}' :: ((rest.drop (rest.takeWhile (fun d => d ≠ '}')).length).drop 1) =
                (rest.takeWhile (fun d => d ≠ '}') ++ ['}']) ++
                ((rest.drop (rest.takeWhile (fun d => d ≠ '}')).length).drop 1) by simp]
            rw [h1, hB]
            conv_rhs => rw [hdecomp]
            simp
          rw [hrw]
        case neg =>
          have hpre : ¬ (('{' :: t₀ ++ ['}']) ≠ [] ∧
              ('{' :: t₀ ++ ['}']).isPrefixOf ('{' :: rest)) := by
            rintro ⟨-, h2⟩
            obtain ⟨t, ht⟩ := List.isPrefixOf_iff_prefix.mp h2
            simp only [List.cons_append, List.cons.injEq, List.append_assoc,
              List.singleton_append] at ht
            have hrest2 : rest = t₀ ++ '}' :: t := ht.2.symm
            have hrun : rest.takeWhile (fun d => d ≠ '}') = t₀ := by
              rw [hrest2]; exact takeWhile_append_close t ht0b
            refine hm ⟨by rw [hrun]; exact ht0a, ?_⟩
            rw [hrun, hrest2, List.drop_left]
            rfl
          rw [replaceAllChars_cons, if_neg hpre]
          by_cases hrun : rest.takeWhile (fun d => d ≠ '}') = []
          case pos =>
            match rest with
            | [] => rfl
            | r :: rest₂ =>
              have hr : r = '}' := by
                by_contra hr
                rw [List.takeWhile_cons, if_pos (by simp [hr])] at hrun
                cases hrun
              subst hr
              simp only [List.length_cons] at hlen
              have hscan : findTokens ('{' :: '}' :: rest₂) = findTokens rest₂ := by
                rw [findTokens_cons_brace]
                rw [if_neg (by rw [List.takeWhile_cons]; simp)]
                exact findTokens_cons_not _ (by decide)
              have hpre2 : ¬ (('{' :: t₀ ++ ['}']) ≠ [] ∧
                  ('{' :: t₀ ++ ['}']).isPrefixOf ('}' :: rest₂)) := by
                rintro ⟨-, h2⟩
                obtain ⟨t, ht⟩ := List.isPrefixOf_iff_prefix.mp h2
                simp only [List.cons_append, List.cons.injEq] at ht
                exact absurd ht.1 (by decide)
              rw [replaceAllChars_cons, if_neg hpre2,
                ih rest₂ (by omega) (fun hmem => habs (by rw [hscan]; exact hmem))
                  (fun u hu => hnames u (by rw [hscan]; exact hu))]
          case neg =>
            have hnc : '}' ∉ rest := scanner_fail_no_close hrun hm
            rw [replaceAllChars_id_of_no_close t₀ v rest hnc]

/-- The non-reentrancy condition on parameters: every string representation
a parameter can contribute is brace-free. -/
def ParamsBraceFree (params : List (String × JValue)) : Prop :=
  ∀ kv ∈ params, (paramString kv.2).elim True fun w => BraceFree w.data

instance (cs : List Char) : Decidable (BraceFree cs) := by
  unfold BraceFree; infer_instance

instance (o : Option String) : Decidable (o.elim True fun w => BraceFree w.data) :=
  match o with
  | none => .isTrue trivial
  | some w => inferInstanceAs (Decidable (BraceFree w.data))

instance (params : List (String × JValue)) : Decidable (ParamsBraceFree params) := by
  unfold ParamsBraceFree; infer_instance

theorem lookupStr_mem : ∀ (m : List (String × JValue)) (k : String) (v : JValue),
    lookupStr m k = some v → (k, v) ∈ m := by
  intro m
  induction m with
  | nil => intro k v h; cases h
  | cons kv rest ih =>
    intro k v h
    obtain ⟨k', v'⟩ := kv
    rw [lookupStr] at h
    by_cases hk : k' = k
    · rw [if_pos hk] at h
      simp only [Option.some.injEq] at h
      subst hk; subst h
      exact List.mem_cons_self _ _
    · rw [if_neg hk] at h
      exact List.mem_cons_of_mem _ (ih k v h)

theorem ParamsBraceFree.val {params : List (String × JValue)} (h : ParamsBraceFree params)
    (t : List Char) (w : String)
    (hw : (lookupStr params (String.mk t)).bind paramString = some w) : BraceFree w.data := by
  match hl : lookupStr params (String.mk t) with
  | none => rw [hl] at hw; cases hw
  | some jv =>
    rw [hl] at hw
    simp only [Option.some_bind] at hw
    have := h _ (lookupStr_mem _ _ _ hl)
    rw [hw] at this
    exact this

/-- With no resolvable token, single-pass rendering is the identity. -/
theorem renderSpecList_id_of_no_resolvable (params : List (String × JValue)) :
    ∀ (n : Nat) (s : List Char), s.length ≤ n →
      (∀ t ∈ findTokens s, (lookupStr params (String.mk t)).bind paramString = none) →
      renderSpecList params s = s := by
  intro n
  induction n with
  | zero =>
    intro s hlen _
    have : s = [] := List.eq_nil_of_length_eq_zero (Nat.le_zero.mp hlen)
    subst this; rfl
  | succ k ih =>
    intro s hlen hres
    match s with
    | [] => rfl
    | c :: rest =>
      simp only [List.length_cons] at hlen
      by_cases hc : c = '{'
      case neg =>
        have hscan : findTokens (c :: rest) = findTokens rest := findTokens_cons_not rest hc
        rw [renderSpecList_cons_not _ _ hc,
          ih rest (by omega) (fun t ht => hres t (by rw [hscan]; exact ht))]
      case pos =>
        subst hc
        by_cases hm : rest.takeWhile (fun d => d ≠ '}') ≠ [] ∧
            (rest.drop (rest.takeWhile (fun d => d ≠ '}')).length).head? = some '}'
        case pos =>
          have hdecomp := scanner_decomp hm
          have hT : findTokens ('{' :: rest) =
              rest.takeWhile (fun d => d ≠ '}') ::
                findTokens ((rest.drop (rest.takeWhile (fun d => d ≠ '}')).length).drop 1) := by
            rw [findTokens_cons_brace, if_pos hm]
          have hrnone := hres _ (by rw [hT]; exact List.mem_cons_self _ _)
          rw [renderSpecList_cons_brace, if_pos hm, hrnone]
          have hB := ih ((rest.drop (rest.takeWhile (fun d => d ≠ '}')).length).drop 1)
            (by simp only [List.length_drop]; omega)
            (fun t ht => hres t (by rw [hT]; exact List.mem_cons_of_mem _ ht))
          rw [hB]
          conv_rhs => rw [hdecomp]
          simp
        case neg =>
          have hscan : findTokens ('{' :: rest) = findTokens rest := by
            rw [findTokens_cons_brace, if_neg hm]
          rw [renderSpecList_cons_brace, if_neg hm,
            ih rest (by omega) (fun t ht => hres t (by rw [hscan]; exact ht))]

/-- Unresolvable tokens contribute nothing to the replacement fold. -/
theorem foldRender_filter_resolvable (params : List (String × JValue)) :
    ∀ (ts : List (List Char)) (s : List Char),
      ts.foldl (renderStep params) s =
        (ts.filter
          (fun t => ((lookupStr params (String.mk t)).bind paramString).isSome)).foldl
          (renderStep params) s := by
  intro ts
  induction ts with
  | nil => intro s; rfl
  | cons t ts' ih =>
    intro s
    rw [List.foldl_cons, List.filter_cons]
    match hval : (lookupStr params (String.mk t)).bind paramString with
    | some w =>
      rw [if_pos (by rfl), List.foldl_cons]
      exact ih _
    | none =>
      rw [if_neg (by simp)]
      have hstep : renderStep params s t = s := by
        unfold renderStep; rw [hval]
      rw [hstep]
      exact ih s

/-- Steps for a token absent from the scan are no-ops throughout the fold. -/
theorem foldRender_drop_absent (params : List (String × JValue)) (t₀ : List Char)
    (ht0a : t₀ ≠ []) (ht0b : '}' ∉ t₀) (hpv : ParamsBraceFree params) :
    ∀ (ts : List (List Char)) (s : List Char),
      (∀ u ∈ findTokens s, '{' ∉ u) → t₀ ∉ findTokens s →
      (∀ t ∈ ts, t ≠ [] ∧ '}' ∉ t) →
      ts.foldl (renderStep params) s =
        (ts.filter (fun u => decide (u ≠ t₀))).foldl (renderStep params) s := by
  intro ts
  induction ts with
  | nil => intro s _ _ _; rfl
  | cons t ts' ih =>
    intro s hnames habs hshape
    by_cases ht : t = t₀
    case pos =>
      subst ht
      rw [List.foldl_cons, List.filter_cons,
        if_neg (by simp only [ne_eq, decide_eq_true_eq, not_not])]
      have hstep : renderStep params s t = s := by
        unfold renderStep
        match hval : (lookupStr params (String.mk t)).bind paramString with
        | none => rfl
        | some w =>
          exact replaceAllChars_id_of_not_token t w.data ht0a ht0b s.length s le_rfl
            habs hnames
      rw [hstep]
      exact ih s hnames habs fun u hu => hshape u (List.mem_cons_of_mem _ hu)
    case neg =>
      rw [List.foldl_cons, List.filter_cons,
        if_pos (by simp only [ne_eq, decide_eq_true_eq]; exact ht), List.foldl_cons]
      match hval : (lookupStr params (String.mk t)).bind paramString with
      | none =>
        have hstep : renderStep params s t = s := by unfold renderStep; rw [hval]
        rw [hstep]
        exact ih s hnames habs fun u hu => hshape u (List.mem_cons_of_mem _ hu)
      | some w =>
        have hstep : renderStep params s t = replaceAllChars s ('{' :: t ++ ['}']) w.data := by
          unfold renderStep; rw [hval]
        rw [hstep]
        obtain ⟨hts, _⟩ := step_token params t w.data w (hshape t (List.mem_cons_self _ _)).1
          (hshape t (List.mem_cons_self _ _)).2 hval rfl (hpv.val t w hval)
          s.length s le_rfl hnames
        refine ih _ (fun u hu => hnames u ?_) (fun hmem => ?_)
          (fun u hu => hshape u (List.mem_cons_of_mem _ hu))
        · rw [hts] at hu
          exact List.mem_of_mem_filter hu
        · rw [hts] at hmem
          exact habs (List.mem_of_mem_filter hmem)

/-- The replacement fold over the resolvable tokens of a template equals
single-pass rendering, provided token names are `'{'`-free and parameter
values are brace-free. -/
theorem foldRender_spec (params : List (String × JValue)) (hpv : ParamsBraceFree params) :
    ∀ (m : Nat) (rts : List (List Char)) (s : List Char), rts.length ≤ m →
      (∀ u ∈ findTokens s, '{' ∉ u) →
      (findTokens s).filter
        (fun t => ((lookupStr params (String.mk t)).bind paramString).isSome) = rts →
      rts.foldl (renderStep params) s = renderSpecList params s := by
  intro m
  induction m with
  | zero =>
    intro rts s hlen _ hfil
    have : rts = [] := List.eq_nil_of_length_eq_zero (Nat.le_zero.mp hlen)
    subst this
    rw [List.foldl_nil, renderSpecList_id_of_no_resolvable params s.length s le_rfl]
    intro t ht
    have := List.filter_eq_nil.mp hfil t ht
    match hval : (lookupStr params (String.mk t)).bind paramString with
    | none => rfl
    | some w => rw [hval] at this; simp at this
  | succ k ih =>
    intro rts s hlen hnames hfil
    match rts with
    | [] =>
      rw [List.foldl_nil, renderSpecList_id_of_no_resolvable params s.length s le_rfl]
      intro t ht
      have := List.filter_eq_nil.mp hfil t ht
      match hval : (lookupStr params (String.mk t)).bind paramString with
      | none => rfl
      | some w => rw [hval] at this; simp at this
    | t₀ :: rts' =>
      simp only [List.length_cons] at hlen
      have ht0mem : t₀ ∈ (findTokens s).filter
          (fun t => ((lookupStr params (String.mk t)).bind paramString).isSome) := by
        rw [hfil]; exact List.mem_cons_self _ _
      have ht0scan : t₀ ∈ findTokens s := List.mem_of_mem_filter ht0mem
      have ht0res : ((lookupStr params (String.mk t₀)).bind paramString).isSome :=
        (List.mem_filter.mp ht0mem).2
      obtain ⟨w, hval⟩ := Option.isSome_iff_exists.mp ht0res
      obtain ⟨ht0a, ht0b⟩ := findTokens_shape s.length s le_rfl t₀ ht0scan
      have hstep : renderStep params s t₀ = replaceAllChars s ('{' :: t₀ ++ ['}']) w.data := by
        unfold renderStep; rw [hval]
      obtain ⟨hsc, hrd⟩ := step_token params t₀ w.data w ht0a ht0b hval rfl
        (hpv.val t₀ w hval) s.length s le_rfl hnames
      rw [List.foldl_cons, hstep]
      have hnames2 : ∀ u ∈ findTokens (replaceAllChars s ('{' :: t₀ ++ ['}']) w.data),
          '{' ∉ u := by
        intro u hu
        rw [hsc] at hu
        exact hnames u (List.mem_of_mem_filter hu)
      have habs2 : t₀ ∉ findTokens (replaceAllChars s ('{' :: t₀ ++ ['}']) w.data) := by
        intro hmem
        rw [hsc] at hmem
        have := List.of_mem_filter hmem
        simp at this
      have hshape2 : ∀ t ∈ rts', t ≠ [] ∧ '}' ∉ t := by
        intro t ht
        have : t ∈ (findTokens s).filter
            (fun t => ((lookupStr params (String.mk t)).bind paramString).isSome) := by
          rw [hfil]; exact List.mem_cons_of_mem _ ht
        exact findTokens_shape s.length s le_rfl t (List.mem_of_mem_filter this)
      rw [foldRender_drop_absent params t₀ ht0a ht0b hpv rts' _ hnames2 habs2 hshape2]
      have hfil2 : (findTokens (replaceAllChars s ('{' :: t₀ ++ ['}']) w.data)).filter
          (fun t => ((lookupStr params (String.mk t)).bind paramString).isSome) =
          rts'.filter (fun u => decide (u ≠ t₀)) := by
        rw [hsc, List.filter_filter]
        have hstep2 : rts'.filter (fun u => decide (u ≠ t₀)) =
            (t₀ :: rts').filter (fun u => decide (u ≠ t₀)) := by
          rw [List.filter_cons, if_neg (by simp only [ne_eq, decide_eq_true_eq, not_not])]
        rw [hstep2, ← hfil, List.filter_filter]
        congr 1
        funext u
        exact Bool.and_comm _ _
      rw [← hrd]
      exact ih (rts'.filter (fun u => decide (u ≠ t₀))) _
        (le_trans (List.length_filter_le _ _) (by omega)) hnames2 hfil2

/-- The literal reading of claim C8 at one template and parameter map: the
rendering equals single-pass substitution of each token. -/
def ClaimC8 (endpoint : String) (params : List (String × JValue)) : Prop :=
  renderEndpoint endpoint params = renderEndpointSpec endpoint params

/-- Counterexample to C8 as stated: with template `"{a} {b}"` and
`params = {a: "{b}", b: "B"}`, the sequential global replacements first turn
the template into `"{b} {b}"` and then into `"B B"`, so the `{a}` token is
not substituted by its string representation (which single-pass substitution
would render as `"{b} B"`). -/
theorem c8_counterexample :
    ¬ ClaimC8 "{a} {b}" [("a", JValue.str "{b}"), ("b", JValue.str "B")] ∧
    renderEndpoint "{a} {b}" [("a", JValue.str "{b}"), ("b", JValue.str "B")] = "B B" ∧
    renderEndpointSpec "{a} {b}" [("a", JValue.str "{b}"), ("b", JValue.str "B")] = "{b} B" := by
  refine ⟨?_, by decide, by decide⟩
  unfold ClaimC8
  decide

/-- C8 amended: endpoint rendering substitutes tokens by sequential global
replacement in order of appearance, so a substituted value that itself
contains a later token's placeholder is substituted again (see the
counterexample). Whenever no parameter value can complete or re-introduce a
placeholder — no token name contains `'{'` and every parameter's string
representation is free of `'{'` and `'}'` — rendering coincides with
single-pass substitution: each token whose name has a string, number or
boolean entry in `params` is replaced by its string representation, and
every other token is left literally in place; in particular
`"/customers/{id}"` with `params = {id: "12345"}` renders to
`"/customers/12345"`. -/
theorem c8_endpoint_rendering (endpoint : String) (params : List (String × JValue))
    (hnames : ∀ t ∈ findTokens endpoint.data, '{' ∉ t)
    (hvals : ParamsBraceFree params) :
    renderEndpoint endpoint params = renderEndpointSpec endpoint params ∧
    renderEndpoint "/customers/{id}" [("id", JValue.str "12345")] = "/customers/12345" := by
  constructor
  · show String.mk ((findTokens endpoint.data).foldl (renderStep params) endpoint.data) = _
    rw [renderEndpointSpec_eq]
    congr 1
    rw [foldRender_filter_resolvable]
    exact foldRender_spec params hvals
      ((findTokens endpoint.data).filter
        (fun t => ((lookupStr params (String.mk t)).bind paramString).isSome)).length
      _ _ le_rfl hnames rfl
  · decide

/-- Witness for the amended C8: a template with one resolvable and one
unresolvable token renders exactly as single-pass substitution (the
unresolved `{q}` stays literally in place), plus the particular
`/customers/{id}` example. -/
theorem c8_endpoint_rendering_witness :
    renderEndpoint "/a/{x}/{q}" [("x", JValue.str "X1")] =
      renderEndpointSpec "/a/{x}/{q}" [("x", JValue.str "X1")] ∧
    renderEndpoint "/customers/{id}" [("id", JValue.str "12345")] = "/customers/12345" :=
  c8_endpoint_rendering "/a/{x}/{q}" [("x", JValue.str "X1")] (by decide) (by decide)

/-- One part's contribution in Go `extractTextFromTask`
(config_transformer.go:270-289): only object parts with a string `type`
equal to `"text"` and a string `text` contribute, space-joined. -/
def partText (text : String) (part : JValue) : String :=
  match part with
  | .obj pm =>
    match lookupStr pm "type" with
    | some (.str t) =>
      if t = "text" then
        match lookupStr pm "text" with
        | some (.str s) => (if text ≠ "" then text ++ " " else text) ++ s
        | _ => text
      else text
    | _ => text
  | _ => text

/-- Go `extractTextFromTask` (config_transformer.go:252-292): requires
`status`, `status.message` and `status.message.parts` to exist with their
expected shapes, then concatenates the text parts. -/
def extractTextFromTask (taskMap : List (String × JValue)) : Except String String :=
  match lookupStr taskMap "status" with
  | some (.obj st) =>
    match lookupStr st "message" with
    | some (.obj msg) =>
      match lookupStr msg "parts" with
      | some (.arr parts) => Except.ok (parts.foldl partText "")
      | _ => Except.error "parts field not found or not an array"
    | _ => Except.error "message field not found or not an object"
  | _ => Except.error "status field not found or not an object"

/-- Go `getTaskID` (config_transformer.go:295-300); the generated fallback id
uses the current Unix time, threaded here as `nowUnix`. -/
def getTaskID (taskMap : List (String × JValue)) (nowUnix : String) : String :=
  match lookupStr taskMap "id" with
  | some (.str s) => s
  | _ => "task-" ++ nowUnix

/-- Go `transformRequest` (config_transformer.go:42-89) at the parsed-object
level (the `json.Unmarshal`/`json.Marshal` byte layer is not modeled):
extract the text, find the matching mapping, extract parameters, assemble
the legacy request `{action, params, meta{taskId, timestamp, endpoint,
mappingId}}`, then apply the request-direction global transform rules, each
reading from the original task map. `now` is the RFC3339 timestamp and
`nowUnix` the Unix-time fallback id suffix produced by `time.Now()`. -/
def transformRequest (cfg : ConnectorConfig) (now nowUnix : String)
    (taskMap : List (String × JValue)) : Except String (List (String × JValue)) :=
  match extractTextFromTask taskMap with
  | .error e => .error e
  | .ok text =>
    match findMatchingMapping cfg text with
    | .error e => .error e
    | .ok mappingConfig =>
      let params := extractParameters mappingConfig taskMap text
      let taskID := getTaskID taskMap nowUnix
      let legacyRequest : List (String × JValue) :=
        [("action", JValue.str mappingConfig.method),
         ("params", JValue.obj params),
         ("meta", JValue.obj
           [("taskId", JValue.str taskID),
            ("timestamp", JValue.str now),
            ("endpoint", JValue.str (renderEndpoint mappingConfig.endpoint params)),
            ("mappingId", JValue.str mappingConfig.intentPattern)])]
      Except.ok (cfg.transforms.a2aToLegacy.foldl
        (fun acc rule => applyTransformRule rule taskMap acc) legacyRequest)

/-- The task state strings `a2a.TaskStateCompleted` / `a2a.TaskStateFailed`.
Modelled from the spec: the `a2a` package is an external collaborator not in
this repository; spec §3 fixes the state enum values `completed`/`failed`. -/
def taskStateCompleted : String := "completed"

/-- See `taskStateCompleted`. -/
def taskStateFailed : String := "failed"

/-- State determination in Go `transformResponse`
(config_transformer.go:125-134): `completed` unless a string `status` field
differs from `"success"` or a string `error` field is non-empty. -/
def taskStateOf (legacyResponse : List (String × JValue)) : String :=
  let st := match lookupStr legacyResponse "status" with
    | some (.str s) => if s ≠ "success" then taskStateFailed else taskStateCompleted
    | _ => taskStateCompleted
  match lookupStr legacyResponse "error" with
  | some (.str e) => if e ≠ "" then taskStateFailed else st
  | _ => st

/-- The state-determining condition as a boolean: a string `status` field
differing from `"success"`, or a non-empty string `error` field. -/
def respFailedB (legacyResponse : List (String × JValue)) : Bool :=
  (match lookupStr legacyResponse "status" with
   | some (.str s) => s != "success"
   | _ => false) ||
  (match lookupStr legacyResponse "error" with
   | some (.str e) => e != ""
   | _ => false)

theorem taskStateOf_eq (lr : List (String × JValue)) :
    taskStateOf lr = if respFailedB lr then taskStateFailed else taskStateCompleted := by
  unfold taskStateOf respFailedB
  match hs : lookupStr lr "status", he : lookupStr lr "error" with
  | some (.str s), some (.str e) =>
    by_cases h1 : s = "success" <;> by_cases h2 : e = "" <;>
      simp [h1, h2, taskStateFailed, taskStateCompleted]
  | some (.str s), none => by_cases h1 : s = "success" <;> simp [h1]
  | some (.str s), some .null => by_cases h1 : s = "success" <;> simp [h1]
  | some (.str s), some (.bool b) => by_cases h1 : s = "success" <;> simp [h1]
  | some (.str s), some (.num n) => by_cases h1 : s = "success" <;> simp [h1]
  | some (.str s), some (.arr a) => by_cases h1 : s = "success" <;> simp [h1]
  | some (.str s), some (.obj o) => by_cases h1 : s = "success" <;> simp [h1]
  | none, he2 =>
    match he2 with
    | some (.str e) => by_cases h2 : e = "" <;> simp [h2]
    | none => simp
    | some .null => simp
    | some (.bool b) => simp
    | some (.num n) => simp
    | some (.arr a) => simp
    | some (.obj o) => simp
  | some .null, he2 =>
    match he2 with
    | some (.str e) => by_cases h2 : e = "" <;> simp [h2]
    | none => simp
    | some .null => simp
    | some (.bool b) => simp
    | some (.num n) => simp
    | some (.arr a) => simp
    | some (.obj o) => simp
  | some (.bool b'), he2 =>
    match he2 with
    | some (.str e) => by_cases h2 : e = "" <;> simp [h2]
    | none => simp
    | some .null => simp
    | some (.bool b) => simp
    | some (.num n) => simp
    | some (.arr a) => simp
    | some (.obj o) => simp
  | some (.num n'), he2 =>
    match he2 with
    | some (.str e) => by_cases h2 : e = "" <;> simp [h2]
    | none => simp
    | some .null => simp
    | some (.bool b) => simp
    | some (.num n) => simp
    | some (.arr a) => simp
    | some (.obj o) => simp
  | some (.arr a'), he2 =>
    match he2 with
    | some (.str e) => by_cases h2 : e = "" <;> simp [h2]
    | none => simp
    | some .null => simp
    | some (.bool b) => simp
    | some (.num n) => simp
    | some (.arr a) => simp
    | some (.obj o) => simp
  | some (.obj o'), he2 =>
    match he2 with
    | some (.str e) => by_cases h2 : e = "" <;> simp [h2]
    | none => simp
    | some .null => simp
    | some (.bool b) => simp
    | some (.num n) => simp
    | some (.arr a) => simp
    | some (.obj o) => simp

/-- Mapping-config lookup in Go `transformResponse`
(config_transformer.go:116-123): linear scan for the first mapping whose
`IntentPattern` equals the echoed `mappingId`; the zero-value
`ResponseTransform` when none matches. -/
def lookupResponseTransform (cfg : ConnectorConfig) (mappingID : String) : ResponseTransform :=
  match cfg.mappings.find? (fun m => m.intentPattern == mappingID) with
  | some m => m.responseTransform
  | none => {}

/-- Default text summary (config_transformer.go:149-165): `"Status: <s>\n"`
when `status` is a string, then `"Error: <e>\n"` when `error` is a non-empty
string; a text part only when the summary is non-empty. -/
def defaultTextParts (legacyResponse : List (String × JValue)) :
    List (List (String × JValue)) :=
  let textContent :=
    (match lookupStr legacyResponse "status" with
     | some (.str s) => "Status: " ++ s ++ "\n"
     | _ => "") ++
    (match lookupStr legacyResponse "error" with
     | some (.str e) => if e ≠ "" then "Error: " ++ e ++ "\n" else ""
     | _ => "")
  if textContent ≠ "" then [[("type", JValue.str "text"), ("text", JValue.str textContent)]]
  else []

/-- Parts assembly in Go `transformResponse` (config_transformer.go:136-173):
a text part rendered by the compiled response template when one is
configured (silently omitted when `Execute` fails), otherwise the default
summary; then a data part when `result` is an object. -/
def buildParts (rt : ResponseTransform) (legacyResponse : List (String × JValue)) :
    List (List (String × JValue)) :=
  (match rt.compiled with
   | some f =>
     if rt.template ≠ "" then
       match f legacyResponse with
       | some s => [[("type", JValue.str "text"), ("text", JValue.str s)]]
       | none => []
     else defaultTextParts legacyResponse
   | none => defaultTextParts legacyResponse) ++
  (match lookupStr legacyResponse "result" with
   | some (.obj r) => [[("type", JValue.str "data"), ("data", JValue.obj r)]]
   | _ => [])

/-- `taskId` resolution in Go `transformResponse`
(config_transformer.go:100-106): `meta.taskId` when `meta` is an object with
a string `taskId`, else the `"unknown-task"` placeholder. -/
def respTaskID (legacyResponse : List (String × JValue)) : String :=
  match lookupStr legacyResponse "meta" with
  | some (.obj m) =>
    (match lookupStr m "taskId" with
     | some (.str s) => s
     | _ => "unknown-task")
  | _ => "unknown-task"

/-- `mappingId` resolution in Go `transformResponse`
(config_transformer.go:108-114): `meta.mappingId` when present as a string,
else the empty string. -/
def respMappingID (legacyResponse : List (String × JValue)) : String :=
  match lookupStr legacyResponse "meta" with
  | some (.obj m) =>
    (match lookupStr m "mappingId" with
     | some (.str s) => s
     | _ => "")
  | _ => ""

/-- The task assembled by Go `transformResponse` before metadata attachment
(config_transformer.go:175-189): `{id, status:{state, message:{role:
"agent", parts}, timestamp}}`. -/
def assembleTaskCore (cfg : ConnectorConfig) (now : String)
    (legacyResponse : List (String × JValue)) : List (String × JValue) :=
  [("id", JValue.str (respTaskID legacyResponse)),
   ("status", JValue.obj
     [("state", JValue.str (taskStateOf legacyResponse)),
      ("message", JValue.obj
        [("role", JValue.str "agent"),
         ("parts", JValue.arr
           ((buildParts (lookupResponseTransform cfg (respMappingID legacyResponse))
             legacyResponse).map JValue.obj))]),
      ("timestamp", JValue.str now)])]

/-- Metadata attachment (config_transformer.go:191-194): `task["metadata"] =
meta` when `meta` is an object. In this tree-valued embedding the entry is a
copy of `meta`; the heap embedding later in the file captures the Go map
aliasing between the two. -/
def assembleTask (cfg : ConnectorConfig) (now : String)
    (legacyResponse : List (String × JValue)) : List (String × JValue) :=
  match lookupStr legacyResponse "meta" with
  | some (.obj m) => assembleTaskCore cfg now legacyResponse ++ [("metadata", JValue.obj m)]
  | _ => assembleTaskCore cfg now legacyResponse

/-- Go `transformResponse` (config_transformer.go:92-202) at the
parsed-object level: assemble the task from the legacy response, then apply
the response-direction global transform rules in declared order, each
resolving its source against the original legacy response map. -/
def transformResponse (cfg : ConnectorConfig) (now : String)
    (legacyResponse : List (String × JValue)) : List (String × JValue) :=
  cfg.transforms.legacyToA2A.foldl
    (fun acc rule => applyTransformRule rule legacyResponse acc)
    (assembleTask cfg now legacyResponse)

/-- The single error path of Go `transformResponse`: a payload that does not
parse as a JSON object fails `json.Unmarshal` (config_transformer.go:94-98);
every object input yields a task (the final `json.Marshal` of string-keyed
maps cannot fail). -/
def transformResponseTop (cfg : ConnectorConfig) (now : String) :
    JValue → Except String (List (String × JValue))
  | .obj m => Except.ok (transformResponse cfg now m)
  | _ => Except.error "error unmarshaling legacy response"

theorem getPath_single (m : List (String × JValue)) (p : String) :
    getPath m [p] = lookupStr m p := rfl

theorem getPath_cons_cons (m : List (String × JValue)) (p q : String) (rest : List String) :
    getPath m (p :: q :: rest) =
      (match lookupStr m p with
       | some (.obj o) => getPath o (q :: rest)
       | _ => none) := rfl

/-- C5: for every legacy response (and any configured rules whose targets
leave `status.state` alone), the response transform sets the output task's
`status.state` to `completed` unless the response carries a string `status`
differing from `"success"` or a non-empty string `error`, in which case it
sets `failed`. -/
theorem c5_response_state (cfg : ConnectorConfig) (now : String)
    (lr : List (String × JValue))
    (hsep : ∀ r ∈ cfg.transforms.legacyToA2A,
      PathIndep (splitPath r.target) ["status", "state"]) :
    getPath (transformResponse cfg now lr) ["status", "state"] =
      some (JValue.str (if respFailedB lr then taskStateFailed else taskStateCompleted)) := by
  unfold transformResponse
  rw [getPath_ruleFold_indep _ _ _ _ hsep, ← taskStateOf_eq]
  unfold assembleTask
  match hm : lookupStr lr "meta" with
  | some (.obj m) => rfl
  | none => rfl
  | some .null => rfl
  | some (.bool b) => rfl
  | some (.num n) => rfl
  | some (.str s) => rfl
  | some (.arr a) => rfl

/-- A legacy response mirroring the spec's end-to-end scenario 2. -/
def lrSuccess : List (String × JValue) :=
  [("status", JValue.str "success"),
   ("result", JValue.obj [("id", JValue.str "12345"), ("name", JValue.str "John Doe")]),
   ("meta", JValue.obj [("taskId", JValue.str "task-123")])]

/-- Witness for C5: the scenario-2 response (`status: success`, no error)
yields state `completed`. -/
theorem c5_response_state_witness :
    getPath (transformResponse cfgTwoMatches "T" lrSuccess) ["status", "state"] =
      some (JValue.str taskStateCompleted) :=
  c5_response_state cfgTwoMatches "T" lrSuccess (fun r hr => absurd hr (List.not_mem_nil r))

/-- The response leg of the correlation round trip: when `meta.taskId` is a
string (and no configured rule's target touches `id`), the output task's
`id` is that string. -/
theorem transformResponse_id (cfg : ConnectorConfig) (now : String)
    (lr : List (String × JValue)) (tid : String)
    (hmeta : getPath lr ["meta", "taskId"] = some (JValue.str tid))
    (hsep : ∀ r ∈ cfg.transforms.legacyToA2A, PathIndep (splitPath r.target) ["id"]) :
    getPath (transformResponse cfg now lr) ["id"] = some (JValue.str tid) := by
  unfold transformResponse
  rw [getPath_ruleFold_indep _ _ _ _ hsep]
  rw [getPath_cons_cons] at hmeta
  match hm : lookupStr lr "meta", hmeta with
  | some (.obj m), hmeta =>
    replace hmeta : lookupStr m "taskId" = some (JValue.str tid) := hmeta
    unfold assembleTask
    rw [hm]
    have hcore : getPath
        (assembleTaskCore cfg now lr ++ [("metadata", JValue.obj m)]) ["id"] =
        some (JValue.str (respTaskID lr)) := rfl
    rw [hcore]
    unfold respTaskID
    rw [hm]
    simp only [hmeta]
  | none, hmeta => exact Option.noConfusion hmeta
  | some .null, hmeta => exact Option.noConfusion hmeta
  | some (.bool b), hmeta => exact Option.noConfusion hmeta
  | some (.num n), hmeta => exact Option.noConfusion hmeta
  | some (.str s), hmeta => exact Option.noConfusion hmeta
  | some (.arr a), hmeta => exact Option.noConfusion hmeta

/-- C4: correlation-id round trip. (1) For every task whose `id` is a string,
the legacy request built by the request transform carries that id at
`meta.taskId` (when no request-direction rule's target touches it). (2) For
every legacy response whose `meta.taskId` is a string, the response
transform's output task has that string as its `id` (when no
response-direction rule's target touches `id`). (3) Hence when the legacy
system echoes the request's `meta` back, the task produced from the response
carries the same id the request was built from. -/
theorem c4_correlation_roundtrip (cfg : ConnectorConfig) (now nowUnix : String)
    (taskMap req : List (String × JValue)) (tid : String)
    (hid : lookupStr taskMap "id" = some (JValue.str tid))
    (hreq : transformRequest cfg now nowUnix taskMap = Except.ok req)
    (hsep1 : ∀ r ∈ cfg.transforms.a2aToLegacy,
      PathIndep (splitPath r.target) ["meta", "taskId"]) :
    getPath req ["meta", "taskId"] = some (JValue.str tid) ∧
    (∀ (cfg₂ : ConnectorConfig) (now₂ : String) (lr : List (String × JValue)) (tid₂ : String),
      getPath lr ["meta", "taskId"] = some (JValue.str tid₂) →
      (∀ r ∈ cfg₂.transforms.legacyToA2A, PathIndep (splitPath r.target) ["id"]) →
      getPath (transformResponse cfg₂ now₂ lr) ["id"] = some (JValue.str tid₂)) ∧
    (∀ (cfg₂ : ConnectorConfig) (now₂ : String) (lr : List (String × JValue)),
      lookupStr lr "meta" = lookupStr req "meta" →
      (∀ r ∈ cfg₂.transforms.legacyToA2A, PathIndep (splitPath r.target) ["id"]) →
      getPath (transformResponse cfg₂ now₂ lr) ["id"] = some (JValue.str tid)) := by
  have h1 : getPath req ["meta", "taskId"] = some (JValue.str tid) := by
    unfold transformRequest at hreq
    cases hext : extractTextFromTask taskMap with
    | error e => rw [hext] at hreq; simp only at hreq; exact Except.noConfusion hreq
    | ok text =>
      rw [hext] at hreq
      simp only at hreq
      cases hfind : findMatchingMapping cfg text with
      | error e => rw [hfind] at hreq; simp only at hreq; exact Except.noConfusion hreq
      | ok mc =>
        rw [hfind] at hreq
        simp only [Except.ok.injEq] at hreq
        rw [← hreq]
        rw [getPath_ruleFold_indep _ _ _ _ hsep1]
        have hbase : getPath
            [("action", JValue.str mc.method),
             ("params", JValue.obj (extractParameters mc taskMap text)),
             ("meta", JValue.obj
               [("taskId", JValue.str (getTaskID taskMap nowUnix)),
                ("timestamp", JValue.str now),
                ("endpoint", JValue.str
                  (renderEndpoint mc.endpoint (extractParameters mc taskMap text))),
                ("mappingId", JValue.str mc.intentPattern)])]
            ["meta", "taskId"] = some (JValue.str (getTaskID taskMap nowUnix)) := rfl
        rw [hbase]
        unfold getTaskID
        simp only [hid]
  refine ⟨h1, fun cfg₂ now₂ lr tid₂ hm hs => transformResponse_id cfg₂ now₂ lr tid₂ hm hs,
    fun cfg₂ now₂ lr hecho hs => ?_⟩
  apply transformResponse_id cfg₂ now₂ lr tid _ hs
  rw [getPath_cons_cons] at h1 ⊢
  rw [hecho]
  exact h1

/-- Task used by concrete instantiations of the request transform: carries a
string id and one text part `"hello"`. -/
def taskEx : List (String × JValue) :=
  [("id", JValue.str "task-1"),
   ("status", JValue.obj
     [("message", JValue.obj
       [("parts", JValue.arr
         [JValue.obj [("type", JValue.str "text"), ("text", JValue.str "hello")]])])])]

/-- The legacy request `transformRequest` produces from `taskEx` under
`cfgTwoMatches` with timestamp `"T0"` and Unix time `"0"`. -/
def reqEx : List (String × JValue) :=
  [("action", JValue.str "GET"),
   ("params", JValue.obj []),
   ("meta", JValue.obj
     [("taskId", JValue.str "task-1"),
      ("timestamp", JValue.str "T0"),
      ("endpoint", JValue.str "/hello"),
      ("mappingId", JValue.str "hello")])]

/-- A legacy response echoing `reqEx`'s `meta` object back unchanged. -/
def lrEcho : List (String × JValue) :=
  [("status", JValue.str "success"),
   ("meta", JValue.obj
     [("taskId", JValue.str "task-1"),
      ("timestamp", JValue.str "T0"),
      ("endpoint", JValue.str "/hello"),
      ("mappingId", JValue.str "hello")])]

/-- Witness for C4: the request built from `taskEx` carries `task-1` at
`meta.taskId`, and the task produced from the echoed response carries
`task-1` as its id. -/
theorem c4_correlation_roundtrip_witness :
    getPath reqEx ["meta", "taskId"] = some (JValue.str "task-1") ∧
    getPath (transformResponse cfgTwoMatches "T1" lrEcho) ["id"] =
      some (JValue.str "task-1") := by
  have h := c4_correlation_roundtrip cfgTwoMatches "T0" "0" taskEx reqEx "task-1" rfl rfl
    (fun r hr => absurd hr (List.not_mem_nil r))
  exact ⟨h.1, h.2.2 cfgTwoMatches "T1" lrEcho rfl (fun r hr => absurd hr (List.not_mem_nil r))⟩

/-- C10: implicit totality of the response transform. (1) Every input that
parses as a JSON object yields a task without error. (2) Every non-object
input yields the unmarshal error — the only error path. (3) A `meta.mappingId`
matching no configured mapping silently yields the zero-value
`ResponseTransform`. (4) When the configured template fails to render, the
text part is silently omitted, leaving only the data part (or nothing when
`result` is not an object). -/
theorem c10_response_transform_total (cfg : ConnectorConfig) (now : String) :
    (∀ m : List (String × JValue),
      ∃ t, transformResponseTop cfg now (JValue.obj m) = Except.ok t) ∧
    (∀ v : JValue, (∀ m, v ≠ JValue.obj m) →
      ∃ e, transformResponseTop cfg now v = Except.error e) ∧
    (∀ mappingID, (∀ mc ∈ cfg.mappings, mc.intentPattern ≠ mappingID) →
      lookupResponseTransform cfg mappingID = {}) ∧
    (∀ (rt : ResponseTransform) (lr : List (String × JValue))
        (f : List (String × JValue) → Option String),
      rt.compiled = some f → rt.template ≠ "" → f lr = none →
      buildParts rt lr =
        (match lookupStr lr "result" with
         | some (.obj r) => [[("type", JValue.str "data"), ("data", JValue.obj r)]]
         | _ => [])) := by
  refine ⟨fun m => ⟨_, rfl⟩, ?_, ?_, ?_⟩
  · intro v hv
    match v with
    | .obj m => exact absurd rfl (hv m)
    | .null => exact ⟨_, rfl⟩
    | .bool b => exact ⟨_, rfl⟩
    | .num n => exact ⟨_, rfl⟩
    | .str s => exact ⟨_, rfl⟩
    | .arr a => exact ⟨_, rfl⟩
  · intro mappingID h
    unfold lookupResponseTransform
    have hnone : cfg.mappings.find? (fun m => m.intentPattern == mappingID) = none := by
      rw [List.find?_eq_none]
      intro mc hmc
      simpa using h mc hmc
    rw [hnone]
  · intro rt lr f hc ht hf
    unfold buildParts
    simp [hc, hf, ht]

/-- A response transform whose compiled template always fails to render. -/
def rtFailing : ResponseTransform :=
  { template := "{{.name}}", compiled := some fun _ => none }

/-- Witness for C10 at concrete inputs: an object input succeeds, a string
input is the unmarshal error, an unmatched mapping id yields the zero-value
transform, and a failing template leaves only the data part. -/
theorem c10_response_transform_total_witness :
    (∃ t, transformResponseTop cfgTwoMatches "T" (JValue.obj [("status", JValue.str "ok")]) =
      Except.ok t) ∧
    (∃ e, transformResponseTop cfgTwoMatches "T" (JValue.str "not json") = Except.error e) ∧
    lookupResponseTransform cfgTwoMatches "zzz" = {} ∧
    buildParts rtFailing [("result", JValue.obj [("id", JValue.str "1")])] =
      [[("type", JValue.str "data"), ("data", JValue.obj [("id", JValue.str "1")])]] := by
  have h := c10_response_transform_total cfgTwoMatches "T"
  refine ⟨h.1 _, h.2.1 _ (fun m hm => JValue.noConfusion hm), h.2.2.1 "zzz" ?_,
    h.2.2.2 rtFailing _ _ rfl (by decide) rfl⟩
  intro mc hmc
  simp only [cfgTwoMatches, List.mem_cons, List.not_mem_nil, or_false] at hmc
  rcases hmc with rfl | rfl
  · decide
  · decide

/-- Byte sequences, modeling Go `[]byte`. -/
abbrev Bytes := List Nat

/-- `TransformFunc func([]byte) ([]byte, error)` (transformer.go:10). -/
abbrev TransformFunc := Bytes → Except String Bytes

/-- `http.Header.Set` as update-or-append on an association list (the
canonical-key normalization is irrelevant here: the embedded code uses one
spelling per key). -/
def setHeader : List (String × String) → String → String → List (String × String)
  | [], k, v => [(k, v)]
  | (k', v') :: rest, k, v =>
    if k' = k then (k, v) :: rest else (k', v') :: setHeader rest k v

/-- Header read, for stating properties of the pipeline. -/
def lookupHeader : List (String × String) → String → Option String
  | [], _ => none
  | (k', v) :: rest, k => if k' = k then some v else lookupHeader rest k

/-- The state of an `io.ReadCloser` body as the pipeline manipulates it:
`nil` (`req.Body == nil`, so the transform branch is skipped), an open
reader whose remaining content is `content`, or a reader that
`ioutil.ReadAll` has drained and `Close` has closed without a replacement
being assigned — forwarding it reads no bytes. -/
inductive BodyState where
  | nil
  | stream (content : Bytes)
  | consumed
deriving DecidableEq

/-- What `ioutil.ReadAll` returns for a non-nil body (`none` for a nil body,
where the Go guard skips the transform): an open reader yields its content,
an already-consumed reader yields no bytes. In-memory reads are modeled as
never erroring, so `ReadAll`'s error branch does not appear. -/
def bodyBytes : BodyState → Option Bytes
  | .nil => none
  | .stream content => some content
  | .consumed => some []

/-- An HTTP request or response as the pipeline observes it: headers, the
body reader's state, and the `ContentLength` field. -/
structure HttpMessage where
  headers : List (String × String)
  body : BodyState
  contentLength : Int

/-- Go `string(rune(n))` for `n ≥ 0`: the one-character string of code point
`n` when `n` is a valid rune, the replacement character `"�"`
otherwise. NOTE this is what transformer.go:65 and transformer.go:94
actually compute for the `Content-Length` header — not the decimal
rendering of `n`. -/
def goRuneString (n : Nat) : String :=
  if n < 0xd800 ∨ (0xe000 ≤ n ∧ n < 0x110000) then String.mk [Char.ofNat n]
  else String.mk [Char.ofNat 0xfffd]

/-- Go `Transformer.TransformRequest` (transformer.go:49-69): set the
configured request headers; when a transform function and a non-nil body
are present, `ioutil.ReadAll(req.Body)` then `req.Body.Close()` — the body
is now drained and closed — and run the transform on the bytes read; on
success assign a fresh reader over the transformed bytes, the
`ContentLength` field and the `Content-Length` header (the latter via
`string(rune(len))`); on failure NOTHING is reassigned: the error is
swallowed, the function returns normally, and `req.Body` stays the
drained, closed reader. -/
def TransformRequestGo (requestHeaders : List (String × String))
    (requestTransform : Option TransformFunc) (req : HttpMessage) : HttpMessage :=
  let req1 : HttpMessage :=
    { req with headers := requestHeaders.foldl (fun hs kv => setHeader hs kv.1 kv.2) req.headers }
  match requestTransform, bodyBytes req1.body with
  | some f, some content =>
    (match f content with
     | .ok transformed =>
       { req1 with body := .stream transformed,
                   contentLength := (transformed.length : Int),
                   headers := setHeader req1.headers "Content-Length"
                     (goRuneString transformed.length) }
     | .error _ => { req1 with body := .consumed })
  | _, _ => req1

/-- Go `Transformer.TransformResponse` (transformer.go:72-98): set the
configured response headers; when a transform function and a non-nil body
are present, drain and close the body and run the transform on the bytes
read; on success replace body, `ContentLength` and the `Content-Length`
header as in the request leg; on failure RETURN the error, failing the
HTTP exchange. -/
def TransformResponseGo (responseHeaders : List (String × String))
    (responseTransform : Option TransformFunc) (resp : HttpMessage) :
    Except String HttpMessage :=
  let resp1 : HttpMessage :=
    { resp with headers := responseHeaders.foldl (fun hs kv => setHeader hs kv.1 kv.2) resp.headers }
  match responseTransform, bodyBytes resp1.body with
  | some f, some content =>
    (match f content with
     | .ok transformed =>
       .ok { resp1 with body := .stream transformed,
                        contentLength := (transformed.length : Int),
                        headers := setHeader resp1.headers "Content-Length"
                          (goRuneString transformed.length) }
     | .error e => .error e)
  | _, _ => .ok resp1

/-- Counterexample to C7 as stated: the claim says a failing request
transform "forwards the original, untransformed request body unchanged",
but transformer.go:57-58 has already drained (`ioutil.ReadAll`) and closed
(`req.Body.Close()`) the body before the error is known, and the error path
never reassigns `req.Body`. Concretely: a failing transform on a request
whose open body holds byte 123 leaves the body a consumed reader — reading
it yields no bytes — not the original stream. (No error is returned, as the
claim says; it is the forwarding half that fails.) -/
theorem c7_counterexample :
    (TransformRequestGo [] (some fun _ => Except.error "no match")
      ⟨[], BodyState.stream [123], 1⟩).body = BodyState.consumed ∧
    (TransformRequestGo [] (some fun _ => Except.error "no match")
      ⟨[], BodyState.stream [123], 1⟩).body ≠ BodyState.stream [123] ∧
    bodyBytes BodyState.consumed = some [] ∧
    bodyBytes (BodyState.stream [123]) = some [123] :=
  ⟨rfl, by decide, rfl, rfl⟩

/-- C7 amended: error-handling asymmetry of the pipeline. When the
request-body transform fails (malformed JSON, missing text parts, no
matching mapping — any error), `TransformRequest` returns normally (by its
very type no error propagates and nothing panics) and applies the static
headers, leaving the `ContentLength` field as it was — but what it forwards
is NOT the original body: `req.Body` was drained and closed before the
transform ran and is never restored, so the forwarded request carries a
consumed reader. When the response-body transform fails,
`TransformResponse` propagates the error, failing the HTTP exchange. -/
theorem c7_pipeline_error_asymmetry
    (requestHeaders responseHeaders : List (String × String)) (f g : TransformFunc)
    (req resp : HttpMessage) (content bodyR : Bytes) (e eR : String)
    (hbody : req.body = BodyState.stream content) (herr : f content = .error e)
    (hbodyR : resp.body = BodyState.stream bodyR) (herrR : g bodyR = .error eR) :
    (TransformRequestGo requestHeaders (some f) req).body = BodyState.consumed ∧
    (TransformRequestGo requestHeaders (some f) req).contentLength = req.contentLength ∧
    (TransformRequestGo requestHeaders (some f) req).headers =
      requestHeaders.foldl (fun hs kv => setHeader hs kv.1 kv.2) req.headers ∧
    TransformResponseGo responseHeaders (some g) resp = .error eR := by
  unfold TransformRequestGo TransformResponseGo
  simp [hbody, hbodyR, herr, herrR, bodyBytes]

/-- Witness for the C7 amended theorem at concrete inputs: a failing
transform leaves the request body consumed and fails the response
exchange. -/
theorem c7_pipeline_error_asymmetry_witness :
    (TransformRequestGo [("X-Api", "k")] (some fun _ => Except.error "no match")
      ⟨[], BodyState.stream [123], 1⟩).body = BodyState.consumed ∧
    TransformResponseGo [] (some fun _ => Except.error "no match")
      ⟨[], BodyState.stream [125], 1⟩ = .error "no match" := by
  have h := c7_pipeline_error_asymmetry [("X-Api", "k")] []
    (fun _ => Except.error "no match") (fun _ => Except.error "no match")
    ⟨[], BodyState.stream [123], 1⟩ ⟨[], BodyState.stream [125], 1⟩ [123] [125]
    "no match" "no match" rfl rfl rfl rfl
  exact ⟨h.1, h.2.2.2⟩

/-- C9 (code bug): on transform success the pipeline replaces the body and
sets the `ContentLength` FIELD to the transformed length, but sets the
`Content-Length` HEADER to `string(rune(len))` — here, for a 49-byte
transformed body, the one-character string `"1"` (U+0031 = rune 49), not the
decimal rendering `"49"`. The header therefore does not carry the byte
length that the field (set on the adjacent line) carries. -/
theorem c9_content_length_header_bug :
    TransformRequestGo [] (some fun _ => Except.ok (List.replicate 49 0))
      ⟨[], BodyState.stream [1, 2, 3], 3⟩ =
      ⟨[("Content-Length", "1")], BodyState.stream (List.replicate 49 0), 49⟩ ∧
    TransformResponseGo [] (some fun _ => Except.ok (List.replicate 49 0))
      ⟨[], BodyState.stream [1, 2, 3], 3⟩ =
      Except.ok ⟨[("Content-Length", "1")], BodyState.stream (List.replicate 49 0), 49⟩ ∧
    "1" ≠ "49" :=
  ⟨rfl, rfl, by decide⟩

/-! ## Reference-semantics (heap) embedding

Go maps are references: `task["metadata"] = meta` in `transformResponse`
stores the same map object that `legacyResponse["meta"]` holds, so a
transform rule writing under `metadata` mutates the legacy response that
later rules read. The tree-valued embedding above cannot express this; the
following heap embedding models `map[string]interface{}` values as
addresses into a store. -/

/-- Heap values: scalars as in `JValue`, plus `ref a`, a pointer to the map
stored at address `a`. -/
inductive HVal where
  | null
  | bool (b : Bool)
  | num (rendered : String)
  | str (s : String)
  | arr (elems : List HVal)
  | ref (a : Nat)

/-- Map read on heap-valued maps. -/
def lookupH : List (String × HVal) → String → Option HVal
  | [], _ => none
  | (k', v) :: rest, k => if k' = k then some v else lookupH rest k

/-- Map assignment on heap-valued maps. -/
def insertH : List (String × HVal) → String → HVal → List (String × HVal)
  | [], k, v => [(k, v)]
  | (k', v') :: rest, k, v =>
    if k' = k then (k, v) :: rest else (k', v') :: insertH rest k v

/-- Address read in the store. -/
def lookupNat : List (Nat × List (String × HVal)) → Nat → Option (List (String × HVal))
  | [], _ => none
  | (a', m) :: rest, a => if a' = a then some m else lookupNat rest a

/-- Address update in the store. -/
def insertNat : List (Nat × List (String × HVal)) → Nat → List (String × HVal) →
    List (Nat × List (String × HVal))
  | [], a, m => [(a, m)]
  | (a', m') :: rest, a, m =>
    if a' = a then (a, m) :: rest else (a', m') :: insertNat rest a m

/-- A heap of Go maps: store plus next fresh address. -/
structure Heap where
  mem : List (Nat × List (String × HVal))
  next : Nat

/-- The map at address `a`. -/
def Heap.load (h : Heap) (a : Nat) : List (String × HVal) :=
  (lookupNat h.mem a).getD []

/-- In-place mutation of the map at address `a`. -/
def Heap.storeAt (h : Heap) (a : Nat) (m : List (String × HVal)) : Heap :=
  { h with mem := insertNat h.mem a m }

/-- `make(map[string]interface{})`-style allocation of a fresh map. -/
def Heap.alloc (h : Heap) (m : List (String × HVal)) : Heap × Nat :=
  ({ mem := insertNat h.mem h.next m, next := h.next + 1 }, h.next)

/-- Go `getValueByPath` under reference semantics
(config_transformer.go:330-354): descend through map references. -/
def getPathH : Heap → Nat → List String → Option HVal
  | _, _, [] => none
  | h, a, [p] => lookupH (h.load a) p
  | h, a, p :: rest =>
    match lookupH (h.load a) p with
    | some (.ref b) => getPathH h b rest
    | _ => none

/-- Go `setValue` under reference semantics (config_transformer.go:357-389):
descend through map references for all but the last segment, allocating a
fresh empty map (silently overwriting whatever else was there) when a
segment is absent or not a map reference; assign at the last segment,
mutating that map in place. -/
def setPathH : Heap → Nat → List String → HVal → Heap
  | h, _, [], _ => h
  | h, a, [p], v => h.storeAt a (insertH (h.load a) p v)
  | h, a, p :: q :: rest, v =>
    match lookupH (h.load a) p with
    | some (.ref b) => setPathH h b (q :: rest) v
    | _ =>
      let c := h.next
      let h1 : Heap := { mem := insertNat h.mem c [], next := h.next + 1 }
      let h2 := h1.storeAt a (insertH (h1.load a) p (.ref c))
      setPathH h2 c (q :: rest) v

/-- `ruleValue` on heap values (config_transformer.go:398-417). -/
def ruleValueH (rule : TransformRule) (sv : HVal) : HVal :=
  let tv := match rule.compiled with
    | some p =>
      if rule.regex ≠ "" then
        match sv with
        | .str s =>
          if p.matchString s then
            if (p.findStringSubmatch s).length > 1 then
              HVal.str ((p.findStringSubmatch s).getD 1 "")
            else sv
          else sv
        | _ => sv
      else sv
    | none => sv
  if rule.template ≠ "" then
    match sv with
    | .str s => HVal.str (replaceAllGo rule.template "{value}" s)
    | _ => tv
  else tv

/-- Go `applyTransformRule` under reference semantics, with `source` and
`target` the heap addresses of the two maps. -/
def applyTransformRuleH (rule : TransformRule) (h : Heap) (source target : Nat) : Heap :=
  match getPathH h source (splitPath rule.source) with
  | none => h
  | some .null => h
  | some sv => setPathH h target (splitPath rule.target) (ruleValueH rule sv)

/-- `ResponseTransform` for the heap embedding: the compiled template renders
against the legacy response map given heap and address. -/
structure ResponseTransformH where
  template : String := ""
  compiled : Option (Heap → Nat → Option String) := none

instance : Inhabited ResponseTransformH := ⟨{}⟩

/-- The fields of `MappingConfig` that `transformResponse` reads, for the
heap embedding. -/
structure MappingH where
  intentPattern : String
  responseTransform : ResponseTransformH := {}

/-- The slice of the configuration that `transformResponse` reads, for the
heap embedding. -/
structure CfgH where
  mappings : List MappingH := []
  legacyToA2A : List TransformRule := []

/-- `taskStateOf` on a heap-valued legacy response map. -/
def taskStateOfH (lr : List (String × HVal)) : String :=
  let st := match lookupH lr "status" with
    | some (.str s) => if s ≠ "success" then taskStateFailed else taskStateCompleted
    | _ => taskStateCompleted
  match lookupH lr "error" with
  | some (.str e) => if e ≠ "" then taskStateFailed else st
  | _ => st

/-- `defaultTextParts` on a heap-valued legacy response map. -/
def defaultTextPartsH (lr : List (String × HVal)) : List (List (String × HVal)) :=
  let textContent :=
    (match lookupH lr "status" with
     | some (.str s) => "Status: " ++ s ++ "\n"
     | _ => "") ++
    (match lookupH lr "error" with
     | some (.str e) => if e ≠ "" then "Error: " ++ e ++ "\n" else ""
     | _ => "")
  if textContent ≠ "" then [[("type", HVal.str "text"), ("text", HVal.str textContent)]]
  else []

/-- Allocate a list of fresh maps, returning their addresses in order. -/
def allocAll : Heap → List (List (String × HVal)) → Heap × List Nat
  | h, [] => (h, [])
  | h, m :: rest =>
    let (h1, a) := h.alloc m
    let (h2, rs) := allocAll h1 rest
    (h2, a :: rs)

/-- Go `transformResponse` before rule application, under reference
semantics (config_transformer.go:92-194): resolve ids, look up the response
transform, build the parts (the data part holding a REFERENCE to the
response's `result` map), allocate the message/status/task maps, and attach
the response's `meta` map BY REFERENCE as `task["metadata"]`. Returns the
heap and the task's address. -/
def assembleTaskH (cfg : CfgH) (now : String) (h : Heap) (lr : Nat) : Heap × Nat :=
  let taskID := match lookupH (h.load lr) "meta" with
    | some (.ref ma) =>
      (match lookupH (h.load ma) "taskId" with
       | some (.str s) => s
       | _ => "unknown-task")
    | _ => "unknown-task"
  let mappingID := match lookupH (h.load lr) "meta" with
    | some (.ref ma) =>
      (match lookupH (h.load ma) "mappingId" with
       | some (.str s) => s
       | _ => "")
    | _ => ""
  let rt := match cfg.mappings.find? (fun m => m.intentPattern == mappingID) with
    | some m => m.responseTransform
    | none => {}
  let textParts : List (List (String × HVal)) :=
    match rt.compiled with
    | some f =>
      if rt.template ≠ "" then
        match f h lr with
        | some s => [[("type", HVal.str "text"), ("text", HVal.str s)]]
        | none => []
      else defaultTextPartsH (h.load lr)
    | none => defaultTextPartsH (h.load lr)
  let parts := textParts ++
    (match lookupH (h.load lr) "result" with
     | some (.ref ra) => [[("type", HVal.str "data"), ("data", HVal.ref ra)]]
     | _ => [])
  let (h1, partAddrs) := allocAll h parts
  let (h2, msgA) := h1.alloc
    [("role", HVal.str "agent"), ("parts", HVal.arr (partAddrs.map HVal.ref))]
  let (h3, stA) := h2.alloc
    [("state", HVal.str (taskStateOfH (h.load lr))), ("message", HVal.ref msgA),
     ("timestamp", HVal.str now)]
  let (h4, taskA) := h3.alloc [("id", HVal.str taskID), ("status", HVal.ref stA)]
  let h5 := match lookupH (h4.load lr) "meta" with
    | some (.ref ma) => h4.storeAt taskA (insertH (h4.load taskA) "metadata" (HVal.ref ma))
    | _ => h4
  (h5, taskA)

/-- Go `transformResponse` under reference semantics: assemble the task,
then apply the response-direction rules in order, each reading from the
legacy response's address and writing at the task's address — through the
live heap. -/
def transformResponseH (cfg : CfgH) (now : String) (h : Heap) (lr : Nat) : Heap × Nat :=
  let (h2, taskA) := assembleTaskH cfg now h lr
  (cfg.legacyToA2A.foldl (fun hh rule => applyTransformRuleH rule hh lr taskA) h2, taskA)

/-- Heap holding the legacy response `{"status": "ok", "meta": {}}` at
address 0, its (empty) `meta` map at address 1. -/
def heap6 : Heap :=
  { mem := [(0, [("status", HVal.str "ok"), ("meta", HVal.ref 1)]), (1, [])], next := 2 }

/-- Rule writing the response's `status` at `metadata.x` of the output task
— which, through the metadata alias, is the response's own `meta.x`. -/
def rule61 : TransformRule := { source := "status", target := "metadata.x" }

/-- Rule sourcing `meta.x` from the legacy response. -/
def rule62 : TransformRule := { source := "meta.x", target := "y" }

/-- Configuration with no mappings and the two rules above. -/
def cfg6 : CfgH := { mappings := [], legacyToA2A := [rule61, rule62] }

/-- Counterexample to C6 as stated: the original legacy response has no
`meta.x`, and rule `rule62` applied alone to the assembled state writes
nothing at `y`; but in the actual run, the earlier `rule61` writes
`metadata.x` — mutating, through the alias, the response's `meta.x` — and
the later `rule62` then reads that write as its own source, producing
`y = "ok"` in the output task (and the legacy response itself now carries
`meta.x = "ok"`). So a later rule's source CAN observe an earlier rule's
write, contradicting the claim. -/
theorem c6_counterexample :
    getPathH heap6 0 ["meta", "x"] = none ∧
    getPathH
      (applyTransformRuleH rule62 (assembleTaskH cfg6 "T" heap6 0).1 0
        (assembleTaskH cfg6 "T" heap6 0).2)
      (assembleTaskH cfg6 "T" heap6 0).2 ["y"] = none ∧
    getPathH (transformResponseH cfg6 "T" heap6 0).1 (transformResponseH cfg6 "T" heap6 0).2
      ["y"] = some (HVal.str "ok") ∧
    getPathH (transformResponseH cfg6 "T" heap6 0).1 0 ["meta", "x"] = some (HVal.str "ok") :=
  ⟨rfl, rfl, rfl, rfl⟩
/-! ### A heap theory for the rule fold

The counterexample above shows the two carve-outs the amended claim needs:
a rule may neither write under `task["metadata"]` (the response's own `meta`
map, held by reference) nor copy a map reference into the task (a later
rule could then descend through the copied reference into the response).
The following small theory of the heap operations — which addresses
`setPathH` can store at, which references it can create, and how
reachability from the task map evolves — proves that outside those
carve-outs the legacy response is never mutated, so every rule reads
original values. -/

/-- Every allocated address lies below the allocation bound. -/
def HeapWF (h : Heap) : Prop := ∀ e ∈ h.mem, e.1 < h.next

instance (h : Heap) : Decidable (HeapWF h) := List.decidableBAll _ h.mem

/-- `true` iff a reference value points below `n` (non-references pass). -/
def refBound (v : HVal) (n : Nat) : Bool :=
  match v with
  | .ref b => decide (b < n)
  | _ => true

/-- Every reference stored in the heap points below the allocation bound
(entry-level formulation, decidable on concrete heaps). -/
def RefClosed (h : Heap) : Prop :=
  ∀ e ∈ h.mem, ∀ kv ∈ e.2, refBound kv.2 h.next = true

instance (h : Heap) : Decidable (RefClosed h) := by
  unfold RefClosed; infer_instance

/-- Every reference readable from any loaded map points below the bound. -/
def Closed (h : Heap) : Prop :=
  ∀ (a : Nat) (k : String) (b : Nat),
    lookupH (h.load a) k = some (HVal.ref b) → b < h.next

/-- `true` iff an optional heap value is not a map reference. -/
def notRefO : Option HVal → Bool
  | some (.ref _) => false
  | _ => true

theorem lookupNat_mem :
    ∀ {l : List (Nat × List (String × HVal))} {a : Nat} {m : List (String × HVal)},
      lookupNat l a = some m → (a, m) ∈ l := by
  intro l
  induction l with
  | nil => intro a m hl; exact Option.noConfusion hl
  | cons e rest ih =>
    intro a m hl
    obtain ⟨a', m'⟩ := e
    by_cases he : a' = a
    · subst he
      simp only [lookupNat, if_pos rfl] at hl
      injection hl with hl
      subst hl
      exact List.mem_cons_self _ _
    · simp only [lookupNat, if_neg he] at hl
      exact List.mem_cons_of_mem _ (ih hl)

theorem lookupH_mem :
    ∀ {m : List (String × HVal)} {k : String} {v : HVal},
      lookupH m k = some v → (k, v) ∈ m := by
  intro m
  induction m with
  | nil => intro k v hl; exact Option.noConfusion hl
  | cons e rest ih =>
    intro k v hl
    obtain ⟨k', v'⟩ := e
    by_cases he : k' = k
    · subst he
      simp only [lookupH, if_pos rfl] at hl
      injection hl with hl
      subst hl
      exact List.mem_cons_self _ _
    · simp only [lookupH, if_neg he] at hl
      exact List.mem_cons_of_mem _ (ih hl)

theorem mem_insertNat :
    ∀ {l : List (Nat × List (String × HVal))} {a : Nat} {m : List (String × HVal)}
      {e : Nat × List (String × HVal)}, e ∈ insertNat l a m → e = (a, m) ∨ e ∈ l := by
  intro l
  induction l with
  | nil =>
    intro a m e he
    simp only [insertNat, List.mem_singleton] at he
    exact Or.inl he
  | cons e' rest ih =>
    intro a m e he
    obtain ⟨a', m'⟩ := e'
    by_cases ha : a' = a
    · subst ha
      simp only [insertNat, eq_self_iff_true, if_true, List.mem_cons] at he
      rcases he with he | he
      · exact Or.inl he
      · exact Or.inr (List.mem_cons_of_mem _ he)
    · simp only [insertNat, if_neg ha, List.mem_cons] at he
      rcases he with he | he
      · exact Or.inr (by rw [he]; exact List.mem_cons_self _ _)
      · rcases ih he with h1 | h1
        · exact Or.inl h1
        · exact Or.inr (List.mem_cons_of_mem _ h1)

theorem lookupNat_insertNat_self (l : List (Nat × List (String × HVal))) (a : Nat)
    (m : List (String × HVal)) : lookupNat (insertNat l a m) a = some m := by
  induction l with
  | nil => simp [insertNat, lookupNat]
  | cons e rest ih =>
    obtain ⟨a', m'⟩ := e
    by_cases ha : a' = a <;> simp [insertNat, lookupNat, ha, ih]

theorem lookupNat_insertNat_ne (l : List (Nat × List (String × HVal))) {a b : Nat}
    (m : List (String × HVal)) (hne : b ≠ a) :
    lookupNat (insertNat l a m) b = lookupNat l b := by
  have hab : a ≠ b := Ne.symm hne
  induction l with
  | nil => simp [insertNat, lookupNat, hab]
  | cons e rest ih =>
    obtain ⟨a', m'⟩ := e
    by_cases h2 : a' = a
    · subst h2
      simp [insertNat, lookupNat, hab]
    · by_cases h3 : a' = b <;> simp [insertNat, lookupNat, h2, h3, hab, hne, ih]

theorem lookupH_insertH_self (m : List (String × HVal)) (k : String) (v : HVal) :
    lookupH (insertH m k v) k = some v := by
  induction m with
  | nil => simp [insertH, lookupH]
  | cons e rest ih =>
    obtain ⟨k', v'⟩ := e
    by_cases hk : k' = k <;> simp [insertH, lookupH, hk, ih]

theorem lookupH_insertH_ne (m : List (String × HVal)) {k k' : String} (v : HVal)
    (hne : k' ≠ k) : lookupH (insertH m k v) k' = lookupH m k' := by
  have hkk : k ≠ k' := Ne.symm hne
  induction m with
  | nil => simp [insertH, lookupH, hkk]
  | cons e rest ih =>
    obtain ⟨k'', v''⟩ := e
    by_cases h2 : k'' = k
    · subst h2
      simp [insertH, lookupH, hkk]
    · by_cases h3 : k'' = k' <;> simp [insertH, lookupH, h2, h3, hkk, hne, ih]

theorem load_storeAt_self (h : Heap) (a : Nat) (m : List (String × HVal)) :
    (h.storeAt a m).load a = m := by
  unfold Heap.load Heap.storeAt
  rw [lookupNat_insertNat_self]
  rfl

theorem load_storeAt_ne (h : Heap) {a b : Nat} (m : List (String × HVal)) (hne : b ≠ a) :
    (h.storeAt a m).load b = h.load b := by
  unfold Heap.load Heap.storeAt
  rw [lookupNat_insertNat_ne _ _ hne]

theorem load_eq_nil_of_ge {h : Heap} (hwf : HeapWF h) {a : Nat} (ha : h.next ≤ a) :
    h.load a = [] := by
  unfold Heap.load
  cases hl : lookupNat h.mem a with
  | none => rfl
  | some m =>
    have h1 := hwf _ (lookupNat_mem hl)
    simp only at h1
    omega

theorem closed_of_refClosed {h : Heap} (hc : RefClosed h) : Closed h := by
  intro a k b hl
  unfold Heap.load at hl
  cases hn : lookupNat h.mem a with
  | none =>
    rw [hn] at hl
    exact Option.noConfusion hl
  | some m =>
    rw [hn] at hl
    have h1 := hc _ (lookupNat_mem hn) _ (lookupH_mem hl)
    simpa [refBound] using h1

theorem heapWF_storeAt {h : Heap} (hwf : HeapWF h) {a : Nat} (m : List (String × HVal))
    (ha : a < h.next) : HeapWF (h.storeAt a m) := by
  intro e he
  rcases mem_insertNat (by simpa [Heap.storeAt] using he) with he1 | he2
  · subst he1; exact ha
  · exact hwf _ he2

/-! Equations and locality for `setPathH` (the `setValue` descent). -/

theorem setPathH_single (h : Heap) (a : Nat) (p : String) (v : HVal) :
    setPathH h a [p] v = h.storeAt a (insertH (h.load a) p v) := rfl

theorem setPathH_cons_ref (h : Heap) (a : Nat) (p q : String) (rest : List String)
    (v : HVal) {b : Nat} (hl : lookupH (h.load a) p = some (HVal.ref b)) :
    setPathH h a (p :: q :: rest) v = setPathH h b (q :: rest) v := by
  simp only [setPathH, hl]

/-- The heap after the `setValue` descent finds no map at an intermediate
segment: allocate a fresh empty map and re-point `a`'s entry `p` at it. -/
def extendAt (h : Heap) (a : Nat) (p : String) : Heap :=
  ({ mem := insertNat h.mem h.next [], next := h.next + 1 : Heap }).storeAt a
    (insertH (({ mem := insertNat h.mem h.next [], next := h.next + 1 : Heap }).load a) p
      (HVal.ref h.next))

theorem setPathH_cons_else (h : Heap) (a : Nat) (p q : String) (rest : List String)
    (v : HVal) (hl : ∀ b, lookupH (h.load a) p ≠ some (HVal.ref b)) :
    setPathH h a (p :: q :: rest) v = setPathH (extendAt h a p) h.next (q :: rest) v := by
  cases hc : lookupH (h.load a) p with
  | none => simp only [setPathH, hc]; rfl
  | some w =>
    cases w with
    | ref b => exact absurd hc (hl b)
    | null => simp only [setPathH, hc]; rfl
    | bool b => simp only [setPathH, hc]; rfl
    | num s => simp only [setPathH, hc]; rfl
    | str s => simp only [setPathH, hc]; rfl
    | arr xs => simp only [setPathH, hc]; rfl

theorem next_extendAt (h : Heap) (a : Nat) (p : String) :
    (extendAt h a p).next = h.next + 1 := rfl

theorem load_extendAt_self (h : Heap) {a : Nat} (p : String) (ha : a < h.next) :
    (extendAt h a p).load a = insertH (h.load a) p (HVal.ref h.next) := by
  unfold extendAt
  rw [load_storeAt_self]
  congr 1
  unfold Heap.load
  rw [lookupNat_insertNat_ne _ _ (Nat.ne_of_lt ha)]

theorem load_extendAt_fresh (h : Heap) {a : Nat} (p : String) (ha : a < h.next) :
    (extendAt h a p).load h.next = [] := by
  unfold extendAt
  rw [load_storeAt_ne _ _ (Nat.ne_of_gt ha)]
  unfold Heap.load
  rw [lookupNat_insertNat_self]
  rfl

theorem load_extendAt_ne (h : Heap) {a b : Nat} (p : String) (hba : b ≠ a)
    (hbf : b ≠ h.next) : (extendAt h a p).load b = h.load b := by
  unfold extendAt
  rw [load_storeAt_ne _ _ hba]
  unfold Heap.load
  rw [lookupNat_insertNat_ne _ _ hbf]

theorem heapWF_extendAt {h : Heap} (hwf : HeapWF h) {a : Nat} (p : String)
    (ha : a < h.next) : HeapWF (extendAt h a p) := by
  intro e he
  have he' : e ∈ insertNat (insertNat h.mem h.next []) a
      (insertH (({ mem := insertNat h.mem h.next [], next := h.next + 1 : Heap }).load a) p
        (HVal.ref h.next)) := by
    simpa [extendAt, Heap.storeAt] using he
  rcases mem_insertNat he' with he1 | he2
  · subst he1
    show a < (extendAt h a p).next
    rw [next_extendAt]
    omega
  · rcases mem_insertNat he2 with he3 | he4
    · subst he3
      show h.next < (extendAt h a p).next
      rw [next_extendAt]
      omega
    · have h1 := hwf _ he4
      show e.1 < (extendAt h a p).next
      rw [next_extendAt]
      omega

theorem closed_extendAt {h : Heap} (hcl : Closed h) {a : Nat} (p : String)
    (ha : a < h.next) : Closed (extendAt h a p) := by
  intro a' k b hl
  rw [next_extendAt]
  by_cases h1 : a' = a
  · subst h1
    rw [load_extendAt_self h p ha] at hl
    by_cases h2 : k = p
    · subst h2
      rw [lookupH_insertH_self] at hl
      have h3 : HVal.ref h.next = HVal.ref b := Option.some.inj hl
      have h4 : h.next = b := HVal.ref.inj h3
      omega
    · rw [lookupH_insertH_ne _ _ h2] at hl
      have := hcl a' k b hl
      omega
  · by_cases h2 : a' = h.next
    · subst h2
      rw [load_extendAt_fresh h p ha] at hl
      simp [lookupH] at hl
    · rw [load_extendAt_ne h p h1 h2] at hl
      have := hcl a' k b hl
      omega

theorem setPathH_next_mono :
    ∀ (ps : List String) (h : Heap) (a : Nat) (v : HVal),
      h.next ≤ (setPathH h a ps v).next
  | [], _, _, _ => Nat.le_refl _
  | [_], _, _, _ => Nat.le_refl _
  | p :: q :: rest, h, a, v => by
    by_cases hr : ∃ b, lookupH (h.load a) p = some (HVal.ref b)
    · obtain ⟨b, hb⟩ := hr
      rw [setPathH_cons_ref h a p q rest v hb]
      exact setPathH_next_mono (q :: rest) h b v
    · push_neg at hr
      rw [setPathH_cons_else h a p q rest v hr]
      have h1 := setPathH_next_mono (q :: rest) (extendAt h a p) h.next v
      rw [next_extendAt] at h1
      omega

/-- The addresses the `setValue` descent can store at: the root, plus
whatever the existing reference chain along the segments reaches. -/
def RefChain : Heap → Nat → List String → Nat → Prop
  | _, a, [], b => b = a
  | _, a, [_], b => b = a
  | h, a, p :: q :: rest, b =>
    b = a ∨ ∃ c, lookupH (h.load a) p = some (HVal.ref c) ∧ RefChain h c (q :: rest) b

/-- Locality of the `setValue` descent: an allocated address off the
reference chain keeps its map. -/
theorem setPathH_load_outside :
    ∀ (ps : List String) (h : Heap) (a : Nat) (v : HVal) (b : Nat),
      Closed h → a < h.next → b < h.next → ¬ RefChain h a ps b →
      (setPathH h a ps v).load b = h.load b
  | [], _, _, _, _, _, _, _, _ => rfl
  | [p], h, a, v, b, _, _, _, hnc => by
    rw [setPathH_single]
    exact load_storeAt_ne h _ (fun hba => hnc hba)
  | p :: q :: rest, h, a, v, b, hcl, ha, hb, hnc => by
    by_cases hr : ∃ c, lookupH (h.load a) p = some (HVal.ref c)
    · obtain ⟨c, hc⟩ := hr
      rw [setPathH_cons_ref h a p q rest v hc]
      refine setPathH_load_outside (q :: rest) h c v b hcl (hcl a p c hc) hb ?_
      intro hch
      exact hnc (Or.inr ⟨c, hc, hch⟩)
    · push_neg at hr
      rw [setPathH_cons_else h a p q rest v hr]
      have hne : b ≠ a := fun hba => hnc (Or.inl hba)
      have hbf : b ≠ h.next := Nat.ne_of_lt hb
      have hnc' : ¬ RefChain (extendAt h a p) h.next (q :: rest) b := by
        intro hch
        cases rest with
        | nil => exact hbf hch
        | cons r rest' =>
          rcases hch with hba | ⟨c', hc', _⟩
          · exact hbf hba
          · rw [load_extendAt_fresh h p ha] at hc'
            simp [lookupH] at hc'
      have h2 := setPathH_load_outside (q :: rest) (extendAt h a p) h.next v b
        (closed_extendAt hcl p ha) (by rw [next_extendAt]; omega)
        (by rw [next_extendAt]; omega) hnc'
      rw [h2, load_extendAt_ne h p hne hbf]

/-- Which references the `setValue` descent can create: an edge of the new
heap either already existed or points at a freshly allocated map. -/
theorem setPathH_edges :
    ∀ (ps : List String) (h : Heap) (a : Nat) (v : HVal),
      Closed h → a < h.next → (∀ b, v ≠ HVal.ref b) →
      ∀ (a' : Nat) (k : String) (b : Nat),
        lookupH ((setPathH h a ps v).load a') k = some (HVal.ref b) →
        lookupH (h.load a') k = some (HVal.ref b) ∨
          (h.next ≤ b ∧ b < (setPathH h a ps v).next)
  | [], _, _, _, _, _, _, _, _, _, hl => Or.inl hl
  | [p], h, a, v, _, _, hv, a', k, b, hl => by
    rw [setPathH_single] at hl
    by_cases h1 : a' = a
    · subst h1
      rw [load_storeAt_self] at hl
      by_cases h2 : k = p
      · subst h2
        rw [lookupH_insertH_self] at hl
        exact absurd (Option.some.inj hl) (hv b)
      · rw [lookupH_insertH_ne _ _ h2] at hl
        exact Or.inl hl
    · rw [load_storeAt_ne _ _ h1] at hl
      exact Or.inl hl
  | p :: q :: rest, h, a, v, hcl, ha, hv, a', k, b, hl => by
    by_cases hr : ∃ c, lookupH (h.load a) p = some (HVal.ref c)
    · obtain ⟨c, hc⟩ := hr
      rw [setPathH_cons_ref h a p q rest v hc] at hl ⊢
      exact setPathH_edges (q :: rest) h c v hcl (hcl a p c hc) hv a' k b hl
    · push_neg at hr
      rw [setPathH_cons_else h a p q rest v hr] at hl ⊢
      have hmid := setPathH_edges (q :: rest) (extendAt h a p) h.next v
        (closed_extendAt hcl p ha) (by rw [next_extendAt]; omega) hv a' k b hl
      rcases hmid with hold | ⟨hge, hlt⟩
      · by_cases h1 : a' = a
        · subst h1
          rw [load_extendAt_self h p ha] at hold
          by_cases h2 : k = p
          · subst h2
            rw [lookupH_insertH_self] at hold
            have hb : h.next = b := HVal.ref.inj (Option.some.inj hold)
            have hmono := setPathH_next_mono (q :: rest) (extendAt h a' k) h.next v
            rw [next_extendAt] at hmono
            exact Or.inr ⟨by omega, by omega⟩
          · rw [lookupH_insertH_ne _ _ h2] at hold
            exact Or.inl hold
        · by_cases h2 : a' = h.next
          · subst h2
            rw [load_extendAt_fresh h p ha] at hold
            simp [lookupH] at hold
          · rw [load_extendAt_ne h p h1 h2] at hold
            exact Or.inl hold
      · refine Or.inr ⟨?_, hlt⟩
        rw [next_extendAt] at hge
        omega

theorem setPathH_WF :
    ∀ (ps : List String) (h : Heap) (a : Nat) (v : HVal),
      HeapWF h → Closed h → a < h.next → HeapWF (setPathH h a ps v)
  | [], _, _, _, hwf, _, _ => hwf
  | [p], h, a, v, hwf, _, ha => by
    rw [setPathH_single]
    exact heapWF_storeAt hwf _ ha
  | p :: q :: rest, h, a, v, hwf, hcl, ha => by
    by_cases hr : ∃ c, lookupH (h.load a) p = some (HVal.ref c)
    · obtain ⟨c, hc⟩ := hr
      rw [setPathH_cons_ref h a p q rest v hc]
      exact setPathH_WF (q :: rest) h c v hwf hcl (hcl a p c hc)
    · push_neg at hr
      rw [setPathH_cons_else h a p q rest v hr]
      exact setPathH_WF (q :: rest) (extendAt h a p) h.next v
        (heapWF_extendAt hwf p ha) (closed_extendAt hcl p ha) (by rw [next_extendAt]; omega)

theorem setPathH_closed (ps : List String) (h : Heap) (a : Nat) (v : HVal)
    (hcl : Closed h) (ha : a < h.next) (hv : ∀ b, v ≠ HVal.ref b) :
    Closed (setPathH h a ps v) := by
  intro a' k b hl
  rcases setPathH_edges ps h a v hcl ha hv a' k b hl with hold | ⟨_, hlt⟩
  · have h1 := hcl a' k b hold
    have hmono := setPathH_next_mono ps h a v
    omega
  · exact hlt

/-- Reachability from the task map through stored references, excluding the
`task["metadata"]` edge (the deliberate alias into the legacy response). -/
inductive ReachT (h : Heap) (root : Nat) : Nat → Prop where
  | base : ReachT h root root
  | step (a b : Nat) (k : String) (h1 : ReachT h root a)
      (h2 : lookupH (h.load a) k = some (HVal.ref b)) (h3 : a = root → k ≠ "metadata") :
      ReachT h root b

theorem reach_setPathH (ps : List String) (h : Heap) (a : Nat) (v : HVal) (taskA : Nat)
    (hwf : HeapWF h) (hcl : Closed h) (ha : a < h.next) (hv : ∀ b, v ≠ HVal.ref b) :
    ∀ b, ReachT (setPathH h a ps v) taskA b → ReachT h taskA b ∨ h.next ≤ b := by
  intro b hreach
  induction hreach with
  | base => exact Or.inl ReachT.base
  | step a' b' k' h1 h2 h3 ih =>
    rcases setPathH_edges ps h a v hcl ha hv a' k' b' h2 with hold | ⟨hge, _⟩
    · rcases ih with hro | hfresh
      · exact Or.inl (ReachT.step a' b' k' hro hold h3)
      · rw [load_eq_nil_of_ge hwf hfresh] at hold
        simp [lookupH] at hold
    · exact Or.inr hge

/-- The task-side invariant of the rule fold: every address reachable from
the task map (without crossing the `metadata` edge) lies at or above `n0`,
and no reachable map holds a reference back to the task map itself. -/
def TaskInv (n0 taskA : Nat) (h : Heap) : Prop :=
  (∀ b, ReachT h taskA b → n0 ≤ b) ∧
  (∀ (a : Nat) (k : String) (b : Nat), ReachT h taskA a →
    lookupH (h.load a) k = some (HVal.ref b) → b ≠ taskA)

theorem taskInv_setPathH (ps : List String) (h : Heap) (a : Nat) (v : HVal)
    (n0 taskA : Nat) (hwf : HeapWF h) (hcl : Closed h) (ha : a < h.next)
    (hv : ∀ b, v ≠ HVal.ref b) (hinv : TaskInv n0 taskA h)
    (hn0 : n0 ≤ h.next) (hta : taskA < h.next) :
    TaskInv n0 taskA (setPathH h a ps v) := by
  constructor
  · intro b hb
    rcases reach_setPathH ps h a v taskA hwf hcl ha hv b hb with hro | hfresh
    · exact hinv.1 b hro
    · omega
  · intro a' k b ha' hl
    rcases setPathH_edges ps h a v hcl ha hv a' k b hl with hold | ⟨hge, _⟩
    · rcases reach_setPathH ps h a v taskA hwf hcl ha hv a' ha' with hro | hfresh
      · exact hinv.2 a' k b hro hold
      · rw [load_eq_nil_of_ge hwf hfresh] at hold
        simp [lookupH] at hold
    · omega

/-- Every address the `setValue` descent visits from the task map is
task-reachable, provided the first segment is not `metadata` and no
reachable map refers back to the task map. -/
theorem refChain_reach (h : Heap) (taskA : Nat)
    (hinv2 : ∀ (a : Nat) (k : String) (b : Nat), ReachT h taskA a →
      lookupH (h.load a) k = some (HVal.ref b) → b ≠ taskA) :
    ∀ (ps : List String) (a b : Nat), ReachT h taskA a →
      (a = taskA → ps.head? ≠ some "metadata") →
      RefChain h a ps b → ReachT h taskA b
  | [], a, b, hra, _, hch => by
    have hb : b = a := hch
    subst hb; exact hra
  | [p], a, b, hra, _, hch => by
    have hb : b = a := hch
    subst hb; exact hra
  | p :: q :: rest, a, b, hra, hhead, hch => by
    rcases hch with hba | ⟨c, hc, hch'⟩
    · subst hba; exact hra
    · have hpk : a = taskA → p ≠ "metadata" := by
        intro hat
        have h1 := hhead hat
        simpa using h1
      have hrc : ReachT h taskA c := ReachT.step a c p hra hc hpk
      have hcne : c ≠ taskA := hinv2 a p c hra hc
      exact refChain_reach h taskA hinv2 (q :: rest) c b hrc
        (fun hct => absurd hct hcne) hch'

/-- `getValueByPath` reads only the loaded maps it traverses: two heaps
agreeing on a downward-closed region give equal reads from roots inside. -/
theorem getPathH_stable :
    ∀ (ps : List String) (h1 h0 : Heap) (rootA : Nat),
      (∀ a, a < h0.next → h1.load a = h0.load a) → Closed h0 → rootA < h0.next →
      getPathH h1 rootA ps = getPathH h0 rootA ps
  | [], _, _, _, _, _, _ => rfl
  | [p], h1, h0, rootA, hag, _, hr => by
    simp only [getPathH]
    rw [hag rootA hr]
  | p :: q :: rest, h1, h0, rootA, hag, hcl, hr => by
    simp only [getPathH]
    rw [hag rootA hr]
    cases hc : lookupH (h0.load rootA) p with
    | none => rfl
    | some w =>
      cases w with
      | ref c => exact getPathH_stable (q :: rest) h1 h0 c hag hcl (hcl rootA p c hc)
      | null => rfl
      | bool b => rfl
      | num s => rfl
      | str s => rfl
      | arr xs => rfl

/-- `ruleValue` never fabricates a map reference from a non-reference. -/
theorem ruleValueH_not_ref (rule : TransformRule) (sv : HVal)
    (hsv : ∀ b, sv ≠ HVal.ref b) : ∀ b, ruleValueH rule sv ≠ HVal.ref b := by
  intro b hc
  simp only [ruleValueH] at hc
  repeat' split at hc
  all_goals first
    | exact HVal.noConfusion hc
    | exact hsv _ hc

/-- The state carried across the response-rule fold: the heap is well formed
and closed, the task invariant holds, the task address is task-side and
allocated, and every legacy address still holds its original map. -/
abbrev FoldInv (h0 : Heap) (taskA : Nat) (h : Heap) : Prop :=
  HeapWF h ∧ Closed h ∧ TaskInv h0.next taskA h ∧
  h0.next ≤ taskA ∧ taskA < h.next ∧
  (∀ a, a < h0.next → h.load a = h0.load a)

theorem foldInv_setPathH (h0 : Heap) (taskA : Nat) (h : Heap) (ps : List String) (v : HVal)
    (hinv : FoldInv h0 taskA h) (hhead : ps.head? ≠ some "metadata")
    (hv : ∀ b, v ≠ HVal.ref b) :
    FoldInv h0 taskA (setPathH h taskA ps v) := by
  obtain ⟨hwf, hcl, hti, hta1, hta2, hag⟩ := hinv
  refine ⟨setPathH_WF ps h taskA v hwf hcl hta2,
    setPathH_closed ps h taskA v hcl hta2 hv,
    taskInv_setPathH ps h taskA v h0.next taskA hwf hcl hta2 hv hti (by omega) hta2,
    hta1, ?_, ?_⟩
  · have h1 := setPathH_next_mono ps h taskA v
    omega
  · intro a halt
    have hnc : ¬ RefChain h taskA ps a := by
      intro hch
      have hra : ReachT h taskA a :=
        refChain_reach h taskA hti.2 ps taskA a ReachT.base (fun _ => hhead) hch
      have h1 := hti.1 a hra
      omega
    rw [setPathH_load_outside ps h taskA v a hcl hta2 (by omega) hnc]
    exact hag a halt

theorem foldInv_applyRule (rule : TransformRule) (h0 : Heap) (lr taskA : Nat) (h : Heap)
    (hcl0 : Closed h0) (hlr : lr < h0.next)
    (hinv : FoldInv h0 taskA h)
    (htar : (splitPath rule.target).head? ≠ some "metadata")
    (hsrc : notRefO (getPathH h0 lr (splitPath rule.source)) = true) :
    FoldInv h0 taskA (applyTransformRuleH rule h lr taskA) := by
  have hread : getPathH h lr (splitPath rule.source) =
      getPathH h0 lr (splitPath rule.source) :=
    getPathH_stable _ h h0 lr hinv.2.2.2.2.2 hcl0 hlr
  cases hg : getPathH h lr (splitPath rule.source) with
  | none =>
    have he : applyTransformRuleH rule h lr taskA = h := by
      simp only [applyTransformRuleH, hg]
    rw [he]; exact hinv
  | some sv =>
    cases sv with
    | null =>
      have he : applyTransformRuleH rule h lr taskA = h := by
        simp only [applyTransformRuleH, hg]
      rw [he]; exact hinv
    | ref b =>
      rw [hread] at hg
      rw [hg] at hsrc
      simp [notRefO] at hsrc
    | bool bb =>
      have he : applyTransformRuleH rule h lr taskA =
          setPathH h taskA (splitPath rule.target) (ruleValueH rule (HVal.bool bb)) := by
        simp only [applyTransformRuleH, hg]
      rw [he]
      exact foldInv_setPathH h0 taskA h _ _ hinv htar
        (ruleValueH_not_ref rule _ (fun b hc => HVal.noConfusion hc))
    | num s =>
      have he : applyTransformRuleH rule h lr taskA =
          setPathH h taskA (splitPath rule.target) (ruleValueH rule (HVal.num s)) := by
        simp only [applyTransformRuleH, hg]
      rw [he]
      exact foldInv_setPathH h0 taskA h _ _ hinv htar
        (ruleValueH_not_ref rule _ (fun b hc => HVal.noConfusion hc))
    | str s =>
      have he : applyTransformRuleH rule h lr taskA =
          setPathH h taskA (splitPath rule.target) (ruleValueH rule (HVal.str s)) := by
        simp only [applyTransformRuleH, hg]
      rw [he]
      exact foldInv_setPathH h0 taskA h _ _ hinv htar
        (ruleValueH_not_ref rule _ (fun b hc => HVal.noConfusion hc))
    | arr xs =>
      have he : applyTransformRuleH rule h lr taskA =
          setPathH h taskA (splitPath rule.target) (ruleValueH rule (HVal.arr xs)) := by
        simp only [applyTransformRuleH, hg]
      rw [he]
      exact foldInv_setPathH h0 taskA h _ _ hinv htar
        (ruleValueH_not_ref rule _ (fun b hc => HVal.noConfusion hc))

theorem foldInv_foldl (h0 : Heap) (lr taskA : Nat) (hcl0 : Closed h0) (hlr : lr < h0.next) :
    ∀ (rules : List TransformRule) (h : Heap),
      FoldInv h0 taskA h →
      (∀ r ∈ rules, (splitPath r.target).head? ≠ some "metadata") →
      (∀ r ∈ rules, notRefO (getPathH h0 lr (splitPath r.source)) = true) →
      FoldInv h0 taskA
        (rules.foldl (fun hh rule => applyTransformRuleH rule hh lr taskA) h)
  | [], _, hinv, _, _ => hinv
  | r :: rest, h, hinv, htar, hsrc => by
    rw [List.foldl_cons]
    exact foldInv_foldl h0 lr taskA hcl0 hlr rest _
      (foldInv_applyRule r h0 lr taskA h hcl0 hlr hinv
        (htar r (List.mem_cons_self _ _)) (hsrc r (List.mem_cons_self _ _)))
      (fun r' hr' => htar r' (List.mem_cons_of_mem _ hr'))
      (fun r' hr' => hsrc r' (List.mem_cons_of_mem _ hr'))
/-! Decomposition of `assembleTaskH` used by the proof: name the computed
pieces and the allocation chain. `assembleTaskH_eq_core` checks the
decomposition is definitionally the function above. -/

/-- The `taskId` read from the response's `meta` map
(config_transformer.go:97-104). -/
def taskIDOf (h : Heap) (lr : Nat) : String :=
  match lookupH (h.load lr) "meta" with
  | some (.ref ma) =>
    (match lookupH (h.load ma) "taskId" with
     | some (.str s) => s
     | _ => "unknown-task")
  | _ => "unknown-task"

/-- The `mappingId` read from the response's `meta` map
(config_transformer.go:106-112). -/
def mappingIDOf (h : Heap) (lr : Nat) : String :=
  match lookupH (h.load lr) "meta" with
  | some (.ref ma) =>
    (match lookupH (h.load ma) "mappingId" with
     | some (.str s) => s
     | _ => "")
  | _ => ""

/-- The response transform selected by `mappingId`
(config_transformer.go:115-121). -/
def rtOf (cfg : CfgH) (h : Heap) (lr : Nat) : ResponseTransformH :=
  match cfg.mappings.find? (fun m => m.intentPattern == mappingIDOf h lr) with
  | some m => m.responseTransform
  | none => {}

/-- The part maps `transformResponse` builds (config_transformer.go:126-160):
the text part from the template or the status/error default, then the data
part holding a reference to the response's `result` map. -/
def taskPartsOf (cfg : CfgH) (h : Heap) (lr : Nat) : List (List (String × HVal)) :=
  (match (rtOf cfg h lr).compiled with
   | some f =>
     if (rtOf cfg h lr).template ≠ "" then
       match f h lr with
       | some s => [[("type", HVal.str "text"), ("text", HVal.str s)]]
       | none => []
     else defaultTextPartsH (h.load lr)
   | none => defaultTextPartsH (h.load lr)) ++
  (match lookupH (h.load lr) "result" with
   | some (.ref ra) => [[("type", HVal.str "data"), ("data", HVal.ref ra)]]
   | _ => [])

/-- Address of the message map in the assembled heap. -/
def msgAddr (h : Heap) (parts : List (List (String × HVal))) : Nat :=
  (allocAll h parts).1.next

/-- Address of the status map in the assembled heap. -/
def stAddr (h : Heap) (parts : List (List (String × HVal))) : Nat := msgAddr h parts + 1

/-- Address of the task map in the assembled heap. -/
def taskAddr (h : Heap) (parts : List (List (String × HVal))) : Nat := msgAddr h parts + 2

/-- The message map (config_transformer.go:162-166). -/
def msgMap (h : Heap) (parts : List (List (String × HVal))) : List (String × HVal) :=
  [("role", HVal.str "agent"), ("parts", HVal.arr ((allocAll h parts).2.map HVal.ref))]

/-- The status map (config_transformer.go:168-172). -/
def stMap (h : Heap) (parts : List (List (String × HVal))) (now st : String) :
    List (String × HVal) :=
  [("state", HVal.str st), ("message", HVal.ref (msgAddr h parts)),
   ("timestamp", HVal.str now)]

/-- The task map before the `metadata` attachment
(config_transformer.go:174-178). -/
def taskMap (h : Heap) (parts : List (List (String × HVal))) (tid : String) :
    List (String × HVal) :=
  [("id", HVal.str tid), ("status", HVal.ref (stAddr h parts))]

/-- Heap after allocating the part maps and the message map. -/
def coreH2 (h : Heap) (parts : List (List (String × HVal))) : Heap :=
  ((allocAll h parts).1.alloc (msgMap h parts)).1

/-- Heap after also allocating the status map. -/
def coreH3 (h : Heap) (parts : List (List (String × HVal))) (now st : String) : Heap :=
  ((coreH2 h parts).alloc (stMap h parts now st)).1

/-- Heap after also allocating the task map. -/
def coreH4 (h : Heap) (parts : List (List (String × HVal))) (tid now st : String) : Heap :=
  ((coreH3 h parts now st).alloc (taskMap h parts tid)).1

/-- The allocation chain of the task assembly, abstracted over the computed
parts, id and state; attaches the response's `meta` map by reference as
`task["metadata"]` when present (config_transformer.go:180-183). -/
def assembleCore (h : Heap) (lr : Nat) (parts : List (List (String × HVal)))
    (tid now st : String) : Heap × Nat :=
  (match lookupH ((coreH4 h parts tid now st).load lr) "meta" with
   | some (.ref ma) =>
     (coreH4 h parts tid now st).storeAt (taskAddr h parts)
       (insertH ((coreH4 h parts tid now st).load (taskAddr h parts)) "metadata"
         (HVal.ref ma))
   | _ => coreH4 h parts tid now st,
   taskAddr h parts)

theorem assembleTaskH_eq_core (cfg : CfgH) (now : String) (h : Heap) (lr : Nat) :
    assembleTaskH cfg now h lr =
      assembleCore h lr (taskPartsOf cfg h lr) (taskIDOf h lr) now
        (taskStateOfH (h.load lr)) := rfl

theorem transformResponseH_eq (cfg : CfgH) (now : String) (h : Heap) (lr : Nat) :
    transformResponseH cfg now h lr =
      (cfg.legacyToA2A.foldl
        (fun hh rule => applyTransformRuleH rule hh lr (assembleTaskH cfg now h lr).2)
        (assembleTaskH cfg now h lr).1,
       (assembleTaskH cfg now h lr).2) := rfl

theorem next_alloc (h : Heap) (m : List (String × HVal)) :
    (h.alloc m).1.next = h.next + 1 := rfl

theorem load_alloc_self (h : Heap) (m : List (String × HVal)) :
    (h.alloc m).1.load h.next = m := by
  show Heap.load { mem := insertNat h.mem h.next m, next := h.next + 1 } h.next = m
  unfold Heap.load
  rw [lookupNat_insertNat_self]
  rfl

theorem load_alloc_ne (h : Heap) (m : List (String × HVal)) {b : Nat} (hb : b ≠ h.next) :
    (h.alloc m).1.load b = h.load b := by
  show Heap.load { mem := insertNat h.mem h.next m, next := h.next + 1 } b = h.load b
  unfold Heap.load
  rw [lookupNat_insertNat_ne _ _ hb]

theorem heapWF_alloc {h : Heap} (hwf : HeapWF h) (m : List (String × HVal)) :
    HeapWF (h.alloc m).1 := by
  intro e he
  have he' : e ∈ insertNat h.mem h.next m := he
  rcases mem_insertNat he' with he1 | he2
  · subst he1
    show h.next < h.next + 1
    omega
  · have h1 := hwf _ he2
    show e.1 < h.next + 1
    omega

theorem allocAll_next : ∀ (ms : List (List (String × HVal))) (h : Heap),
    (allocAll h ms).1.next = h.next + ms.length
  | [], _ => rfl
  | m :: rest, h => by
    show (allocAll (h.alloc m).1 rest).1.next = h.next + (rest.length + 1)
    rw [allocAll_next rest (h.alloc m).1, next_alloc]
    omega

theorem allocAll_load_lt : ∀ (ms : List (List (String × HVal))) (h : Heap) {b : Nat},
    b < h.next → (allocAll h ms).1.load b = h.load b
  | [], _, _, _ => rfl
  | m :: rest, h, b, hb => by
    show (allocAll (h.alloc m).1 rest).1.load b = h.load b
    rw [allocAll_load_lt rest (h.alloc m).1
          (show b < (h.alloc m).1.next by rw [next_alloc]; omega),
        load_alloc_ne h m (by omega)]

theorem heapWF_allocAll : ∀ (ms : List (List (String × HVal))) (h : Heap),
    HeapWF h → HeapWF (allocAll h ms).1
  | [], _, hwf => hwf
  | m :: rest, h, hwf => by
    show HeapWF (allocAll (h.alloc m).1 rest).1
    exact heapWF_allocAll rest _ (heapWF_alloc hwf m)

theorem allocAll_load_cases : ∀ (ms : List (List (String × HVal))) (h : Heap) (b : Nat),
    (allocAll h ms).1.load b = h.load b ∨ ∃ m ∈ ms, (allocAll h ms).1.load b = m
  | [], _, _ => Or.inl rfl
  | m :: rest, h, b => by
    show (allocAll (h.alloc m).1 rest).1.load b = h.load b ∨
      ∃ m' ∈ m :: rest, (allocAll (h.alloc m).1 rest).1.load b = m'
    rcases allocAll_load_cases rest (h.alloc m).1 b with h1 | ⟨m', hm', he⟩
    · by_cases hb : b = h.next
      · subst hb
        refine Or.inr ⟨m, List.mem_cons_self _ _, ?_⟩
        rw [h1, load_alloc_self]
      · rw [load_alloc_ne h m hb] at h1
        exact Or.inl h1
    · exact Or.inr ⟨m', List.mem_cons_of_mem _ hm', he⟩

theorem next_coreH4 (h : Heap) (parts : List (List (String × HVal))) (tid now st : String) :
    (coreH4 h parts tid now st).next = msgAddr h parts + 3 := rfl

theorem msgAddr_ge (h : Heap) (parts : List (List (String × HVal))) :
    h.next ≤ msgAddr h parts := by
  unfold msgAddr
  rw [allocAll_next]
  omega

theorem load_coreH4_lt (h : Heap) (parts : List (List (String × HVal)))
    (tid now st : String) {b : Nat} (hb : b < h.next) :
    (coreH4 h parts tid now st).load b = h.load b := by
  have hm := msgAddr_ge h parts
  have h4 : (coreH4 h parts tid now st).load b = (coreH3 h parts now st).load b :=
    load_alloc_ne _ _ (show b ≠ msgAddr h parts + 2 by omega)
  have h3 : (coreH3 h parts now st).load b = (coreH2 h parts).load b :=
    load_alloc_ne _ _ (show b ≠ msgAddr h parts + 1 by omega)
  have h2 : (coreH2 h parts).load b = (allocAll h parts).1.load b :=
    load_alloc_ne _ _ (show b ≠ msgAddr h parts by omega)
  rw [h4, h3, h2, allocAll_load_lt parts h hb]

theorem load_coreH4_task (h : Heap) (parts : List (List (String × HVal)))
    (tid now st : String) :
    (coreH4 h parts tid now st).load (taskAddr h parts) = taskMap h parts tid :=
  load_alloc_self (coreH3 h parts now st) (taskMap h parts tid)

theorem load_coreH4_st (h : Heap) (parts : List (List (String × HVal)))
    (tid now st : String) :
    (coreH4 h parts tid now st).load (stAddr h parts) = stMap h parts now st := by
  have h4 : (coreH4 h parts tid now st).load (stAddr h parts) =
      (coreH3 h parts now st).load (stAddr h parts) :=
    load_alloc_ne _ _ (show stAddr h parts ≠ msgAddr h parts + 2 by unfold stAddr; omega)
  rw [h4]
  exact load_alloc_self (coreH2 h parts) (stMap h parts now st)

theorem load_coreH4_msg (h : Heap) (parts : List (List (String × HVal)))
    (tid now st : String) :
    (coreH4 h parts tid now st).load (msgAddr h parts) = msgMap h parts := by
  have h4 : (coreH4 h parts tid now st).load (msgAddr h parts) =
      (coreH3 h parts now st).load (msgAddr h parts) :=
    load_alloc_ne _ _ (show msgAddr h parts ≠ msgAddr h parts + 2 by omega)
  have h3 : (coreH3 h parts now st).load (msgAddr h parts) =
      (coreH2 h parts).load (msgAddr h parts) :=
    load_alloc_ne _ _ (show msgAddr h parts ≠ msgAddr h parts + 1 by omega)
  rw [h4, h3]
  exact load_alloc_self (allocAll h parts).1 (msgMap h parts)

theorem heapWF_coreH4 (h : Heap) (parts : List (List (String × HVal)))
    (tid now st : String) (hwf : HeapWF h) : HeapWF (coreH4 h parts tid now st) :=
  heapWF_alloc (heapWF_alloc (heapWF_alloc (heapWF_allocAll parts h hwf) _) _) _

theorem taskMap_edges (h : Heap) (parts : List (List (String × HVal))) (tid : String)
    (k : String) (b : Nat)
    (hl : lookupH (taskMap h parts tid) k = some (HVal.ref b)) : b = stAddr h parts := by
  have hmem := lookupH_mem hl
  simp only [taskMap, List.mem_cons, List.not_mem_nil, or_false, Prod.mk.injEq] at hmem
  rcases hmem with ⟨_, hv⟩ | ⟨_, hv⟩
  · exact HVal.noConfusion hv
  · exact HVal.ref.inj hv

theorem stMap_edges (h : Heap) (parts : List (List (String × HVal))) (now st : String)
    (k : String) (b : Nat)
    (hl : lookupH (stMap h parts now st) k = some (HVal.ref b)) : b = msgAddr h parts := by
  have hmem := lookupH_mem hl
  simp only [stMap, List.mem_cons, List.not_mem_nil, or_false, Prod.mk.injEq] at hmem
  rcases hmem with ⟨_, hv⟩ | ⟨_, hv⟩ | ⟨_, hv⟩
  · exact HVal.noConfusion hv
  · exact HVal.ref.inj hv
  · exact HVal.noConfusion hv

theorem msgMap_edges (h : Heap) (parts : List (List (String × HVal)))
    (k : String) (b : Nat)
    (hl : lookupH (msgMap h parts) k = some (HVal.ref b)) : False := by
  have hmem := lookupH_mem hl
  simp only [msgMap, List.mem_cons, List.not_mem_nil, or_false, Prod.mk.injEq] at hmem
  rcases hmem with ⟨_, hv⟩ | ⟨_, hv⟩
  · exact HVal.noConfusion hv
  · exact HVal.noConfusion hv

theorem taskMapMeta_edges (h : Heap) (parts : List (List (String × HVal))) (tid : String)
    (ma : Nat) (k : String) (b : Nat)
    (hl : lookupH (insertH (taskMap h parts tid) "metadata" (HVal.ref ma)) k =
      some (HVal.ref b)) : (k = "metadata" ∧ b = ma) ∨ b = stAddr h parts := by
  have he : insertH (taskMap h parts tid) "metadata" (HVal.ref ma) =
      [("id", HVal.str tid), ("status", HVal.ref (stAddr h parts)),
       ("metadata", HVal.ref ma)] := rfl
  rw [he] at hl
  have hmem := lookupH_mem hl
  simp only [List.mem_cons, List.not_mem_nil, or_false, Prod.mk.injEq] at hmem
  rcases hmem with ⟨_, hv⟩ | ⟨_, hv⟩ | ⟨hk, hv⟩
  · exact HVal.noConfusion hv
  · exact Or.inr (HVal.ref.inj hv)
  · exact Or.inl ⟨hk, HVal.ref.inj hv⟩

theorem closed_coreH4 (h : Heap) (parts : List (List (String × HVal)))
    (tid now st : String) (hcl : Closed h)
    (hparts : ∀ m ∈ parts, ∀ (k : String) (b : Nat),
      lookupH m k = some (HVal.ref b) → b < h.next) :
    ∀ (a : Nat) (k : String) (b : Nat),
      lookupH ((coreH4 h parts tid now st).load a) k = some (HVal.ref b) →
      b < msgAddr h parts + 3 := by
  intro a k b hl
  have hm := msgAddr_ge h parts
  by_cases h1 : a = taskAddr h parts
  · subst h1
    rw [load_coreH4_task] at hl
    have hb := taskMap_edges h parts tid k b hl
    unfold stAddr at hb
    omega
  · by_cases h2 : a = stAddr h parts
    · subst h2
      rw [load_coreH4_st] at hl
      have hb := stMap_edges h parts now st k b hl
      omega
    · by_cases h3 : a = msgAddr h parts
      · subst h3
        rw [load_coreH4_msg] at hl
        exact (msgMap_edges h parts k b hl).elim
      · have e4 : (coreH4 h parts tid now st).load a =
            (coreH3 h parts now st).load a :=
          load_alloc_ne _ _ (show a ≠ msgAddr h parts + 2 from h1)
        have e3 : (coreH3 h parts now st).load a = (coreH2 h parts).load a :=
          load_alloc_ne _ _ (show a ≠ msgAddr h parts + 1 from h2)
        have e2 : (coreH2 h parts).load a = (allocAll h parts).1.load a :=
          load_alloc_ne _ _ (show a ≠ msgAddr h parts from h3)
        rw [e4, e3, e2] at hl
        rcases allocAll_load_cases parts h a with hc1 | ⟨m, hmm2, hem⟩
        · rw [hc1] at hl
          have := hcl a k b hl
          omega
        · rw [hem] at hl
          have := hparts m hmm2 k b hl
          omega

/-- Reachability from a task-shaped map: only the task, status and message
addresses are reachable, the invariant follows. -/
theorem taskInv_of_shape (hp : Heap) (n0 T sA mA : Nat)
    (hT : n0 ≤ T) (hs : n0 ≤ sA) (hmg : n0 ≤ mA)
    (htask : ∀ (k : String) (b : Nat), lookupH (hp.load T) k = some (HVal.ref b) →
      k = "metadata" ∨ b = sA)
    (htaskT : ∀ (k : String) (b : Nat), lookupH (hp.load T) k = some (HVal.ref b) → b ≠ T)
    (hst : ∀ (k : String) (b : Nat), lookupH (hp.load sA) k = some (HVal.ref b) → b = mA)
    (hmsg : ∀ (k : String) (b : Nat), lookupH (hp.load mA) k = some (HVal.ref b) → False)
    (hsT : sA ≠ T) (hmT : mA ≠ T) :
    TaskInv n0 T hp := by
  have hreach : ∀ b, ReachT hp T b → b = T ∨ b = sA ∨ b = mA := by
    intro b hb
    induction hb with
    | base => exact Or.inl rfl
    | step a' b' k' h1 h2 h3 ih =>
      rcases ih with h4 | h4 | h4
      · subst h4
        rcases htask k' b' h2 with hk | hb'
        · exact absurd hk (h3 rfl)
        · exact Or.inr (Or.inl hb')
      · subst h4
        exact Or.inr (Or.inr (hst k' b' h2))
      · subst h4
        exact (hmsg k' b' h2).elim
  constructor
  · intro b hb
    rcases hreach b hb with h4 | h4 | h4 <;> subst h4
    · exact hT
    · exact hs
    · exact hmg
  · intro a k b ha hl
    rcases hreach a ha with h4 | h4 | h4
    · subst h4
      exact htaskT k b hl
    · subst h4
      have hb := hst k b hl
      subst hb
      exact hmT
    · subst h4
      exact (hmsg k b hl).elim

theorem foldInv_coreH4_only (h : Heap) (lr : Nat) (parts : List (List (String × HVal)))
    (tid now st : String) (hwf : HeapWF h) (hcl : Closed h) (hlr : lr < h.next)
    (hparts : ∀ m ∈ parts, ∀ (k : String) (b : Nat),
      lookupH m k = some (HVal.ref b) → b < h.next) :
    FoldInv h (taskAddr h parts) (coreH4 h parts tid now st) := by
  have hm := msgAddr_ge h parts
  refine ⟨heapWF_coreH4 h parts tid now st hwf, ?_, ?_, ?_, ?_, ?_⟩
  · intro a k b hl
    have h1 := closed_coreH4 h parts tid now st hcl hparts a k b hl
    rw [next_coreH4]
    exact h1
  · refine taskInv_of_shape (coreH4 h parts tid now st) h.next (taskAddr h parts)
      (stAddr h parts) (msgAddr h parts)
      (by unfold taskAddr; omega) (by unfold stAddr; omega) (by omega)
      ?_ ?_ ?_ ?_
      (by unfold stAddr taskAddr; omega) (by unfold taskAddr; omega)
    · intro k b hl
      rw [load_coreH4_task] at hl
      exact Or.inr (taskMap_edges h parts tid k b hl)
    · intro k b hl
      rw [load_coreH4_task] at hl
      have hb := taskMap_edges h parts tid k b hl
      unfold stAddr at hb
      unfold taskAddr
      omega
    · intro k b hl
      rw [load_coreH4_st] at hl
      exact stMap_edges h parts now st k b hl
    · intro k b hl
      rw [load_coreH4_msg] at hl
      exact (msgMap_edges h parts k b hl).elim
  · unfold taskAddr
    omega
  · rw [next_coreH4]
    unfold taskAddr
    omega
  · intro a ha
    exact load_coreH4_lt h parts tid now st ha

theorem foldInv_coreH4_meta (h : Heap) (lr : Nat) (parts : List (List (String × HVal)))
    (tid now st : String) (ma : Nat) (hwf : HeapWF h) (hcl : Closed h) (hlr : lr < h.next)
    (hparts : ∀ m ∈ parts, ∀ (k : String) (b : Nat),
      lookupH m k = some (HVal.ref b) → b < h.next)
    (hma : ma < h.next) :
    FoldInv h (taskAddr h parts)
      ((coreH4 h parts tid now st).storeAt (taskAddr h parts)
        (insertH (taskMap h parts tid) "metadata" (HVal.ref ma))) := by
  have hm := msgAddr_ge h parts
  have hsT : stAddr h parts ≠ taskAddr h parts := by unfold stAddr taskAddr; omega
  have hmT : msgAddr h parts ≠ taskAddr h parts := by unfold taskAddr; omega
  refine ⟨?_, ?_, ?_, ?_, ?_, ?_⟩
  · exact heapWF_storeAt (heapWF_coreH4 h parts tid now st hwf) _
      (by rw [next_coreH4]; unfold taskAddr; omega)
  · intro a k b hl
    show b < msgAddr h parts + 3
    by_cases h1 : a = taskAddr h parts
    · subst h1
      rw [load_storeAt_self] at hl
      rcases taskMapMeta_edges h parts tid ma k b hl with ⟨_, hb⟩ | hb
      · omega
      · unfold stAddr at hb
        omega
    · rw [load_storeAt_ne _ _ h1] at hl
      exact closed_coreH4 h parts tid now st hcl hparts a k b hl
  · refine taskInv_of_shape _ h.next (taskAddr h parts) (stAddr h parts) (msgAddr h parts)
      (by unfold taskAddr; omega) (by unfold stAddr; omega) (by omega)
      ?_ ?_ ?_ ?_ hsT hmT
    · intro k b hl
      rw [load_storeAt_self] at hl
      rcases taskMapMeta_edges h parts tid ma k b hl with ⟨hk, _⟩ | hb
      · exact Or.inl hk
      · exact Or.inr hb
    · intro k b hl
      rw [load_storeAt_self] at hl
      rcases taskMapMeta_edges h parts tid ma k b hl with ⟨_, hb⟩ | hb
      · unfold taskAddr
        omega
      · unfold stAddr at hb
        unfold taskAddr
        omega
    · intro k b hl
      rw [load_storeAt_ne _ _ hsT, load_coreH4_st] at hl
      exact stMap_edges h parts now st k b hl
    · intro k b hl
      rw [load_storeAt_ne _ _ hmT, load_coreH4_msg] at hl
      exact (msgMap_edges h parts k b hl).elim
  · unfold taskAddr
    omega
  · show taskAddr h parts < msgAddr h parts + 3
    unfold taskAddr
    omega
  · intro a ha
    rw [load_storeAt_ne _ _ (show a ≠ taskAddr h parts by unfold taskAddr; omega)]
    exact load_coreH4_lt h parts tid now st ha

theorem assembleCore_fst (h : Heap) (lr : Nat) (parts : List (List (String × HVal)))
    (tid now st : String) :
    (assembleCore h lr parts tid now st).1 =
      match lookupH ((coreH4 h parts tid now st).load lr) "meta" with
      | some (HVal.ref ma) =>
        (coreH4 h parts tid now st).storeAt (taskAddr h parts)
          (insertH ((coreH4 h parts tid now st).load (taskAddr h parts)) "metadata"
            (HVal.ref ma))
      | _ => coreH4 h parts tid now st := rfl

theorem assembleCore_foldInv (h : Heap) (lr : Nat) (parts : List (List (String × HVal)))
    (tid now st : String) (hwf : HeapWF h) (hcl : Closed h) (hlr : lr < h.next)
    (hparts : ∀ m ∈ parts, ∀ (k : String) (b : Nat),
      lookupH m k = some (HVal.ref b) → b < h.next) :
    FoldInv h (assembleCore h lr parts tid now st).2
      (assembleCore h lr parts tid now st).1 := by
  have hlr4 : (coreH4 h parts tid now st).load lr = h.load lr :=
    load_coreH4_lt h parts tid now st hlr
  have e2 : (assembleCore h lr parts tid now st).2 = taskAddr h parts := rfl
  rw [e2, assembleCore_fst, hlr4]
  cases hmeta : lookupH (h.load lr) "meta" with
  | none => exact foldInv_coreH4_only h lr parts tid now st hwf hcl hlr hparts
  | some w =>
    cases w with
    | ref ma =>
      have hma : ma < h.next := hcl lr "meta" ma hmeta
      show FoldInv h (taskAddr h parts)
        ((coreH4 h parts tid now st).storeAt (taskAddr h parts)
          (insertH ((coreH4 h parts tid now st).load (taskAddr h parts)) "metadata"
            (HVal.ref ma)))
      rw [load_coreH4_task]
      exact foldInv_coreH4_meta h lr parts tid now st ma hwf hcl hlr hparts hma
    | null => exact foldInv_coreH4_only h lr parts tid now st hwf hcl hlr hparts
    | bool bb => exact foldInv_coreH4_only h lr parts tid now st hwf hcl hlr hparts
    | num s => exact foldInv_coreH4_only h lr parts tid now st hwf hcl hlr hparts
    | str s => exact foldInv_coreH4_only h lr parts tid now st hwf hcl hlr hparts
    | arr xs => exact foldInv_coreH4_only h lr parts tid now st hwf hcl hlr hparts

theorem no_ref_of_strs (k : String) (b : Nat) (k1 k2 s1 s2 : String) :
    lookupH [(k1, HVal.str s1), (k2, HVal.str s2)] k ≠ some (HVal.ref b) := by
  intro hl
  have hmem := lookupH_mem hl
  simp only [List.mem_cons, List.not_mem_nil, or_false, Prod.mk.injEq] at hmem
  rcases hmem with ⟨_, hv⟩ | ⟨_, hv⟩ <;> exact HVal.noConfusion hv

theorem defaultTextPartsH_no_ref (lrm : List (String × HVal)) (m : List (String × HVal))
    (hm : m ∈ defaultTextPartsH lrm) (k : String) (b : Nat) :
    lookupH m k ≠ some (HVal.ref b) := by
  unfold defaultTextPartsH at hm
  split at hm
  all_goals simp at hm
  all_goals obtain ⟨-, hm⟩ := hm
  all_goals subst hm
  all_goals exact no_ref_of_strs k b _ _ _ _

theorem taskPartsOf_refs (cfg : CfgH) (h : Heap) (lr : Nat) (hcl : Closed h) :
    ∀ m ∈ taskPartsOf cfg h lr, ∀ (k : String) (b : Nat),
      lookupH m k = some (HVal.ref b) → b < h.next := by
  intro m hm k b hl
  unfold taskPartsOf at hm
  rcases List.mem_append.mp hm with h1 | h2
  · split at h1
    · split at h1
      · split at h1
        · simp only [List.mem_singleton] at h1
          subst h1
          exact absurd hl (no_ref_of_strs k b _ _ _ _)
        · simp at h1
      · exact absurd hl (defaultTextPartsH_no_ref _ m h1 k b)
    · exact absurd hl (defaultTextPartsH_no_ref _ m h1 k b)
  · split at h2
    · rename_i ra heq
      simp only [List.mem_singleton] at h2
      subst h2
      have hmem := lookupH_mem hl
      simp only [List.mem_cons, List.not_mem_nil, or_false, Prod.mk.injEq] at hmem
      rcases hmem with ⟨_, hv⟩ | ⟨_, hv⟩
      · exact HVal.noConfusion hv
      · have hb : b = ra := HVal.ref.inj hv
        subst hb
        exact hcl lr "result" b heq
    · simp at h2
/-- Configuration for the amended theorem's witness: a single rule reading
`status` into `y` — no `metadata` target and no reference-valued source. -/
def cfg6ok : CfgH :=
  { mappings := [], legacyToA2A := [{ source := "status", target := "y" }] }

/-- C6 amended: each rule resolves its source value from the legacy response
object as it stands when that rule runs, and — outside the deliberate shared
structure — that is the original response. In the reference (heap)
semantics: for every well-formed, reference-closed heap and every
configuration whose response rules never target a path starting at
`metadata` and never resolve a source to a map reference, the full
`transformResponse` run leaves every address of the legacy response's region
untouched (first conjunct), so the rule at any position of the rule list
reads exactly the value the original response held at its source path
(second conjunct, phrased on the prefix of rules run before it). The
carve-outs are necessary: the assembled task's `metadata` entry is the
response's own `meta` map by reference (third and fourth conjuncts, on the
counterexample's heap), which is how the counterexample above defeats the
claim as stated. -/
theorem c6_rules_read_fixed_source (cfg : CfgH) (now : String) (h0 : Heap) (lr : Nat)
    (hwf : HeapWF h0) (hrc : RefClosed h0) (hlr : lr < h0.next)
    (htar : ∀ r ∈ cfg.legacyToA2A, (splitPath r.target).head? ≠ some "metadata")
    (hsrc : ∀ r ∈ cfg.legacyToA2A, notRefO (getPathH h0 lr (splitPath r.source)) = true) :
    (∀ a, a < h0.next → (transformResponseH cfg now h0 lr).1.load a = h0.load a) ∧
    (∀ (l1 : List TransformRule) (r : TransformRule) (l2 : List TransformRule),
      cfg.legacyToA2A = l1 ++ r :: l2 →
      getPathH (transformResponseH { cfg with legacyToA2A := l1 } now h0 lr).1 lr
          (splitPath r.source) =
        getPathH h0 lr (splitPath r.source)) ∧
    lookupH ((assembleTaskH cfg6 "T" heap6 0).1.load (assembleTaskH cfg6 "T" heap6 0).2)
      "metadata" = some (HVal.ref 1) ∧
    lookupH (heap6.load 0) "meta" = some (HVal.ref 1) := by
  have hcl0 : Closed h0 := closed_of_refClosed hrc
  have hgen : ∀ (rules : List TransformRule),
      (∀ r ∈ rules, (splitPath r.target).head? ≠ some "metadata") →
      (∀ r ∈ rules, notRefO (getPathH h0 lr (splitPath r.source)) = true) →
      FoldInv h0 (assembleTaskH cfg now h0 lr).2
        (rules.foldl (fun hh rule =>
          applyTransformRuleH rule hh lr (assembleTaskH cfg now h0 lr).2)
          (assembleTaskH cfg now h0 lr).1) := by
    intro rules h1 h2
    refine foldInv_foldl h0 lr (assembleTaskH cfg now h0 lr).2 hcl0 hlr rules _ ?_ h1 h2
    rw [assembleTaskH_eq_core]
    exact assembleCore_foldInv h0 lr (taskPartsOf cfg h0 lr) (taskIDOf h0 lr) now
      (taskStateOfH (h0.load lr)) hwf hcl0 hlr (taskPartsOf_refs cfg h0 lr hcl0)
  refine ⟨?_, ?_, rfl, rfl⟩
  · intro a ha
    have hfi := hgen cfg.legacyToA2A htar hsrc
    rw [transformResponseH_eq]
    exact hfi.2.2.2.2.2 a ha
  · intro l1 r l2 hdec
    have hmape : assembleTaskH { cfg with legacyToA2A := l1 } now h0 lr =
        assembleTaskH cfg now h0 lr := rfl
    have hfi := hgen l1
      (fun r' hr' => htar r' (by rw [hdec]; exact List.mem_append_left _ hr'))
      (fun r' hr' => hsrc r' (by rw [hdec]; exact List.mem_append_left _ hr'))
    rw [transformResponseH_eq]
    show getPathH
        (l1.foldl
          (fun hh rule =>
            applyTransformRuleH rule hh lr
              (assembleTaskH { cfg with legacyToA2A := l1 } now h0 lr).2)
          (assembleTaskH { cfg with legacyToA2A := l1 } now h0 lr).1)
        lr (splitPath r.source) =
      getPathH h0 lr (splitPath r.source)
    rw [hmape]
    exact getPathH_stable (splitPath r.source) _ h0 lr hfi.2.2.2.2.2 hcl0 hlr

/-- Witness for the C6 amended theorem: on the counterexample's legacy heap,
with the rule reading `status` into `y`, the response's `meta` map (address
1) is untouched by the whole transform. -/
theorem c6_rules_read_fixed_source_witness :
    (transformResponseH cfg6ok "T" heap6 0).1.load 1 = heap6.load 1 :=
  (c6_rules_read_fixed_source cfg6ok "T" heap6 0 (by decide) (by decide) (by decide)
    (by decide) (by decide)).1 1 (by decide)

end A2AConnector
